import Mathlib

/-!
# Verification of the ketchup-backend plan-generation engine

Shallow embedding of `src/agents/planning.py` (the planning agent
orchestration: output-recovery pipeline, plan normalizer, fallback
synthesizers, tool-calling loop controller) together with proofs of the
specification claims about it.

Modelling conventions:
* Python values flowing through `json.loads` / `ast.literal_eval` are
  modelled by the inductive type `PyVal`.  JSON/Python *numeric* literals
  are modelled as integers only; floating-point literals are outside the
  model (the claims under study never involve them).
* Python strings are modelled as `String` / `List Char`; byte-level and
  lone-surrogate corner cases of CPython are outside the model.
* `datetime.datetime` values are modelled as microseconds since the epoch
  (`Int`); `datetime.utcnow()` becomes an explicit `now` parameter.
* Exceptions are modelled with `Except` / `Option`; the distinction the
  orchestrator relies on (its own `PlannerError` versus any other
  exception) is kept in the error type `PyExc`.
-/

set_option maxRecDepth 100000

namespace Ketchup

/-- Python values produced by `json.loads` / `ast.literal_eval`
(restricted to the claim-relevant subset: no floats, tuples, sets or
bytes).  Dict keys are arbitrary values, as in Python. -/
inductive PyVal where
  | pnone : PyVal
  | pbool (b : Bool) : PyVal
  | pint (n : Int) : PyVal
  | pstr (s : String) : PyVal
  | plist (xs : List PyVal) : PyVal
  | pdict (kvs : List (PyVal × PyVal)) : PyVal

abbrev Chars := List Char

-- Structural equality test on `PyVal` (Python `==` restricted to the
-- modelled subset; the Python quirk `True == 1` is not reproduced — it is
-- irrelevant to the claims, which never mix key types).
mutual
def pyBeq : PyVal → PyVal → Bool
  | .pnone, .pnone => true
  | .pbool a, .pbool b => a == b
  | .pint a, .pint b => a == b
  | .pstr a, .pstr b => a == b
  | .plist a, .plist b => pyBeqL a b
  | .pdict a, .pdict b => pyBeqO a b
  | _, _ => false

def pyBeqL : List PyVal → List PyVal → Bool
  | [], [] => true
  | a :: as_, b :: bs => pyBeq a b && pyBeqL as_ bs
  | _, _ => false

def pyBeqO : List (PyVal × PyVal) → List (PyVal × PyVal) → Bool
  | [], [] => true
  | (ka, va) :: as_, (kb, vb) :: bs => pyBeq ka kb && pyBeq va vb && pyBeqO as_ bs
  | _, _ => false
end

/-! ## Character classes -/

/-- JSON whitespace (`json.decoder` skips exactly these). -/
def jsonWsB (c : Char) : Bool :=
  c == ' ' || c == '\t' || c == '\n' || c == '\r'

/-- Whitespace class of Python's regex `\s` and of `str.strip()`
(ASCII part; exotic unicode spaces are outside the model). -/
def pyWsB (c : Char) : Bool :=
  c == ' ' || c == '\t' || c == '\n' || c == '\r' ||
  c == Char.ofNat 11 || c == Char.ofNat 12

def skipWs (cs : Chars) : Chars := cs.dropWhile jsonWsB

def isDigitB (c : Char) : Bool := '0' ≤ c && c ≤ '9'

/-- Value of one hexadecimal digit (`0-9`, `a-f`, `A-F`), `none` for any
other character. -/
def hexVal (c : Char) : Option Nat :=
  let n := c.toNat
  if isDigitB c then some (n - 48)
  else if 97 ≤ n then (if n ≤ 102 then some (n - 87) else none)
  else if 65 ≤ n then (if n ≤ 70 then some (n - 55) else none)
  else none

def digitsToNat (ds : Chars) : Nat :=
  ds.foldl (fun acc c => 10 * acc + (c.toNat - '0'.toNat)) 0

/-! ## Strict JSON parsing (model of `json.loads`)

Faithful to Python's `json` module on the modelled subset: JSON
whitespace, strings with the standard escapes (including `\uXXXX` and
surrogate pairs; a *lone* surrogate, which CPython would keep, is not
representable in `Char` and is rejected), integers without leading
zeros.  Fractional/exponent number forms (floats) and `NaN/Infinity`
are outside the model and rejected. -/

mutual
/-- Parse the body of a JSON string literal (after the opening quote);
returns the content characters and the remainder after the closing
quote. -/
def jStr : Chars → Option (Chars × Chars)
  | [] => none
  | c0 :: rest =>
    if c0 = '"' then some ([], rest)
    else if c0 = '\\' then jStrEsc rest
    else if c0.toNat < 0x20 then none
    else (jStr rest).map (fun (s, r) => (c0 :: s, r))

/-- One escape sequence after a backslash inside a JSON string. -/
def jStrEsc : Chars → Option (Chars × Chars)
  | '"' :: t => (jStr t).map (fun (s, r) => ('"' :: s, r))
  | '\\' :: t => (jStr t).map (fun (s, r) => ('\\' :: s, r))
  | '/' :: t => (jStr t).map (fun (s, r) => ('/' :: s, r))
  | 'b' :: t => (jStr t).map (fun (s, r) => (Char.ofNat 8 :: s, r))
  | 'f' :: t => (jStr t).map (fun (s, r) => (Char.ofNat 12 :: s, r))
  | 'n' :: t => (jStr t).map (fun (s, r) => ('\n' :: s, r))
  | 'r' :: t => (jStr t).map (fun (s, r) => ('\r' :: s, r))
  | 't' :: t => (jStr t).map (fun (s, r) => ('\t' :: s, r))
  | 'u' :: h1 :: h2 :: h3 :: h4 :: t =>
    match hexVal h1, hexVal h2, hexVal h3, hexVal h4 with
    | some a, some b, some c, some d =>
      let n := ((a * 16 + b) * 16 + c) * 16 + d
      if 0xD800 ≤ n && n < 0xDC00 then
        -- high surrogate: require a low-surrogate continuation
        match t with
        | '\\' :: 'u' :: g1 :: g2 :: g3 :: g4 :: t2 =>
          match hexVal g1, hexVal g2, hexVal g3, hexVal g4 with
          | some a2, some b2, some c2, some d2 =>
            let m := ((a2 * 16 + b2) * 16 + c2) * 16 + d2
            if 0xDC00 ≤ m && m < 0xE000 then
              (jStr t2).map (fun (s, r) =>
                (Char.ofNat (0x10000 + (n - 0xD800) * 0x400 + (m - 0xDC00)) :: s, r))
            else none
          | _, _, _, _ => none
        | _ => none
      else if 0xDC00 ≤ n && n < 0xE000 then none
      else (jStr t).map (fun (s, r) => (Char.ofNat n :: s, r))
    | _, _, _, _ => none
  | _ => none
end

/-- Would the number continue as a float (`.`/`e`/`E` next)? -/
def floatStart : Chars → Bool
  | c :: _ => c == '.' || c == 'e' || c == 'E'
  | [] => false

/-- Unsigned JSON integer: `0` or a nonzero-leading digit run.  A
following `.`/`e`/`E` would make it a float, which is outside the
model. -/
def jUInt : Chars → Option (Nat × Chars)
  | [] => none
  | c :: t =>
    if c = '0' then (if floatStart t then none else some (0, t))
    else if isDigitB c then
      let ds := (c :: t).takeWhile isDigitB
      let r := (c :: t).dropWhile isDigitB
      if floatStart r then none else some (digitsToNat ds, r)
    else none

def jInt : Chars → Option (Int × Chars)
  | [] => none
  | c :: t =>
    if c = '-' then (jUInt t).map (fun (n, r) => (-(n : Int), r))
    else (jUInt (c :: t)).map (fun (n, r) => ((n : Int), r))

/-- Python `dict` insertion: a duplicate key keeps the first position and
takes the newest value. -/
def dictInsert (kvs : List (PyVal × PyVal)) (k v : PyVal) : List (PyVal × PyVal) :=
  if kvs.any (fun kv => pyBeq kv.1 k) then
    kvs.map (fun kv => if pyBeq kv.1 k then (kv.1, v) else kv)
  else kvs ++ [(k, v)]

mutual
/-- One JSON value (after optional whitespace). -/
def jVal : Nat → Chars → Option (PyVal × Chars)
  | 0, _ => none
  | fuel + 1, cs =>
    match skipWs cs with
    | [] => none
    | c :: rest =>
      if c = '{' then jObj fuel rest
      else if c = '[' then jArr fuel rest
      else if c = '"' then (jStr rest).map (fun (s, r) => (.pstr (String.mk s), r))
      else if "true".data.isPrefixOf (c :: rest) then some (.pbool true, (c :: rest).drop 4)
      else if "false".data.isPrefixOf (c :: rest) then some (.pbool false, (c :: rest).drop 5)
      else if "null".data.isPrefixOf (c :: rest) then some (.pnone, (c :: rest).drop 4)
      else (jInt (c :: rest)).map (fun (n, r) => (.pint n, r))

/-- JSON array body (after the `[`). -/
def jArr : Nat → Chars → Option (PyVal × Chars)
  | 0, _ => none
  | fuel + 1, cs =>
    match skipWs cs with
    | [] => jArrLoop fuel cs []
    | c :: rest =>
      if c = ']' then some (.plist [], rest)
      else jArrLoop fuel cs []

def jArrLoop : Nat → Chars → List PyVal → Option (PyVal × Chars)
  | 0, _, _ => none
  | fuel + 1, cs, acc =>
    match jVal fuel cs with
    | none => none
    | some (v, rest) =>
      match skipWs rest with
      | [] => none
      | c :: rest2 =>
        if c = ',' then jArrLoop fuel rest2 (acc ++ [v])
        else if c = ']' then some (.plist (acc ++ [v]), rest2)
        else none

/-- JSON object body (after the `{`). -/
def jObj : Nat → Chars → Option (PyVal × Chars)
  | 0, _ => none
  | fuel + 1, cs =>
    match skipWs cs with
    | [] => jObjLoop fuel cs []
    | c :: rest =>
      if c = '}' then some (.pdict [], rest)
      else jObjLoop fuel cs []

def jObjLoop : Nat → Chars → List (PyVal × PyVal) → Option (PyVal × Chars)
  | 0, _, _ => none
  | fuel + 1, cs, acc =>
    match skipWs cs with
    | [] => none
    | c :: rest =>
      if c = '"' then
        match jStr rest with
        | none => none
        | some (kcs, rest1) =>
          match skipWs rest1 with
          | [] => none
          | c1 :: rest2 =>
            if c1 = ':' then
              match jVal fuel rest2 with
              | none => none
              | some (v, rest3) =>
                let acc2 := dictInsert acc (.pstr (String.mk kcs)) v
                match skipWs rest3 with
                | [] => none
                | c2 :: rest4 =>
                  if c2 = ',' then jObjLoop fuel rest4 acc2
                  else if c2 = '}' then some (.pdict acc2, rest4)
                  else none
            else none
      else none
end

/-- Model of `json.loads`: one value, then only trailing whitespace. -/
def jsonLoadsC (cs : Chars) : Option PyVal :=
  match jVal (2 * cs.length + 2) cs with
  | some (v, rest) => if skipWs rest = [] then some v else none
  | none => none

def jsonLoads (s : String) : Option PyVal := jsonLoadsC s.data


/-! ## Python literal parsing (model of `ast.literal_eval`)

Faithful to CPython on the claim-relevant subset: `None`/`True`/`False`,
integers with an optional single unary sign, single- or double-quoted
strings with the common escapes (an unknown escape keeps the backslash,
as in Python), lists and dicts with an optional trailing comma.
Constructs outside the `PyVal` model — floats, complex numbers, tuples,
sets, bytes/f-strings, triple-quoted or concatenated strings, non-decimal
integer literals — are rejected. -/

/-- Identifier-continuation characters (a keyword such as `None` must not
be followed by one). -/
def identCharB (c : Char) : Bool :=
  ('a' ≤ c && c ≤ 'z') || ('A' ≤ c && c ≤ 'Z') || isDigitB c || c == '_'

def skipPyWs (cs : Chars) : Chars := cs.dropWhile pyWsB

def isOctB (c : Char) : Bool := '0' ≤ c && c ≤ '7'

mutual
/-- Body of a Python string literal with quote character `q` (after the
opening quote), fuel-bounded so that the octal/unknown-escape re-reads
stay structural; `2 * length + 2` fuel always suffices. -/
def pStr (q : Char) : Nat → Chars → Option (Chars × Chars)
  | 0, _ => none
  | _ + 1, [] => none
  | fuel + 1, c0 :: rest =>
    if c0 = '\\' then pStrEsc q fuel rest
    else if c0 = q then some ([], rest)
    else if c0 = '\n' || c0 = '\r' then none   -- raw newline ends the source line
    else (pStr q fuel rest).map (fun (s, r) => (c0 :: s, r))

/-- One escape sequence after a backslash inside a Python string
literal. -/
def pStrEsc (q : Char) : Nat → Chars → Option (Chars × Chars)
  | 0, _ => none
  | fuel + 1, cs =>
    match cs with
    | '\\' :: t => (pStr q fuel t).map (fun (s, r) => ('\\' :: s, r))
    | '\'' :: t => (pStr q fuel t).map (fun (s, r) => ('\'' :: s, r))
    | '"' :: t => (pStr q fuel t).map (fun (s, r) => ('"' :: s, r))
    | 'n' :: t => (pStr q fuel t).map (fun (s, r) => ('\n' :: s, r))
    | 'r' :: t => (pStr q fuel t).map (fun (s, r) => ('\r' :: s, r))
    | 't' :: t => (pStr q fuel t).map (fun (s, r) => ('\t' :: s, r))
    | 'b' :: t => (pStr q fuel t).map (fun (s, r) => (Char.ofNat 8 :: s, r))
    | 'f' :: t => (pStr q fuel t).map (fun (s, r) => (Char.ofNat 12 :: s, r))
    | 'v' :: t => (pStr q fuel t).map (fun (s, r) => (Char.ofNat 11 :: s, r))
    | 'a' :: t => (pStr q fuel t).map (fun (s, r) => (Char.ofNat 7 :: s, r))
    | '\n' :: t => pStr q fuel t           -- line continuation
    | 'x' :: h1 :: h2 :: t =>
      match hexVal h1, hexVal h2 with
      | some a, some b => (pStr q fuel t).map (fun (s, r) => (Char.ofNat (a * 16 + b) :: s, r))
      | _, _ => none
    | 'u' :: h1 :: h2 :: h3 :: h4 :: t =>
      match hexVal h1, hexVal h2, hexVal h3, hexVal h4 with
      | some a, some b, some c, some d =>
        let n := ((a * 16 + b) * 16 + c) * 16 + d
        if 0xD800 ≤ n && n < 0xE000 then none   -- lone surrogate: outside `Char`
        else (pStr q fuel t).map (fun (s, r) => (Char.ofNat n :: s, r))
      | _, _, _, _ => none
    | c :: t =>
      if isOctB c then
        -- up to three octal digits
        match t with
        | c2 :: c3 :: t2 =>
          if isOctB c2 && isOctB c3 then
            (pStr q fuel t2).map (fun (s, r) =>
              (Char.ofNat (((c.toNat - 48) * 8 + (c2.toNat - 48)) * 8 + (c3.toNat - 48)) :: s, r))
          else if isOctB c2 then
            (pStr q fuel (c3 :: t2)).map (fun (s, r) =>
              (Char.ofNat ((c.toNat - 48) * 8 + (c2.toNat - 48)) :: s, r))
          else (pStr q fuel (c2 :: c3 :: t2)).map (fun (s, r) => (Char.ofNat (c.toNat - 48) :: s, r))
        | [c2] =>
          if isOctB c2 then
            (pStr q fuel []).map (fun (s, r) => (Char.ofNat ((c.toNat - 48) * 8 + (c2.toNat - 48)) :: s, r))
          else (pStr q fuel [c2]).map (fun (s, r) => (Char.ofNat (c.toNat - 48) :: s, r))
        | [] => (pStr q fuel []).map (fun (s, r) => (Char.ofNat (c.toNat - 48) :: s, r))
      else
        -- unknown escape: Python keeps the backslash and the character
        (pStr q fuel (c :: t)).map (fun (s, r) => ('\\' :: s, r))
    | [] => none
end

/-- Python decimal integer literal: digits with single underscores
between digits, no leading zeros (a run of zeros is allowed). -/
def pIntLit (cs : Chars) : Option (Nat × Chars) :=
  let run := cs.takeWhile (fun c => isDigitB c || c == '_')
  let rest := cs.dropWhile (fun c => isDigitB c || c == '_')
  let digits := run.filter isDigitB
  if run.isEmpty then none
  else if !(isDigitB (run.headD ' ')) || !(isDigitB (run.getLastD ' ')) then none
  else if (run.zip (run.drop 1)).any (fun p => p.1 == '_' && p.2 == '_') then none
  else if run.headD ' ' == '0' && digits.any (fun c => c != '0') then none
  else
    match rest with
    | c :: _ => if identCharB c || c == '.' then none else some (digitsToNat digits, rest)
    | [] => some (digitsToNat digits, rest)

/-- Keyword boundary: the next character must not continue an
identifier. -/
def kwBoundary : Chars → Bool
  | c :: _ => !identCharB c
  | [] => true

mutual
def pVal : Nat → Chars → Option (PyVal × Chars)
  | 0, _ => none
  | fuel + 1, cs =>
    match skipPyWs cs with
    | [] => none
    | c :: rest =>
      if c = '[' then pArr fuel rest
      else if c = '{' then pDict fuel rest
      else if c = '\'' then
        (pStr '\'' (2 * rest.length + 2) rest).map (fun (s, r) => (.pstr (String.mk s), r))
      else if c = '"' then
        (pStr '"' (2 * rest.length + 2) rest).map (fun (s, r) => (.pstr (String.mk s), r))
      else if "True".data.isPrefixOf (c :: rest) && kwBoundary ((c :: rest).drop 4) then
        some (.pbool true, (c :: rest).drop 4)
      else if "False".data.isPrefixOf (c :: rest) && kwBoundary ((c :: rest).drop 5) then
        some (.pbool false, (c :: rest).drop 5)
      else if "None".data.isPrefixOf (c :: rest) && kwBoundary ((c :: rest).drop 4) then
        some (.pnone, (c :: rest).drop 4)
      else if c = '-' then (pIntLit (skipPyWs rest)).map (fun (n, r) => (.pint (-(n : Int)), r))
      else if c = '+' then (pIntLit (skipPyWs rest)).map (fun (n, r) => (.pint (n : Int), r))
      else (pIntLit (c :: rest)).map (fun (n, r) => (.pint (n : Int), r))

def pArr : Nat → Chars → Option (PyVal × Chars)
  | 0, _ => none
  | fuel + 1, cs =>
    match skipPyWs cs with
    | [] => pArrLoop fuel cs []
    | c :: rest =>
      if c = ']' then some (.plist [], rest)
      else pArrLoop fuel cs []

def pArrLoop : Nat → Chars → List PyVal → Option (PyVal × Chars)
  | 0, _, _ => none
  | fuel + 1, cs, acc =>
    match pVal fuel cs with
    | none => none
    | some (v, rest) =>
      match skipPyWs rest with
      | [] => none
      | c :: rest2 =>
        if c = ',' then
          match skipPyWs rest2 with
          | [] => pArrLoop fuel rest2 (acc ++ [v])
          | c2 :: rest3 =>
            if c2 = ']' then some (.plist (acc ++ [v]), rest3)
            else pArrLoop fuel rest2 (acc ++ [v])
        else if c = ']' then some (.plist (acc ++ [v]), rest2)
        else none

def pDict : Nat → Chars → Option (PyVal × Chars)
  | 0, _ => none
  | fuel + 1, cs =>
    match skipPyWs cs with
    | [] => pDictLoop fuel cs []
    | c :: rest =>
      if c = '}' then some (.pdict [], rest)
      else pDictLoop fuel cs []

def pDictLoop : Nat → Chars → List (PyVal × PyVal) → Option (PyVal × Chars)
  | 0, _, _ => none
  | fuel + 1, cs, acc =>
    match pVal fuel cs with
    | none => none
    | some (k, rest) =>
      match skipPyWs rest with
      | [] => none
      | c :: rest1 =>
        if c = ':' then
          match pVal fuel rest1 with
          | none => none
          | some (v, rest2) =>
            let acc2 := dictInsert acc k v
            match skipPyWs rest2 with
            | [] => none
            | c2 :: rest3 =>
              if c2 = ',' then
                match skipPyWs rest3 with
                | [] => pDictLoop fuel rest3 acc2
                | c3 :: rest4 =>
                  if c3 = '}' then some (.pdict acc2, rest4)
                  else pDictLoop fuel rest3 acc2
              else if c2 = '}' then some (.pdict acc2, rest3)
              else none
        else none
end

/-- Model of `ast.literal_eval` (on the modelled subset). -/
def literalEvalC (cs : Chars) : Option PyVal :=
  match pVal (2 * cs.length + 2) cs with
  | some (v, rest) => if skipPyWs rest = [] then some v else none
  | none => none


/-! ## Serializers

`dumpsV` models `json.dumps` with its defaults (`ensure_ascii=True`,
separators `", "` and `": "`); `pyReprV` models Python `repr`/`str`
rendering of values (single-quoted strings, `True`/`False`/`None`). -/

/-- Decimal digits of a natural number (fuel-structured so it reduces
in the kernel; `natDigits n` is `str(n)` for naturals). -/
def natDigitsAux : Nat → Nat → Chars
  | 0, _ => []
  | fuel + 1, n =>
    if n < 10 then [Char.ofNat ('0'.toNat + n)]
    else natDigitsAux fuel (n / 10) ++ [Char.ofNat ('0'.toNat + n % 10)]

def natDigits (n : Nat) : Chars := natDigitsAux (n + 1) n

/-- `str(n)` for Python ints (decimal, `-` sign). -/
def intRepr : Int → Chars
  | .ofNat n => natDigits n
  | .negSucc m => '-' :: natDigits (m + 1)

def hexDigitLower (n : Nat) : Char :=
  if n < 10 then Char.ofNat ('0'.toNat + n) else Char.ofNat ('a'.toNat + (n - 10))

def uEscape (n : Nat) : Chars :=
  ['\\', 'u', hexDigitLower (n / 4096 % 16), hexDigitLower (n / 256 % 16),
   hexDigitLower (n / 16 % 16), hexDigitLower (n % 16)]

/-- `json.dumps` escaping of one string character (`ensure_ascii=True`). -/
def jsonEscapeChar (c : Char) : Chars :=
  if c == '\\' then ['\\', '\\']
  else if c == '"' then ['\\', '"']
  else if c == '\n' then ['\\', 'n']
  else if c == '\r' then ['\\', 'r']
  else if c == '\t' then ['\\', 't']
  else if c == Char.ofNat 8 then ['\\', 'b']
  else if c == Char.ofNat 12 then ['\\', 'f']
  else if c.toNat < 0x20 || c.toNat > 0x7E then
    if c.toNat < 0x10000 then uEscape c.toNat
    else
      let m := c.toNat - 0x10000
      uEscape (0xD800 + m / 0x400) ++ uEscape (0xDC00 + m % 0x400)
  else [c]

def jsonQuote (s : String) : Chars :=
  '"' :: (s.data.map jsonEscapeChar).flatten ++ ['"']

/-- How `json.dumps` renders a dict key (string keys verbatim; scalar
non-string keys are coerced to their JSON text; container keys, a
`TypeError` in Python, do not occur in this development). -/
def jsonKeyChars : PyVal → Chars
  | .pstr s => jsonQuote s
  | .pint n => '"' :: intRepr n ++ ['"']
  | .pbool true => "\"true\"".data
  | .pbool false => "\"false\"".data
  | _ => "\"null\"".data

mutual
def dumpsV : PyVal → Chars
  | .pnone => "null".data
  | .pbool true => "true".data
  | .pbool false => "false".data
  | .pint n => intRepr n
  | .pstr s => jsonQuote s
  | .plist xs => '[' :: dumpsL xs ++ [']']
  | .pdict kvs => '{' :: dumpsO kvs ++ ['}']

def dumpsL : List PyVal → Chars
  | [] => []
  | [x] => dumpsV x
  | x :: y :: xs => dumpsV x ++ [',', ' '] ++ dumpsL (y :: xs)

def dumpsO : List (PyVal × PyVal) → Chars
  | [] => []
  | [(k, v)] => jsonKeyChars k ++ [':', ' '] ++ dumpsV v
  | (k, v) :: kv :: kvs =>
    jsonKeyChars k ++ [':', ' '] ++ dumpsV v ++ [',', ' '] ++ dumpsO (kv :: kvs)
end

def jsonDumps (v : PyVal) : String := String.mk (dumpsV v)

/-- Python `repr` escaping of one character inside a single-quoted string
(unprintable exotica beyond the ASCII controls are outside the model). -/
def reprEscapeChar (c : Char) : Chars :=
  if c == '\\' then ['\\', '\\']
  else if c == '\'' then ['\\', '\'']
  else if c == '\n' then ['\\', 'n']
  else if c == '\r' then ['\\', 'r']
  else if c == '\t' then ['\\', 't']
  else if c.toNat < 0x20 || c.toNat == 0x7F then
    ['\\', 'x', hexDigitLower (c.toNat / 16), hexDigitLower (c.toNat % 16)]
  else [c]

/-- Python `repr` of a string (the single-quote-preferred form; the
claims only exercise strings without quote characters). -/
def reprQuote (s : String) : Chars :=
  '\'' :: (s.data.map reprEscapeChar).flatten ++ ['\'']

mutual
def pyReprV : PyVal → Chars
  | .pnone => "None".data
  | .pbool true => "True".data
  | .pbool false => "False".data
  | .pint n => intRepr n
  | .pstr s => reprQuote s
  | .plist xs => '[' :: pyReprL xs ++ [']']
  | .pdict kvs => '{' :: pyReprO kvs ++ ['}']

def pyReprL : List PyVal → Chars
  | [] => []
  | [x] => pyReprV x
  | x :: y :: xs => pyReprV x ++ [',', ' '] ++ pyReprL (y :: xs)

def pyReprO : List (PyVal × PyVal) → Chars
  | [] => []
  | [(k, v)] => pyReprV k ++ [':', ' '] ++ pyReprV v
  | (k, v) :: kv :: kvs =>
    pyReprV k ++ [':', ' '] ++ pyReprV v ++ [',', ' '] ++ pyReprO (kv :: kvs)
end

/-- Python `str()` of a value (strings verbatim, everything else its
`repr`), as used by `_normalize_plan` for titles. -/
def pyStrOf : PyVal → String
  | .pstr s => s
  | v => String.mk (pyReprV v)

/-! ## `_strip_code_fence` -/

def pyStripC (cs : Chars) : Chars :=
  ((cs.dropWhile pyWsB).reverse.dropWhile pyWsB).reverse

def lowerEqB (a b : Char) : Bool := a.toLower == b.toLower

/-- Case-insensitive literal prefix match; returns the rest on success. -/
def stripPrefixCI : Chars → Chars → Option Chars
  | [], cs => some cs
  | _ :: _, [] => none
  | p :: ps, c :: cs => if lowerEqB p c then stripPrefixCI ps cs else none

/-- Find the first (case-insensitive) `</think>` and return the suffix
after it — the non-greedy `.*?` of the regex. -/
def findCloseThink : Chars → Option Chars
  | [] => none
  | c :: cs =>
    match stripPrefixCI "</think>".data (c :: cs) with
    | some rest => some rest
    | none => findCloseThink cs

/-- `re.sub(r"<think>.*?</think>", "", _, DOTALL|IGNORECASE)`:
left-to-right, non-overlapping; an unclosed `<think>` matches nothing. -/
def removeThinkAux : Nat → Chars → Chars
  | 0, cs => cs
  | fuel + 1, cs =>
    match cs with
    | [] => []
    | c :: rest =>
      match stripPrefixCI "<think>".data (c :: rest) with
      | some after =>
        match findCloseThink after with
        | some suffix => removeThinkAux fuel suffix
        | none => c :: removeThinkAux fuel rest
      | none => c :: removeThinkAux fuel rest

def removeThink (cs : Chars) : Chars := removeThinkAux cs.length cs

/-- Characters matched by the fence-tag class `[a-zA-Z0-9_\-]`. -/
def fenceTagB (c : Char) : Bool :=
  ('a' ≤ c && c ≤ 'z') || ('A' ≤ c && c ≤ 'Z') || isDigitB c || c == '_' || c == '-'

/-- Model of `_strip_code_fence`. -/
def stripCodeFenceC (text : Chars) : Chars :=
  let candidate := pyStripC text
  let candidate := pyStripC (removeThink candidate)
  if "```".data.isPrefixOf candidate then
    let candidate := pyStripC ((candidate.drop 3).dropWhile fenceTagB)
    if "```".data.isSuffixOf candidate then
      pyStripC (candidate.take (candidate.length - 3))
    else candidate
  else candidate

/-! ## `_extract_balanced_segment`, `_extract_json_candidate`,
`_sanitize_json_like` -/

/-- The per-character state machine of `_extract_balanced_segment`
(double-quote tracking with backslash escapes; only the chosen
opener/closer pair affects the depth). -/
def extractBalAux (opener closer : Char) :
    Chars → Int → Bool → Bool → Chars → Option Chars
  | [], _, _, _, _ => none
  | ch :: rest, depth, inStr, esc, acc =>
    if inStr then
      if esc then extractBalAux opener closer rest depth true false (acc ++ [ch])
      else if ch == '\\' then extractBalAux opener closer rest depth true true (acc ++ [ch])
      else if ch == '"' then extractBalAux opener closer rest depth false false (acc ++ [ch])
      else extractBalAux opener closer rest depth true false (acc ++ [ch])
    else if ch == '"' then extractBalAux opener closer rest depth true false (acc ++ [ch])
    else if ch == opener then extractBalAux opener closer rest (depth + 1) false false (acc ++ [ch])
    else if ch == closer then
      if depth - 1 == 0 then some (acc ++ [ch])
      else extractBalAux opener closer rest (depth - 1) false false (acc ++ [ch])
    else extractBalAux opener closer rest depth false false (acc ++ [ch])

/-- Model of `_extract_balanced_segment` from the first character of the
candidate span. -/
def extractBalancedSegment (cs : Chars) : Option Chars :=
  match cs with
  | c :: _ =>
    let closer := if c == '{' then '}' else ']'
    extractBalAux c closer cs 0 false false []
  | [] => none

/-- Model of `_extract_json_candidate`: try each `{`/`[` position from
the left until one yields a balanced segment. -/
def extractJsonCandidateC : Chars → Option Chars
  | [] => none
  | c :: rest =>
    if c == '{' || c == '[' then
      match extractBalancedSegment (c :: rest) with
      | some seg => some seg
      | none => extractJsonCandidateC rest
    else extractJsonCandidateC rest

/-- Model of `re.sub(r",\s*([}\]])", r"\1", _)`: a comma whose next
non-whitespace character is a closer is deleted (scanning resumes after
the closer). -/
def sanitizeAux : Nat → Chars → Chars
  | 0, cs => cs
  | fuel + 1, cs =>
    match cs with
    | [] => []
    | c0 :: rest =>
      if c0 = ',' then
        match rest.dropWhile pyWsB with
        | c :: t =>
          if c == '}' || c == ']' then c :: sanitizeAux fuel t
          else ',' :: sanitizeAux fuel rest
        | [] => ',' :: sanitizeAux fuel rest
      else c0 :: sanitizeAux fuel rest

def sanitizeJsonLikeC (cs : Chars) : Chars := sanitizeAux cs.length cs

/-! ## `_parse_json_like` -/

/-- Exceptions distinguished by the orchestrator: its own `PlannerError`
versus any other exception (here: the `TypeError` reachable from slicing
a non-sliceable `plans` payload). -/
inductive PyExc where
  | plannerError (msg : String)
  | typeError (msg : String)
  deriving DecidableEq, Repr

/-- Model of `_parse_json_like`. -/
def parseJsonLikeC (text : Chars) : Except PyExc PyVal :=
  let candidate := pyStripC text
  if candidate.isEmpty then .error (.plannerError "LLM output was empty")
  else
    match jsonLoadsC candidate with
    | some v => .ok v
    | none =>
      match extractJsonCandidateC candidate with
      | some substring =>
        let cleaned := sanitizeJsonLikeC substring
        match jsonLoadsC cleaned with
        | some v => .ok v
        | none =>
          match literalEvalC cleaned with
          | some v => .ok v
          | none => .error (.plannerError "LLM output JSON parse failed")
      | none =>
        match literalEvalC candidate with
        | some v => .ok v
        | none => .error (.plannerError "LLM output was not valid JSON")

def parseJsonLike (text : String) : Except PyExc PyVal := parseJsonLikeC text.data

/-- The recovery pipeline as `_extract_plans` runs it: `_strip_code_fence`
followed by `_parse_json_like`. -/
def recoverJson (text : String) : Except PyExc PyVal :=
  parseJsonLikeC (stripCodeFenceC text.data)


/-! ## Python value helpers used by the normalizer -/

def pyTruthy : PyVal → Bool
  | .pnone => false
  | .pbool b => b
  | .pint n => n != 0
  | .pstr s => !s.isEmpty
  | .plist xs => !xs.isEmpty
  | .pdict kvs => !kvs.isEmpty

/-- `d.get(k)` on a dict with the (string) key `k`; a missing key is
Python `None`. -/
def pyGet (kvs : List (PyVal × PyVal)) (k : String) : PyVal :=
  ((kvs.find? (fun kv => pyBeq kv.1 (.pstr k))).map (·.2)).getD .pnone

/-- Python `a or b`. -/
def pyOr (a b : PyVal) : PyVal := if pyTruthy a then a else b

/-! ## `datetime` (modelled as microseconds since the Unix epoch)

`datetime.utcnow()` becomes an explicit `now : Int` parameter.  The
subset of ISO-8601 accepted by `_parse_datetime`'s
`datetime.fromisoformat` call is modelled on the common dashed form;
the claims never depend on its exact domain. -/

def isLeapYear (y : Int) : Bool :=
  (y.emod 4 == 0 && y.emod 100 != 0) || y.emod 400 == 0

def daysInMonth (y : Int) (m : Nat) : Nat :=
  if m == 2 then (if isLeapYear y then 29 else 28)
  else if m == 4 || m == 6 || m == 9 || m == 11 then 30
  else 31

/-- Days from civil date to the epoch (Howard Hinnant's algorithm). -/
def daysFromCivil (y : Int) (m d : Nat) : Int :=
  let y' : Int := if m ≤ 2 then y - 1 else y
  let era : Int := y'.fdiv 400
  let yoe : Int := y' - era * 400
  let doy : Int := ((153 * (if m > 2 then (m : Int) - 3 else (m : Int) + 9) + 2).fdiv 5) + d - 1
  let doe : Int := yoe * 365 + yoe.fdiv 4 - yoe.fdiv 100 + doy
  era * 146097 + doe - 719468

def getDigits (n : Nat) (cs : Chars) : Option (Nat × Chars) :=
  let ds := cs.take n
  if ds.length == n && ds.all isDigitB then some (digitsToNat ds, cs.drop n) else none

def parseIsoTzOffset : Chars → Option Int
  | sign :: rest =>
    if sign == '+' || sign == '-' then
      match getDigits 2 rest with
      | some (oh, ':' :: rest2) =>
        match getDigits 2 rest2 with
        | some (om, []) =>
          if oh ≤ 23 && om ≤ 59 then
            some ((if sign == '-' then -1 else 1) * ((oh : Int) * 60 + om))
          else none
        | _ => none
      | _ => none
    else none
  | [] => none

def parseIsoFraction : Chars → Option (Nat × Chars)
  | sep :: rest =>
    if sep == '.' || sep == ',' then
      let ds := rest.takeWhile isDigitB
      if 1 ≤ ds.length && ds.length ≤ 6 then
        some (digitsToNat ds * 10 ^ (6 - ds.length), rest.dropWhile isDigitB)
      else none
    else none
  | [] => none

def parseIsoTime (cs : Chars) : Option (Nat × Option Int) :=
  match getDigits 2 cs with
  | some (hh, ':' :: rest1) =>
    (match getDigits 2 rest1 with
     | some (mm, rest2) =>
       let step : Nat → Chars → Option (Nat × Option Int) := fun base rest =>
         (match rest with
          | [] => some (base, none)
          | _ =>
            match parseIsoTzOffset rest with
            | some off => some (base, some off)
            | none => none)
       (if hh ≤ 23 && mm ≤ 59 then
          match rest2 with
          | ':' :: rest3 =>
            (match getDigits 2 rest3 with
             | some (ss, rest4) =>
               (if ss ≤ 59 then
                  match parseIsoFraction rest4 with
                  | some (us, rest5) =>
                    step ((hh * 3600 + mm * 60 + ss) * 1000000 + us) rest5
                  | none => step ((hh * 3600 + mm * 60 + ss) * 1000000) rest4
                else none)
             | _ => none)
          | _ => step ((hh * 3600 + mm * 60) * 1000000) rest2
        else none)
     | none => none)
  | _ => none

/-- Model of `datetime.fromisoformat` (dashed date, optional `T`/space
time, optional `±HH:MM` offset), returning epoch microseconds (a naive
result is taken at face value; no claim compares naive with aware). -/
def pyFromIso (cs : Chars) : Option Int :=
  match getDigits 4 cs with
  | some (y, '-' :: rest1) =>
    (match getDigits 2 rest1 with
     | some (m, '-' :: rest2) =>
       (match getDigits 2 rest2 with
        | some (d, rest3) =>
          (if 1 ≤ m && m ≤ 12 && 1 ≤ d && d ≤ daysInMonth (y : Int) m then
             let dayUs : Int := daysFromCivil (y : Int) m d * 86400 * 1000000
             match rest3 with
             | [] => some dayUs
             | sep :: rest4 =>
               if sep == 'T' || sep == ' ' then
                 match parseIsoTime rest4 with
                 | some (tod, off) =>
                   some (dayUs + (tod : Int) - (off.getD 0) * 60 * 1000000)
                 | none => none
               else none
           else none)
        | _ => none)
     | _ => none)
  | _ => none

def replaceZ (cs : Chars) : Chars :=
  cs.flatMap (fun c => if c == 'Z' then "+00:00".data else [c])

/-- Model of `_parse_datetime`. -/
def parseDatetime (value : PyVal) : Option Int :=
  if !pyTruthy value then none
  else
    match value with
    | .pstr s => pyFromIso (replaceZ s.data)
    | _ => none


/-! ## The canonical plan shape and `_normalize_plan` / `_extract_plans` -/

def DEFAULT_VIBES : List String := ["anchor", "pivot", "reach", "chill", "wildcard"]

/-- The canonical plan record.  Fields whose values the Python code does
not coerce to `str` stay `PyVal`. -/
structure Plan where
  title : String
  description : PyVal
  vibe_type : String
  date_time : Option Int
  location : PyVal
  venue_name : PyVal
  estimated_cost : PyVal
  logistics : List (PyVal × PyVal)

/-- Model of `_normalize_plan`. -/
def normalizePlan (raw : List (PyVal × PyVal)) (idx : Nat) : Plan :=
  let rawVibe := pyGet raw "vibe_type"
  let vibe :=
    match rawVibe with
    | .pstr s => if DEFAULT_VIBES.contains s then s else DEFAULT_VIBES.getD (min idx 4) ""
    | _ => DEFAULT_VIBES.getD (min idx 4) ""
  let logistics :=
    match pyGet raw "logistics" with
    | .pdict kvs => kvs
    | _ => []
  { title := pyStrOf (pyOr (pyGet raw "title") (.pstr s!"Plan Option \x7bidx + 1\x7d"))
    description := pyOr (pyGet raw "description") (.pstr "")
    vibe_type := vibe
    date_time := parseDatetime (pyGet raw "date_time")
    location := pyOr (pyGet raw "location") (.pstr "")
    venue_name := pyOr (pyOr (pyGet raw "venue_name") (pyGet raw "title")) (.pstr "")
    estimated_cost := pyOr (pyGet raw "estimated_cost") (.pstr "")
    logistics := logistics }

/-- The synthesized placeholder record appended by `_extract_plans`'
padding loop when fewer than 5 plans survive. -/
def padRecord (n : Nat) : List (PyVal × PyVal) :=
  [(.pstr "title", .pstr s!"Plan Option \x7bn + 1\x7d"),
   (.pstr "description", .pstr "Fallback option generated due to incomplete model response."),
   (.pstr "vibe_type", .pstr (DEFAULT_VIBES.getD n "")),
   (.pstr "location", .pstr ""),
   (.pstr "estimated_cost", .pstr ""),
   (.pstr "logistics", .pdict [])]

/-- The `while len(plans) < 5` padding loop (it appends at most 5
records, so fuel 5 is exact). -/
def padPlansAux : Nat → List Plan → List Plan
  | 0, ps => ps
  | fuel + 1, ps =>
    if ps.length < 5 then
      padPlansAux fuel (ps ++ [normalizePlan (padRecord ps.length) ps.length])
    else ps

def padPlans (ps : List Plan) : List Plan := padPlansAux 5 ps

/-- The records of a parsed `plans` payload that survive normalization
(the dict-shaped ones among the first five, each normalized at its
enumeration index). -/
def surviving (rawPlans : List PyVal) : List Plan :=
  (rawPlans.take 5).enum.filterMap
    (fun (p : Nat × PyVal) =>
      match p.2 with
      | .pdict kvs => some (normalizePlan kvs p.1)
      | _ => none)

/-- The record-shaping tail of `_extract_plans` (everything after the
parse): slice to 5, normalize the dict-shaped records, raise on zero
survivors, pad to 5. -/
def plansFromRecords (rawPlans : List PyVal) : Except PyExc (List Plan) :=
  let plans := surviving rawPlans
  if plans.isEmpty then .error (.plannerError "LLM returned malformed plans")
  else .ok (padPlans plans)

/-- `raw_plans` extraction and use in `_extract_plans`: Python
truthiness decides the "no plans" error, and slicing a non-sliceable
payload raises `TypeError` (not `PlannerError`). -/
def plansFromParsed (parsed : PyVal) : Except PyExc (List Plan) :=
  let rawPlans :=
    match parsed with
    | .pdict kvs => pyOr (pyGet kvs "plans") (.plist [])
    | .plist xs => .plist xs
    | _ => .plist []
  if !pyTruthy rawPlans then .error (.plannerError "LLM returned no plans")
  else
    match rawPlans with
    | .plist xs => plansFromRecords xs
    | .pstr s => plansFromRecords (s.data.map (fun c => PyVal.pstr (String.mk [c])))
    | _ => .error (.typeError "object is not subscriptable")

/-- Model of `_extract_plans`. -/
def extractPlans (rawText : String) : Except PyExc (List Plan) :=
  match parseJsonLikeC (stripCodeFenceC rawText.data) with
  | .error e => .error e
  | .ok parsed => plansFromParsed parsed


/-! ## `_cost_from_price_level` -/

def pyStripStr (s : String) : String := String.mk (pyStripC s.data)

def strUpper (s : String) : String := String.mk (s.data.map Char.toUpper)

def strLower (s : String) : String := String.mk (s.data.map Char.toLower)

/-- Python `int(str)`: optional sign, digits with single underscores,
surrounding whitespace allowed (unlike an `int` *literal*, leading
zeros are accepted here). -/
def parsePyIntDigits (t : Chars) : Option Nat :=
  if t.isEmpty then none
  else if !(t.all (fun c => isDigitB c || c == '_')) then none
  else if !(isDigitB (t.headD ' ')) || !(isDigitB (t.getLastD ' ')) then none
  else if (t.zip (t.drop 1)).any (fun p => p.1 == '_' && p.2 == '_') then none
  else some (digitsToNat (t.filter isDigitB))

def parsePyIntStr (s : String) : Option Int :=
  match pyStripC s.data with
  | '-' :: t => (parsePyIntDigits t).map (fun n => -(n : Int))
  | '+' :: t => (parsePyIntDigits t).map (fun n => (n : Int))
  | t => (parsePyIntDigits t).map (fun n => (n : Int))

/-- Python `int(x)` on the modelled values (`TypeError` is `none`). -/
def pyToInt : PyVal → Option Int
  | .pint n => some n
  | .pbool b => some (if b then 1 else 0)
  | .pstr s => parsePyIntStr s
  | _ => none

def priceLevelEnum (s : String) : Option Int :=
  if s = "PRICE_LEVEL_FREE" then some 0
  else if s = "PRICE_LEVEL_INEXPENSIVE" then some 1
  else if s = "PRICE_LEVEL_MODERATE" then some 2
  else if s = "PRICE_LEVEL_EXPENSIVE" then some 3
  else if s = "PRICE_LEVEL_VERY_EXPENSIVE" then some 4
  else none

/-- The enum-string coercion step of `_cost_from_price_level` (before
`int()` is attempted). -/
def priceCoerced (priceLevel : PyVal) : PyVal :=
  match priceLevel with
  | .pstr s =>
    (match priceLevelEnum (strUpper (pyStripStr s)) with
     | some n => .pint n
     | none => priceLevel)
  | _ => priceLevel

/-- Model of `_cost_from_price_level`. -/
def costFromPriceLevel (priceLevel : PyVal) : String :=
  match pyToInt (priceCoerced priceLevel) with
  | none => "$20-40 per person"
  | some level =>
    if level ≤ 0 then "$0-10 per person"
    else if level == 1 then "$10-20 per person"
    else if level == 2 then "$20-40 per person"
    else if level == 3 then "$40-80 per person"
    else "$80+ per person"


/-! ## `_format_duration`

The float `seconds` is modelled as a rational; Python `round` is
round-half-to-even. -/

def pyRound (q : ℚ) : Int :=
  let f := ⌊q⌋
  let frac := q - f
  if frac < 1 / 2 then f
  else if 1 / 2 < frac then f + 1
  else if f.emod 2 == 0 then f else f + 1

/-- The minute/hour rendering used by `_format_duration` once the minute
count is fixed. -/
def renderDuration (minutes : Int) : String :=
  if minutes < 60 then toString minutes ++ " min"
  else
    let hours := minutes.fdiv 60
    let rem := minutes.emod 60
    if rem == 0 then toString hours ++ " hr"
    else toString hours ++ " hr " ++ toString rem ++ " min"

/-- Model of `_format_duration`. -/
def formatDuration : Option ℚ → Option String
  | none => none
  | some seconds =>
    if seconds ≤ 0 then none
    else some (renderDuration (max 1 (pyRound (seconds / 60))))


/-! ## Conversation messages and tool results -/

structure ToolCall where
  id : String
  name : String
  arguments : String

/-- Conversation message (the tagged shapes the loop controller
produces; a `tool` message's content is the `json.dumps` of the tool
result, hence always a string). -/
inductive Msg where
  | system (content : String)
  | user (content : String)
  | assistant (content : String) (tool_calls : List ToolCall)
  | tool (tool_call_id : String) (content : String)

structure Place where
  name : String
  address : String
  rating : PyVal
  price_level : PyVal

def placeToVal (p : Place) : PyVal :=
  .pdict [(.pstr "name", .pstr p.name), (.pstr "address", .pstr p.address),
          (.pstr "rating", p.rating), (.pstr "price_level", p.price_level)]

/-- Model of `_extract_places_from_tool_messages`: tool-role messages
whose JSON payload carries a `places` list, deduplicated
case-insensitively on `(name, address)`, keeping first occurrences. -/
def extractPlacesFromToolMessages (msgs : List Msg) : List Place :=
  (msgs.foldl (fun (acc : List Place × List (String × String)) msg =>
    match msg with
    | .tool _ content =>
      (match jsonLoads content with
       | some (.pdict payload) =>
         (match pyGet payload "places" with
          | .plist places =>
            places.foldl (fun acc2 place =>
              match place with
              | .pdict p =>
                let name := pyStripStr (pyStrOf (pyOr (pyGet p "name") (.pstr "")))
                let address := pyStripStr (pyStrOf (pyOr (pyGet p "address") (.pstr "")))
                if name.isEmpty && address.isEmpty then acc2
                else
                  let key := (strLower name, strLower address)
                  if acc2.2.contains key then acc2
                  else (acc2.1 ++ [{ name := name, address := address,
                                     rating := pyGet p "rating",
                                     price_level := pyGet p "price_level" : Place }],
                        acc2.2 ++ [key])
              | _ => acc2) acc
          | _ => acc)
       | _ => acc)
    | _ => acc) ([], [])).1

structure ToolSummary where
  tool_calls : Nat
  place_calls : Nat
  place_results : Nat
  errors : List String

/-- Model of `_summarize_tool_results`. -/
def summarizeToolResults (msgs : List Msg) : ToolSummary :=
  msgs.foldl (fun s msg =>
    match msg with
    | .tool _ content =>
      let s := { s with tool_calls := s.tool_calls + 1 }
      (match jsonLoads content with
       | none => { s with errors := s.errors ++ ["Tool payload was not valid JSON"] }
       | some (.pdict payload) =>
         let s :=
           match pyGet payload "error" with
           | .pstr e => if !e.isEmpty then { s with errors := s.errors ++ [e] } else s
           | _ => s
         (match pyGet payload "places" with
          | .plist places =>
            { s with place_calls := s.place_calls + 1,
                     place_results := s.place_results + places.length }
          | _ => s)
       | some _ => s)
    | _ => s) ⟨0, 0, 0, []⟩

/-! ## Group context and the fallback synthesizers

The group context is the dict built by `_load_group_context`
(`{"group": .., "members": [..], "recent_events": [..]}`); the fallback
builders read only the group name and the member dicts, so the model
keeps exactly those (recent events feed only the prompt text, which the
claims do not inspect). -/

structure GroupContext where
  groupName : String
  members : List (List (PyVal × PyVal))

/-- The `for member in context["members"]`-with-`break` scan for the
first truthy `default_location`. -/
def firstLocation : List (List (PyVal × PyVal)) → String
  | [] => "Boston, MA"
  | m :: rest =>
    let loc := pyGet m "default_location"
    if pyTruthy loc then pyStrOf loc else firstLocation rest

def memberNames (members : List (List (PyVal × PyVal))) : List String :=
  members.map (fun m => pyStrOf (pyOr (pyOr (pyGet m "name") (pyGet m "email")) (.pstr "member")))

def fallbackTemplates : List (String × String × String) :=
  [("Cozy Cafe Catch-up", "Relaxed hangout over coffee and conversation.", "$10-20 per person"),
   ("Food Hall Sampler", "Try multiple cuisines together in one spot.", "$20-35 per person"),
   ("Park Picnic Sunset", "Low-cost outdoor plan with time to talk.", "$5-15 per person"),
   ("Bowling + Snacks", "Casual activity with light competition.", "$25-40 per person"),
   ("Live Event Night", "Explore a slightly adventurous local event.", "$30-60 per person")]

def usecPerDay : Int := 86400 * 1000000

/-- Model of `_build_fallback_plans` (`now` is `datetime.utcnow()` in
epoch microseconds). -/
def buildFallbackPlans (context : GroupContext) (reason : String)
    (refinementNotes : Option String) (now : Int) : List Plan :=
  let baseLocation := firstLocation context.members
  let names := memberNames context.members
  let reasonShort := String.mk (reason.data.take 180)
  let refinementShort := String.mk ((refinementNotes.getD "").data.take 240)
  fallbackTemplates.enum.map (fun (p : Nat × String × String × String) =>
    let idx := p.1
    let title := p.2.1
    let description := p.2.2.1
    let cost := p.2.2.2
    { title := title
      description := .pstr (description ++ " (Fallback plan for " ++ context.groupName ++ ".)")
      vibe_type := DEFAULT_VIBES.getD idx ""
      date_time := some (now + (7 + idx) * usecPerDay)
      location := .pstr baseLocation
      venue_name := .pstr title
      estimated_cost := .pstr cost
      logistics := [(.pstr "source", .pstr "fallback"),
                    (.pstr "reason", .pstr reasonShort),
                    (.pstr "refinement_notes", .pstr refinementShort),
                    (.pstr "members", .plist (names.map .pstr))] })

/-- One venue-grounded plan of `_build_maps_grounded_fallback_plans`
(the loop body over the deduplicated places). -/
def groundedPlan (context : GroupContext) (reason : String)
    (refinementNotes : Option String) (now : Int) (idx : Nat) (place : Place) : Plan :=
  let baseLocation := firstLocation context.members
  let names := memberNames context.members
  let reasonShort := String.mk (reason.data.take 180)
  let refinementShort := String.mk ((refinementNotes.getD "").data.take 240)
  let venueName := if place.name.isEmpty then s!"Local Option \x7bidx + 1\x7d" else place.name
  let location := if place.address.isEmpty then baseLocation else place.address
  let ratingText :=
    match place.rating with
    | .pnone => ""
    | r => " Rated " ++ pyStrOf r ++ "/5."
  { title := venueName
    description := .pstr ("Meet at " ++ venueName ++ " in " ++ location ++ "." ++ ratingText)
    vibe_type := DEFAULT_VIBES.getD idx ""
    date_time := some (now + (7 + idx) * usecPerDay)
    location := .pstr location
    venue_name := .pstr venueName
    estimated_cost := .pstr (costFromPriceLevel place.price_level)
    logistics := [(.pstr "source", .pstr "maps_fallback"),
                  (.pstr "reason", .pstr reasonShort),
                  (.pstr "refinement_notes", .pstr refinementShort),
                  (.pstr "members", .plist (names.map .pstr)),
                  (.pstr "venue", placeToVal place)] }

/-- Model of `_build_maps_grounded_fallback_plans`. -/
def buildMapsGroundedFallbackPlans (context : GroupContext) (toolMessages : List Msg)
    (reason : String) (refinementNotes : Option String) (now : Int) :
    Option (List Plan) :=
  let places := extractPlacesFromToolMessages toolMessages
  if places.isEmpty then none
  else
    let plans := (places.take 5).enum.map (fun (p : Nat × Place) =>
      groundedPlan context reason refinementNotes now p.1 p.2)
    let plans :=
      if plans.length < 5 then
        plans ++ (buildFallbackPlans context reason refinementNotes now).take (5 - plans.length)
      else plans
    some (plans.take 5)

/-! ## The tool-calling loop controller (`_run_tool_loop`)

The model client and the two tool executors are external effects; they
are supplied as an oracle: `complete k` is the outcome of the `k`-th
chat-completion call of the run (an error models an
`APIConnectionError` escaping the retry budget), and `execTool name
args` is the result dict of `_execute_tool` (which never raises — its
internal guard converts exceptions to error dicts).  The loop's
decisions depend only on these outcomes, never on message text. -/

structure ModelResp where
  content : String
  tool_calls : List ToolCall

structure LoopEnv where
  complete : Nat → Except PyExc ModelResp
  execTool : String → List (PyVal × PyVal) → PyVal

/-- `isinstance(tool_result, dict) and tool_result.get("error")` (the
round-success test is its negation). -/
def isErrorResult : PyVal → Bool
  | .pdict kvs => pyTruthy (pyGet kvs "error")
  | _ => false

/-- One round's tool-call execution: parse each call's arguments
(malformed JSON becomes `{}`), execute, and append one tool message per
call; tracks whether any call succeeded. -/
def execToolCalls (env : LoopEnv) (tcs : List ToolCall) (work : List Msg) :
    List Msg × Bool :=
  tcs.foldl (fun acc tc =>
    let rawArgs := if tc.arguments.isEmpty then "\x7b\x7d" else tc.arguments
    let args :=
      match jsonLoads rawArgs with
      | some (.pdict kvs) => kvs
      | _ => []
    let result := env.execTool tc.name args
    (acc.1 ++ [.tool tc.id (jsonDumps result)], acc.2 || !isErrorResult result))
    (work, false)

/-- The `for _ in range(max_rounds)` body of `_run_tool_loop`.  Returns
`some output` when the loop returned from inside (a no-tool-call
response, or the grounded early exit), `none` when it fell through to
the post-loop logic (round budget exhausted or the all-error break);
also the message list and the number of completion calls made. -/
def runToolRounds (env : LoopEnv) :
    Nat → Nat → List Msg → Nat → Except PyExc (Option String × List Msg × Nat)
  | 0, callIdx, work, _ => .ok (none, work, callIdx)
  | rounds + 1, callIdx, work, consec =>
    match env.complete callIdx with
    | .error e => .error e
    | .ok resp =>
      if resp.tool_calls.isEmpty then .ok (some resp.content, work, callIdx + 1)
      else
        let work := work ++ [.assistant resp.content resp.tool_calls]
        let step := execToolCalls env resp.tool_calls work
        let work := step.1
        if step.2 then runToolRounds env rounds (callIdx + 1) work 0
        else
          let consec := consec + 1
          if consec ≥ 2 then
            if 0 < (summarizeToolResults work).place_results then
              .ok (some "\x7b\"plans\":[]\x7d", work, callIdx + 1)
            else .ok (none, work, callIdx + 1)
          else runToolRounds env rounds (callIdx + 1) work consec

/-- The trace of one `_run_tool_loop` run: its returned `(output,
work_messages)` pair plus instrumentation for the claims (how many
completion calls were made and whether the extra finalize call
happened). -/
structure LoopResult where
  output : String
  messages : List Msg
  completionCalls : Nat
  finalizeCalled : Bool

/-- Model of `_run_tool_loop`. -/
def runToolLoop (env : LoopEnv) (messages : List Msg) (maxRounds : Nat) :
    Except PyExc LoopResult :=
  match runToolRounds env maxRounds 0 messages 0 with
  | .error e => .error e
  | .ok (some out, work, calls) =>
    .ok { output := out, messages := work, completionCalls := calls, finalizeCalled := false }
  | .ok (none, work, calls) =>
    if 0 < (summarizeToolResults work).place_results then
      .ok { output := "\x7b\"plans\":[]\x7d", messages := work,
            completionCalls := calls, finalizeCalled := false }
    else
      let work := work ++ [.user "Finalize now and return valid JSON with exactly 5 plans."]
      match env.complete calls with
      | .error e => .error e
      | .ok final =>
        .ok { output := final.content, messages := work,
              completionCalls := calls + 1, finalizeCalled := true }

def MAX_TOOL_ROUNDS : Nat := 2

/-! ## `generate_group_plans`

`_load_group_context` (a database read) sits outside the modelled core:
per the spec the group context is the collaborator-supplied input, so it
is a parameter here, as are the two settings the function reads
(`google_maps_api_key` non-emptiness and `planner_fallback_enabled`).
`_build_prompt` is pure string formatting that no claim and no control
decision inspects; the prompt string is therefore a parameter too. -/

def excName : PyExc → String
  | .plannerError _ => "PlannerError"
  | .typeError _ => "TypeError"

def excMsg : PyExc → String
  | .plannerError m => m
  | .typeError m => m

def isSubInfix (needle : Chars) : Chars → Bool
  | [] => needle.isEmpty
  | c :: rest => needle.isPrefixOf (c :: rest) || isSubInfix needle rest

/-- `"no plans" in parse_message.lower()`. -/
def mentionsNoPlans (msg : String) : Bool :=
  isSubInfix "no plans".data (strLower msg).data

def SYSTEM_PROMPT_TOOL_GROUNDED : String :=
  "You are Ketchup's planning engine. Build exactly 5 plans for a friend group. " ++
  "Use tools to ground recommendations in real places and travel times. " ++
  "Return strict JSON only with key 'plans'."

def SYSTEM_PROMPT_BEST_EFFORT : String :=
  "You are Ketchup's planning engine. Build exactly 5 plans for a friend group. " ++
  "Tooling may be unavailable; do not mention missing tools, integrations, or API keys. " ++
  "Return strict JSON only with key 'plans'."

/-- The structured-retry tail of the parse-failure handler: the
`_run_structured_retry` completion, its `_extract_plans`, and the
post-retry grounded fallback. -/
def structuredRetryStep (env : LoopEnv) (context : GroupContext)
    (refinementNotes : Option String) (useToolGrounding : Bool) (now : Int)
    (toolMessages : List Msg) (callsUsed : Nat) : Except PyExc (List Plan) :=
  match env.complete callsUsed with
  | .error e => .error e
  | .ok repaired =>
    match extractPlans repaired.content with
    | .ok plans => .ok plans
    | .error repairedExc =>
      match repairedExc with
      | .plannerError m =>
        if useToolGrounding then
          match buildMapsGroundedFallbackPlans context toolMessages
              ("Structured retry failed: " ++ m) refinementNotes now with
          | some synthesized => .ok synthesized
          | none => .error repairedExc
        else .error repairedExc
      | _ => .error repairedExc

/-- The `try:`-body of `generate_group_plans` after the parse fails with
a `PlannerError` (the `except PlannerError as parse_exc:` handler):
grounded-fallback synthesis on "no plans", then the structured retry. -/
def handleParseFailure (env : LoopEnv) (context : GroupContext)
    (refinementNotes : Option String) (useToolGrounding : Bool) (now : Int)
    (toolMessages : List Msg) (callsUsed : Nat) (parseMsg : String) :
    Except PyExc (List Plan) :=
  let retryStep : Except PyExc (List Plan) :=
    structuredRetryStep env context refinementNotes useToolGrounding now
      toolMessages callsUsed
  if useToolGrounding && mentionsNoPlans parseMsg then
    let toolSummary := summarizeToolResults toolMessages
    match buildMapsGroundedFallbackPlans context toolMessages
        ("LLM produced empty plans: " ++ parseMsg) refinementNotes now with
    | some synthesized => .ok synthesized
    | none =>
      if 0 < toolSummary.place_calls && toolSummary.place_results == 0 then
        let details :=
          if toolSummary.errors.isEmpty then "search_places returned zero results"
          else String.intercalate "; " (toolSummary.errors.take 2)
        .error (.plannerError
          ("LLM returned no plans and map search produced no usable venues (" ++ details ++ ")"))
      else retryStep
  else retryStep

/-- The first completion stage of `generate_group_plans`: the tool loop
under tool grounding (with the tool-grounded system prompt), otherwise a
single completion call; yields the candidate output, the tool messages
and the number of completion calls made. -/
def generateStep1 (env : LoopEnv) (prompt : String) (useToolGrounding : Bool) :
    Except PyExc (String × List Msg × Nat) :=
  if useToolGrounding then
    match runToolLoop env [.system SYSTEM_PROMPT_TOOL_GROUNDED, .user prompt]
        MAX_TOOL_ROUNDS with
    | .error e => .error e
    | .ok res => .ok (res.output, res.messages, res.completionCalls)
  else
    match env.complete 0 with
    | .error e => .error e
    | .ok resp => .ok (resp.content, ([] : List Msg), 1)

/-- The `try:` body of `generate_group_plans` (after the context load):
tool loop or single completion, `_extract_plans`, and the
`except PlannerError` handler. -/
def generateInner (env : LoopEnv) (context : GroupContext)
    (refinementNotes : Option String) (prompt : String)
    (useToolGrounding : Bool) (now : Int) : Except PyExc (List Plan) :=
  match generateStep1 env prompt useToolGrounding with
  | .error e => .error e
  | .ok (output, toolMessages, callsUsed) =>
    match extractPlans output with
    | .ok plans => .ok plans
    | .error parseExc =>
      match parseExc with
      | .plannerError parseMsg =>
        handleParseFailure env context refinementNotes useToolGrounding now
          toolMessages callsUsed parseMsg
      | _ => .error parseExc   -- a non-`PlannerError` skips this handler

/-- Model of `generate_group_plans`: the inner body wrapped in the
`except Exception` fallback policy. -/
def generateGroupPlans (env : LoopEnv) (context : GroupContext)
    (refinementNotes : Option String) (prompt : String)
    (useToolGrounding fallbackEnabled : Bool) (now : Int) :
    Except PyExc (List Plan) :=
  match generateInner env context refinementNotes prompt useToolGrounding now with
  | .ok plans => .ok plans
  | .error exc =>
    if fallbackEnabled then
      .ok (buildFallbackPlans context (excName exc ++ ": " ++ excMsg exc) refinementNotes now)
    else .error (.plannerError ("Planner failed: " ++ excName exc ++ ": " ++ excMsg exc))

/-! ## Statement-level definitions -/

/-- Plain characters: printable ASCII excluding the characters that are
structural for any of the recovery stages (quotes, backslash,
braces/brackets, comma, the think-tag opener, backticks). -/
def plainCharB (c : Char) : Bool :=
  0x20 ≤ c.toNat && c.toNat ≤ 0x7E &&
  !(c == '"' || c == '\'' || c == '\\' || c == '{' || c == '}' ||
    c == '[' || c == ']' || c == ',' || c == '<' || c == Char.ofNat 96)

def nodupKeysB : List PyVal → Bool
  | [] => true
  | k :: t => !(t.any (fun k2 => pyBeq k k2)) && nodupKeysB t

/-- Admissible parse remainders during a serializer round-trip: the
serializers only ever leave a separator or closer (or nothing) after a
value. -/
def restOk (rest : Chars) : Prop :=
  ∀ c, rest.head? = some c → c = ',' ∨ c = ']' ∨ c = '}' ∨ c = ':'

-- Well-behaved values for the recovery-pipeline theorems: strings (and
-- dict keys, which must be strings) are made of plain characters, and
-- each dict has pairwise-distinct keys.
mutual
def goodVal : PyVal → Bool
  | .pnone => true
  | .pbool _ => true
  | .pint _ => true
  | .pstr s => s.data.all plainCharB
  | .plist xs => goodValL xs
  | .pdict kvs => nodupKeysB (kvs.map Prod.fst) && goodValO kvs

def goodValL : List PyVal → Bool
  | [] => true
  | x :: t => goodVal x && goodValL t

def goodValO : List (PyVal × PyVal) → Bool
  | [] => true
  | (k, v) :: t =>
    (match k with
     | .pstr s => s.data.all plainCharB
     | _ => false) && goodVal v && goodValO t
end

-- Sufficient parser fuel for a serialized value (each constructor of
-- the mutual parser consumes at least this much fuel).
mutual
def needV : PyVal → Nat
  | .pnone => 1
  | .pbool _ => 1
  | .pint _ => 1
  | .pstr _ => 1
  | .plist xs => 2 + needL xs
  | .pdict kvs => 2 + needO kvs

def needL : List PyVal → Nat
  | [] => 0
  | x :: t => 1 + needV x + needL t

def needO : List (PyVal × PyVal) → Nat
  | [] => 0
  | (_, v) :: t => 1 + needV v + needO t
end

/-- A serialized JSON object with one trailing comma inserted before the
closing brace — the variant of §4.4 stage 4. -/
def serTrailing (kvs : List (PyVal × PyVal)) : Chars :=
  '{' :: dumpsO kvs ++ [',', '}']

/-- All of a plan except its `date_time` — the part of the fallback
synthesizers' output that is a pure function of their arguments (the
timestamp comes from the clock). -/
def planCore (p : Plan) :
    String × PyVal × String × PyVal × PyVal × PyVal × List (PyVal × PyVal) :=
  (p.title, p.description, p.vibe_type, p.location, p.venue_name, p.estimated_cost, p.logistics)

/-- The five cost buckets, by price level. -/
def priceBuckets : List String :=
  ["$0-10 per person", "$10-20 per person", "$20-40 per person",
   "$40-80 per person", "$80+ per person"]

/-- The five named price-level enum strings, by price level. -/
def priceEnumNames : List String :=
  ["PRICE_LEVEL_FREE", "PRICE_LEVEL_INEXPENSIVE", "PRICE_LEVEL_MODERATE",
   "PRICE_LEVEL_EXPENSIVE", "PRICE_LEVEL_VERY_EXPENSIVE"]

/-! Concrete fixtures for the counterexamples and witnesses. -/

/-- A group context with one member. -/
def ctx0 : GroupContext :=
  { groupName := "Friends",
    members := [[(.pstr "name", .pstr "Ada"), (.pstr "default_location", .pstr "Boston, MA")]] }

/-- One tool round that returned three distinct venues. -/
def msgs3 : List Msg :=
  [.tool "call1"
    "\x7b\"places\": [\x7b\"name\": \"Cafe A\", \"address\": \"1 Main St\"\x7d, \x7b\"name\": \"Hall B\", \"address\": \"2 Main St\"\x7d, \x7b\"name\": \"Park C\", \"address\": \"3 Main St\"\x7d]\x7d"]

/-- An oracle whose model immediately returns a clean one-record JSON
reply with no tool calls. -/
def envW : LoopEnv :=
  { complete := fun _ => .ok { content := "\x7b\"plans\": [\x7b\"title\": \"A\"\x7d]\x7d", tool_calls := [] },
    execTool := fun _ _ => .pnone }

/-- An oracle whose model always issues one `search_places` call and
whose tool always returns one venue: every round succeeds, the round
budget is exhausted, and grounding data exists afterwards. -/
def env0 : LoopEnv :=
  { complete := fun _ => .ok
      { content := "",
        tool_calls := [{ id := "c1", name := "search_places",
                         arguments := "\x7b\"query\": \"cafe\", \"location\": \"Boston\"\x7d" }] },
    execTool := fun _ _ =>
      .pdict [(.pstr "places",
               .plist [.pdict [(.pstr "name", .pstr "Cafe A"), (.pstr "address", .pstr "1 Main St")]])] }

/-- The loop result of `env0` from an empty history (used by the C5
witness). -/
def loop0 : LoopResult :=
  (runToolLoop env0 [] MAX_TOOL_ROUNDS).toOption.getD
    { output := "", messages := [], completionCalls := 0, finalizeCalled := false }

/-- The round-loop outcome of `env0` (used by the C5 witness). -/
def rounds0 : Option String × List Msg × Nat :=
  (runToolRounds env0 MAX_TOOL_ROUNDS 0 [] 0).toOption.getD (none, [], 0)

/-! # Theorems -/

/-! ## Shared lemmas: normalizer, padding, fallback synthesizers -/

theorem vibe_getD_mem (i : Nat) (h : i < 5) : DEFAULT_VIBES.getD i "" ∈ DEFAULT_VIBES := by
  interval_cases i <;> decide

theorem normalizePlan_vibe_mem (raw : List (PyVal × PyVal)) (idx : Nat) :
    (normalizePlan raw idx).vibe_type ∈ DEFAULT_VIBES := by
  have hmin : min idx 4 < 5 := by omega
  cases hv : pyGet raw "vibe_type" with
  | pstr s =>
    by_cases h : DEFAULT_VIBES.contains s = true
    · simp only [normalizePlan, hv, if_pos h]
      exact List.mem_of_elem_eq_true h
    · simp only [normalizePlan, hv, if_neg h]
      exact vibe_getD_mem _ hmin
  | pnone => simp only [normalizePlan, hv]; exact vibe_getD_mem _ hmin
  | pbool b => simp only [normalizePlan, hv]; exact vibe_getD_mem _ hmin
  | pint n => simp only [normalizePlan, hv]; exact vibe_getD_mem _ hmin
  | plist xs => simp only [normalizePlan, hv]; exact vibe_getD_mem _ hmin
  | pdict kvs => simp only [normalizePlan, hv]; exact vibe_getD_mem _ hmin

theorem padPlansAux_spec : ∀ (fuel : Nat) (ps : List Plan), 5 ≤ ps.length + fuel →
    padPlansAux fuel ps =
      ps ++ (List.range' ps.length (5 - ps.length)).map
        (fun n => normalizePlan (padRecord n) n) := by
  intro fuel
  induction fuel with
  | zero =>
    intro ps h
    have h0 : 5 - ps.length = 0 := by omega
    simp [padPlansAux, h0]
  | succ fuel ih =>
    intro ps h
    by_cases hlt : ps.length < 5
    · have heq : 5 - ps.length = (5 - (ps.length + 1)) + 1 := by omega
      simp only [padPlansAux, if_pos hlt]
      rw [ih (ps ++ [normalizePlan (padRecord ps.length) ps.length]) (by simp; omega)]
      rw [heq, List.range'_succ]
      simp [List.append_assoc]
    · have h0 : 5 - ps.length = 0 := by omega
      simp [padPlansAux, hlt, h0]

theorem padPlans_spec (ps : List Plan) :
    padPlans ps = ps ++ (List.range' ps.length (5 - ps.length)).map
      (fun n => normalizePlan (padRecord n) n) :=
  padPlansAux_spec 5 ps (by omega)

theorem padPlans_length (ps : List Plan) (h : ps.length ≤ 5) : (padPlans ps).length = 5 := by
  rw [padPlans_spec]
  simp
  omega

theorem surviving_length_le (rawPlans : List PyVal) : (surviving rawPlans).length ≤ 5 := by
  calc (surviving rawPlans).length ≤ (rawPlans.take 5).enum.length :=
        List.length_filterMap_le _ _
    _ = (rawPlans.take 5).length := List.enum_length
    _ ≤ 5 := by simp [List.length_take]

theorem surviving_mem_vibe (rawPlans : List PyVal) (p : Plan) (h : p ∈ surviving rawPlans) :
    p.vibe_type ∈ DEFAULT_VIBES := by
  obtain ⟨⟨i, v⟩, hmem, hp⟩ := List.mem_filterMap.mp h
  cases v <;> simp at hp
  rw [← hp]
  exact normalizePlan_vibe_mem _ _

theorem padEntry_marked (n : Nat) (h : n < 5) :
    (normalizePlan (padRecord n) n).description =
      .pstr "Fallback option generated due to incomplete model response." ∧
    (normalizePlan (padRecord n) n).vibe_type = DEFAULT_VIBES.getD n "" := by
  interval_cases n <;> exact ⟨rfl, rfl⟩

theorem plansFromRecords_ok (rawPlans : List PyVal) (ps : List Plan)
    (h : plansFromRecords rawPlans = .ok ps) :
    surviving rawPlans ≠ [] ∧ ps = padPlans (surviving rawPlans) := by
  simp only [plansFromRecords] at h
  by_cases he : (surviving rawPlans).isEmpty = true
  · rw [if_pos he] at h
    simp at h
  · rw [if_neg he] at h
    refine ⟨?_, (Except.ok.inj h).symm⟩
    simpa [List.isEmpty_iff] using he

theorem plansFromRecords_shape (rawPlans : List PyVal) (ps : List Plan)
    (h : plansFromRecords rawPlans = .ok ps) :
    ps.length = 5 ∧ ∀ p ∈ ps, p.vibe_type ∈ DEFAULT_VIBES := by
  obtain ⟨hne, rfl⟩ := plansFromRecords_ok rawPlans ps h
  constructor
  · exact padPlans_length _ (surviving_length_le rawPlans)
  · intro p hp
    rw [padPlans_spec] at hp
    rcases List.mem_append.mp hp with hs | hpad
    · exact surviving_mem_vibe _ _ hs
    · obtain ⟨n, hn, rfl⟩ := List.mem_map.mp hpad
      have hn5 : n < 5 := by
        have := List.mem_range'.mp hn
        omega
      exact normalizePlan_vibe_mem _ _

theorem plansFromParsed_ok (parsed : PyVal) (ps : List Plan)
    (h : plansFromParsed parsed = .ok ps) :
    ∃ xs, plansFromRecords xs = .ok ps := by
  simp only [plansFromParsed] at h
  split at h
  · simp at h
  · split at h
    · exact ⟨_, h⟩
    · exact ⟨_, h⟩
    · simp at h

theorem extractPlans_ok (t : String) (ps : List Plan) (h : extractPlans t = .ok ps) :
    ps.length = 5 ∧ ∀ p ∈ ps, p.vibe_type ∈ DEFAULT_VIBES := by
  simp only [extractPlans] at h
  split at h
  · simp at h
  · obtain ⟨xs, hxs⟩ := plansFromParsed_ok _ _ h
    exact plansFromRecords_shape _ _ hxs

theorem buildFallbackPlans_length (ctx : GroupContext) (reason : String)
    (notes : Option String) (now : Int) : (buildFallbackPlans ctx reason notes now).length = 5 :=
  rfl

theorem buildFallbackPlans_vibes (ctx : GroupContext) (reason : String)
    (notes : Option String) (now : Int) :
    (buildFallbackPlans ctx reason notes now).map Plan.vibe_type = DEFAULT_VIBES :=
  rfl

theorem groundedPlan_vibe (ctx : GroupContext) (reason : String) (notes : Option String)
    (now : Int) (idx : Nat) (place : Place) :
    (groundedPlan ctx reason notes now idx place).vibe_type = DEFAULT_VIBES.getD idx "" :=
  rfl

theorem enumFrom_fst_bounds {α : Type} (l : List α) :
    ∀ (n : Nat) (p : Nat × α), p ∈ l.enumFrom n → n ≤ p.1 ∧ p.1 < n + l.length := by
  induction l with
  | nil => intro n p hp; simp [List.enumFrom] at hp
  | cons a t ih =>
    intro n p hp
    simp only [List.enumFrom, List.mem_cons] at hp
    rcases hp with rfl | hp
    · simp
    · have := ih (n + 1) p hp
      simp only [List.length_cons]
      omega

theorem buildMapsGrounded_length (ctx : GroupContext) (msgs : List Msg) (reason : String)
    (notes : Option String) (now : Int) (ps : List Plan)
    (h : buildMapsGroundedFallbackPlans ctx msgs reason notes now = some ps) :
    ps.length = 5 := by
  simp only [buildMapsGroundedFallbackPlans] at h
  rcases hp : extractPlacesFromToolMessages msgs with _ | ⟨a, t⟩
  · rw [hp] at h; simp at h
  · rw [hp] at h
    simp only [List.isEmpty_cons, Bool.false_eq_true, if_false] at h
    have h2 := (Option.some.inj h).symm
    subst h2
    rw [List.length_take]
    split <;> rename_i hc
    · rw [List.length_append, List.length_take, buildFallbackPlans_length]
      simp only [List.length_map] at hc ⊢
      omega
    · simp only [List.length_map] at hc ⊢
      omega

theorem buildMapsGrounded_vibes (ctx : GroupContext) (msgs : List Msg) (reason : String)
    (notes : Option String) (now : Int) (ps : List Plan)
    (h : buildMapsGroundedFallbackPlans ctx msgs reason notes now = some ps) :
    ∀ p ∈ ps, p.vibe_type ∈ DEFAULT_VIBES := by
  simp only [buildMapsGroundedFallbackPlans] at h
  rcases hp : extractPlacesFromToolMessages msgs with _ | ⟨a, t⟩
  · rw [hp] at h; simp at h
  · rw [hp] at h
    simp only [List.isEmpty_cons, Bool.false_eq_true, if_false] at h
    have h2 := (Option.some.inj h).symm
    subst h2
    intro p hp2
    have hp3 := List.mem_of_mem_take hp2
    have hA : ∀ q ∈ ((a :: t).take 5).enum.map
        (fun (x : Nat × Place) => groundedPlan ctx reason notes now x.1 x.2),
        Plan.vibe_type q ∈ DEFAULT_VIBES := by
      intro q hq
      obtain ⟨⟨i, pl⟩, hm, rfl⟩ := List.mem_map.mp hq
      have hb := enumFrom_fst_bounds _ 0 _ hm
      have hl : ((a :: t).take 5).length ≤ 5 := by simp [List.length_take]
      rw [groundedPlan_vibe]
      exact vibe_getD_mem i (by simp only at hb; omega)
    split at hp3
    · rcases List.mem_append.mp hp3 with hl | hr
      · exact hA p hl
      · have hmem := List.mem_of_mem_take hr
        have : p.vibe_type ∈ (buildFallbackPlans ctx reason notes now).map Plan.vibe_type :=
          List.mem_map_of_mem _ hmem
        rw [buildFallbackPlans_vibes] at this
        exact this
    · exact hA p hp3

/-- C7: the price-level mapping sends integer `2` and
`"PRICE_LEVEL_MODERATE"` to the `"$20-40 per person"` bucket; each
integer 0–4 and its named enum string map to the same bucket; level ≤ 0
maps to the bottom bucket and level ≥ 4 to the top one; unparseable
input defaults to the level-2 bucket. -/
theorem c7_price_level_buckets :
    (costFromPriceLevel (.pint 2) = "$20-40 per person" ∧
     costFromPriceLevel (.pstr "PRICE_LEVEL_MODERATE") = "$20-40 per person")
    ∧ (∀ i : Nat, i < 5 →
        costFromPriceLevel (.pint i) = priceBuckets.getD i "" ∧
        costFromPriceLevel (.pstr (priceEnumNames.getD i "")) = priceBuckets.getD i "")
    ∧ (∀ n : Int, n ≤ 0 → costFromPriceLevel (.pint n) = "$0-10 per person")
    ∧ (∀ n : Int, 4 ≤ n → costFromPriceLevel (.pint n) = "$80+ per person")
    ∧ (∀ v : PyVal, pyToInt (priceCoerced v) = none →
        costFromPriceLevel v = "$20-40 per person") := by
  refine ⟨⟨rfl, rfl⟩, ?_, ?_, ?_, ?_⟩
  · intro i hi
    interval_cases i <;> exact ⟨rfl, rfl⟩
  · intro n hn
    simp only [costFromPriceLevel, priceCoerced, pyToInt]
    rw [if_pos hn]
  · intro n hn
    simp only [costFromPriceLevel, priceCoerced, pyToInt]
    rw [if_neg (by omega), if_neg (by simp; omega), if_neg (by simp; omega),
        if_neg (by simp; omega)]
  · intro v hv
    simp only [costFromPriceLevel, hv]

/-- Witness for C7 at concrete inputs. -/
theorem c7_price_level_buckets_witness :
    (costFromPriceLevel (.pint 0) = priceBuckets.getD 0 "" ∧
     costFromPriceLevel (.pstr (priceEnumNames.getD 0 "")) = priceBuckets.getD 0 "")
    ∧ costFromPriceLevel (.pint (-2)) = "$0-10 per person"
    ∧ costFromPriceLevel (.pint 9) = "$80+ per person"
    ∧ costFromPriceLevel .pnone = "$20-40 per person" :=
  ⟨c7_price_level_buckets.2.1 0 (by decide),
   c7_price_level_buckets.2.2.1 (-2) (by decide),
   c7_price_level_buckets.2.2.2.1 9 (by decide),
   c7_price_level_buckets.2.2.2.2 .pnone (by decide)⟩

/-- C10: for every strictly positive duration the formatter yields text
rendered from a minute count clamped to at least 1 (1 second gives
`"1 min"`); `none` exactly for missing or non-positive durations. -/
theorem c10_duration_formatter_clamps :
    (∀ q : ℚ, 0 < q → ∃ m : Int, 1 ≤ m ∧ formatDuration (some q) = some (renderDuration m))
    ∧ formatDuration (some 1) = some "1 min"
    ∧ (∀ q : ℚ, q ≤ 0 → formatDuration (some q) = none)
    ∧ formatDuration none = none := by
  refine ⟨?_, ?_, ?_, rfl⟩
  · intro q hq
    refine ⟨max 1 (pyRound (q / 60)), le_max_left _ _, ?_⟩
    simp [formatDuration, not_le.mpr hq]
  · norm_num [formatDuration, pyRound, renderDuration]
    rfl
  · intro q hq
    simp [formatDuration, hq]

/-- Witness for C10 at 1 second and 0 seconds. -/
theorem c10_duration_formatter_clamps_witness :
    (∃ m : Int, 1 ≤ m ∧ formatDuration (some 1) = some (renderDuration m))
    ∧ formatDuration (some 0) = none :=
  ⟨c10_duration_formatter_clamps.1 1 (by norm_num),
   c10_duration_formatter_clamps.2.2.1 0 (by norm_num)⟩

/-- C3 counterexample: with exactly 3 collected venues the grounded
fallback's plans 4–5 carry the vibe tags `anchor` and `pivot` (the
first two template plans keep their own tags), not `chill` and
`wildcard` as claimed. -/
theorem c3_counterexample :
    (buildMapsGroundedFallbackPlans ctx0 msgs3 "LLM produced empty plans" none 0).map
        (fun ps => ps.map Plan.vibe_type) =
      some ["anchor", "pivot", "reach", "anchor", "pivot"] ∧
    ["anchor", "pivot", "reach", "anchor", "pivot"] ≠
      ["anchor", "pivot", "reach", "chill", "wildcard"] :=
  ⟨by rfl, by decide⟩

/-- C3 (amended): when the tool rounds collected exactly 3 distinct
venues, the grounded fallback returns them as plans 1–3 with vibe tags
`anchor, pivot, reach`, padded with the *first two template-fallback
plans*, which carry their own canonical-position tags `anchor, pivot`
(not `chill, wildcard`). -/
theorem c3_grounded_three_venues (ctx : GroupContext) (msgs : List Msg) (reason : String)
    (notes : Option String) (now : Int) (p1 p2 p3 : Place)
    (h : extractPlacesFromToolMessages msgs = [p1, p2, p3]) :
    buildMapsGroundedFallbackPlans ctx msgs reason notes now =
      some ([groundedPlan ctx reason notes now 0 p1, groundedPlan ctx reason notes now 1 p2,
             groundedPlan ctx reason notes now 2 p3] ++
            (buildFallbackPlans ctx reason notes now).take 2) ∧
    ((groundedPlan ctx reason notes now 0 p1).vibe_type = "anchor" ∧
     (groundedPlan ctx reason notes now 1 p2).vibe_type = "pivot" ∧
     (groundedPlan ctx reason notes now 2 p3).vibe_type = "reach") ∧
    ((buildFallbackPlans ctx reason notes now).take 2).map Plan.vibe_type =
      ["anchor", "pivot"] := by
  refine ⟨?_, ⟨rfl, rfl, rfl⟩, rfl⟩
  simp only [buildMapsGroundedFallbackPlans, h]
  rfl

/-- Witness for C3 at the concrete three-venue transcript. -/
theorem c3_grounded_three_venues_witness :
    buildMapsGroundedFallbackPlans ctx0 msgs3 "r" none 0 =
      some ([groundedPlan ctx0 "r" none 0 0 ⟨"Cafe A", "1 Main St", .pnone, .pnone⟩,
             groundedPlan ctx0 "r" none 0 1 ⟨"Hall B", "2 Main St", .pnone, .pnone⟩,
             groundedPlan ctx0 "r" none 0 2 ⟨"Park C", "3 Main St", .pnone, .pnone⟩] ++
            (buildFallbackPlans ctx0 "r" none 0).take 2) :=
  (c3_grounded_three_venues ctx0 msgs3 "r" none 0 _ _ _ (by rfl)).1

/-- C9 counterexample: the template fallback is *not* a pure function of
group context, reason and refinement notes alone — two invocations at
different clock instants differ (in every plan's `date_time`). -/
theorem c9_counterexample :
    buildFallbackPlans ctx0 "r" none 0 ≠ buildFallbackPlans ctx0 "r" none 1 := by
  intro h
  exact absurd (congrArg (fun l => l.head?.map Plan.date_time) h) (by decide)

/-- C9 (amended): both fallback synthesizers are pure total functions of
their arguments *and the current clock instant*: with the clock fixed
they are deterministic by construction, everything except the
`date_time` stamps is independent of the clock, the template fallback
always returns 5 plans, and the grounded fallback returns `none`
exactly when no venue data exists and otherwise 5 plans. -/
theorem c9_fallbacks_pure_given_clock :
    (∀ ctx reason notes now, (buildFallbackPlans ctx reason notes now).length = 5)
    ∧ (∀ ctx reason notes now1 now2,
        (buildFallbackPlans ctx reason notes now1).map planCore =
        (buildFallbackPlans ctx reason notes now2).map planCore)
    ∧ (∀ ctx msgs reason notes now,
        buildMapsGroundedFallbackPlans ctx msgs reason notes now = none ↔
          extractPlacesFromToolMessages msgs = [])
    ∧ (∀ ctx msgs reason notes now ps,
        buildMapsGroundedFallbackPlans ctx msgs reason notes now = some ps → ps.length = 5)
    ∧ (∀ ctx msgs reason notes now1 now2 ps1 ps2,
        buildMapsGroundedFallbackPlans ctx msgs reason notes now1 = some ps1 →
        buildMapsGroundedFallbackPlans ctx msgs reason notes now2 = some ps2 →
        ps1.map planCore = ps2.map planCore) := by
  have hlen5 : ∀ ctx reason notes now, (buildFallbackPlans ctx reason notes now).length = 5 :=
    fun _ _ _ _ => rfl
  have hcore : ∀ ctx reason notes now1 now2,
      (buildFallbackPlans ctx reason notes now1).map planCore =
      (buildFallbackPlans ctx reason notes now2).map planCore :=
    fun _ _ _ _ _ => rfl
  refine ⟨hlen5, hcore, ?_, ?_, ?_⟩
  · intro ctx msgs reason notes now
    cases hp : extractPlacesFromToolMessages msgs with
    | nil => simp [buildMapsGroundedFallbackPlans, hp]
    | cons a t => simp [buildMapsGroundedFallbackPlans, hp]
  · intro ctx msgs reason notes now ps hps
    simp only [buildMapsGroundedFallbackPlans] at hps
    rcases hp : extractPlacesFromToolMessages msgs with _ | ⟨a, t⟩
    · rw [hp] at hps; simp at hps
    · rw [hp] at hps
      simp only [List.isEmpty_cons, Bool.false_eq_true, if_false] at hps
      have hps2 := (Option.some.inj hps).symm
      subst hps2
      rw [List.length_take]
      split <;> rename_i hc
      · rw [List.length_append, List.length_take, hlen5]
        simp only [List.length_map] at hc ⊢
        omega
      · simp only [List.length_map] at hc ⊢
        omega
  · intro ctx msgs reason notes now1 now2 ps1 ps2 h1 h2
    simp only [buildMapsGroundedFallbackPlans] at h1 h2
    rcases hp : extractPlacesFromToolMessages msgs with _ | ⟨a, t⟩
    · rw [hp] at h1; simp at h1
    · rw [hp] at h1 h2
      simp only [List.isEmpty_cons, Bool.false_eq_true, if_false] at h1 h2
      have e1 := (Option.some.inj h1).symm
      have e2 := (Option.some.inj h2).symm
      subst e1
      subst e2
      have hA12 :
          ((((a :: t).take 5).enum.map
            (fun p : Nat × Place => groundedPlan ctx reason notes now1 p.1 p.2)).map planCore) =
          ((((a :: t).take 5).enum.map
            (fun p : Nat × Place => groundedPlan ctx reason notes now2 p.1 p.2)).map planCore) := by
        rw [List.map_map, List.map_map]
        exact List.map_congr_left (fun p _ => rfl)
      have hT12 := hcore ctx reason notes now1 now2
      have hLA :
          (((a :: t).take 5).enum.map
            (fun p : Nat × Place => groundedPlan ctx reason notes now1 p.1 p.2)).length =
          (((a :: t).take 5).enum.map
            (fun p : Nat × Place => groundedPlan ctx reason notes now2 p.1 p.2)).length := by
        simp
      rw [List.map_take, List.map_take, apply_ite (List.map planCore),
          apply_ite (List.map planCore), List.map_append, List.map_append,
          List.map_take, List.map_take, hA12, hT12, hLA]

/-- Witness for C9 at a concrete context, transcript and two clock
instants. -/
theorem c9_fallbacks_pure_given_clock_witness :
    (buildFallbackPlans ctx0 "r" none 0).length = 5 ∧
    ((buildMapsGroundedFallbackPlans ctx0 msgs3 "r" none 0).getD []).length = 5 ∧
    ((buildMapsGroundedFallbackPlans ctx0 msgs3 "r" none 0).getD []).map planCore =
      ((buildMapsGroundedFallbackPlans ctx0 msgs3 "r" none 7).getD []).map planCore :=
  ⟨c9_fallbacks_pure_given_clock.1 ctx0 "r" none 0,
   c9_fallbacks_pure_given_clock.2.2.2.1 ctx0 msgs3 "r" none 0 _ (by rfl),
   c9_fallbacks_pure_given_clock.2.2.2.2 ctx0 msgs3 "r" none 0 7 _ _ (by rfl) (by rfl)⟩


/-- C1 counterexample: a model reply whose records carry duplicate
*valid* vibe tags is kept as-is, so a completed run's vibe multiset can
differ from the canonical 5-set (here `anchor` twice and no `pivot`). -/
theorem c1_counterexample :
    (extractPlans "\x7b\"plans\": [\x7b\"vibe_type\": \"anchor\"\x7d, \x7b\"vibe_type\": \"anchor\"\x7d]\x7d").map
        (fun ps => ps.map Plan.vibe_type) =
      .ok ["anchor", "anchor", "reach", "chill", "wildcard"] ∧
    ¬ List.Perm ["anchor", "anchor", "reach", "chill", "wildcard"] DEFAULT_VIBES :=
  ⟨by rfl, by decide⟩

/-- C1 (amended): every completed generation run — model-parsed,
grounded fallback, or template fallback — yields exactly 5 plans whose
vibe tags are all drawn from the canonical 5-set; the template fallback
moreover uses each canonical tag exactly once in order, but model-kept
and grounded-padded runs may repeat tags. -/
theorem c1_five_plans_vibes_in_canonical_set :
    (∀ t ps, extractPlans t = .ok ps →
      ps.length = 5 ∧ ∀ p ∈ ps, p.vibe_type ∈ DEFAULT_VIBES)
    ∧ (∀ ctx reason notes now,
        (buildFallbackPlans ctx reason notes now).length = 5 ∧
        (buildFallbackPlans ctx reason notes now).map Plan.vibe_type = DEFAULT_VIBES)
    ∧ (∀ ctx msgs reason notes now ps,
        buildMapsGroundedFallbackPlans ctx msgs reason notes now = some ps →
        ps.length = 5 ∧ ∀ p ∈ ps, p.vibe_type ∈ DEFAULT_VIBES) :=
  ⟨extractPlans_ok,
   fun _ _ _ _ => ⟨rfl, rfl⟩,
   fun ctx msgs reason notes now ps h =>
     ⟨buildMapsGrounded_length ctx msgs reason notes now ps h,
      buildMapsGrounded_vibes ctx msgs reason notes now ps h⟩⟩

/-- Witness for C1 on a concrete one-record reply. -/
theorem c1_five_plans_vibes_in_canonical_set_witness :
    ((extractPlans "\x7b\"plans\": [\x7b\"title\": \"A\"\x7d]\x7d").toOption.getD []).length = 5 ∧
    ∀ p ∈ (extractPlans "\x7b\"plans\": [\x7b\"title\": \"A\"\x7d]\x7d").toOption.getD [],
      p.vibe_type ∈ DEFAULT_VIBES :=
  c1_five_plans_vibes_in_canonical_set.1 "\x7b\"plans\": [\x7b\"title\": \"A\"\x7d]\x7d" _ (by rfl)

/-- C8 counterexample: a parse result with 0-of-5 valid records (one
non-dict entry) is *not* padded to 5 plans — `_extract_plans` raises
instead. -/
theorem c8_counterexample :
    extractPlans "\x7b\"plans\": [\"x\"]\x7d" =
      .error (.plannerError "LLM returned malformed plans") ∧
    surviving [PyVal.pstr "x"] = [] :=
  ⟨by rfl, by rfl⟩

/-- C8 (amended): whenever at least 1 and fewer than 5 valid records
survive normalization, the output is exactly the survivors padded with
synthesized placeholder records up to length 5; each placeholder is
marked as incomplete-response fallback and takes the canonical vibe tag
of its position. -/
theorem c8_padding_to_five (rawPlans : List PyVal) (ps : List Plan)
    (h : plansFromRecords rawPlans = .ok ps) :
    ps.length = 5 ∧
    surviving rawPlans ≠ [] ∧
    ps = surviving rawPlans ++
      (List.range' (surviving rawPlans).length (5 - (surviving rawPlans).length)).map
        (fun n => normalizePlan (padRecord n) n) ∧
    ∀ n, n < 5 →
      (normalizePlan (padRecord n) n).description =
        .pstr "Fallback option generated due to incomplete model response." ∧
      (normalizePlan (padRecord n) n).vibe_type = DEFAULT_VIBES.getD n "" := by
  obtain ⟨hne, rfl⟩ := plansFromRecords_ok _ _ h
  exact ⟨padPlans_length _ (surviving_length_le _), hne, padPlans_spec _, padEntry_marked⟩

/-- Witness for C8: one valid record is padded with four placeholders. -/
theorem c8_padding_to_five_witness :
    ((plansFromRecords [PyVal.pdict []]).toOption.getD []).length = 5 ∧
    surviving [PyVal.pdict []] ≠ [] ∧
    (plansFromRecords [PyVal.pdict []]).toOption.getD [] =
      surviving [PyVal.pdict []] ++
        (List.range' (surviving [PyVal.pdict []]).length
          (5 - (surviving [PyVal.pdict []]).length)).map
          (fun n => normalizePlan (padRecord n) n) ∧
    ∀ n, n < 5 →
      (normalizePlan (padRecord n) n).description =
        .pstr "Fallback option generated due to incomplete model response." ∧
      (normalizePlan (padRecord n) n).vibe_type = DEFAULT_VIBES.getD n "" :=
  c8_padding_to_five _ _ (by rfl)


/-! ## C2: the generate orchestration -/

theorem structuredRetryStep_ok (env : LoopEnv) (ctx : GroupContext) (notes : Option String)
    (utg : Bool) (now : Int) (msgs : List Msg) (calls : Nat) (ps : List Plan)
    (h : structuredRetryStep env ctx notes utg now msgs calls = .ok ps) :
    ps.length = 5 := by
  unfold structuredRetryStep at h
  rcases henv : env.complete calls with e | repaired <;> simp only [henv] at h
  · simp at h
  · rcases hex : extractPlans repaired.content with exc | plans <;> simp only [hex] at h
    · rcases exc with m | m
      · simp only at h
        by_cases hu : utg = true
        · rw [if_pos hu] at h
          rcases hg : buildMapsGroundedFallbackPlans ctx msgs
              ("Structured retry failed: " ++ m) notes now with _ | s <;> simp only [hg] at h
          · simp at h
          · have := (Except.ok.inj h).symm
            subst this
            exact buildMapsGrounded_length _ _ _ _ _ _ hg
        · rw [if_neg hu] at h
          simp at h
      · simp at h
    · have := (Except.ok.inj h).symm
      subst this
      exact (extractPlans_ok _ _ hex).1

theorem handleParseFailure_ok (env : LoopEnv) (ctx : GroupContext) (notes : Option String)
    (utg : Bool) (now : Int) (msgs : List Msg) (calls : Nat) (msg : String) (ps : List Plan)
    (h : handleParseFailure env ctx notes utg now msgs calls msg = .ok ps) :
    ps.length = 5 := by
  simp only [handleParseFailure] at h
  by_cases hc : (utg && mentionsNoPlans msg) = true
  · rw [if_pos hc] at h
    rcases hg : buildMapsGroundedFallbackPlans ctx msgs
        ("LLM produced empty plans: " ++ msg) notes now with _ | s <;> simp only [hg] at h
    · by_cases h2 : (0 < (summarizeToolResults msgs).place_calls &&
          (summarizeToolResults msgs).place_results == 0) = true
      · rw [if_pos h2] at h
        simp at h
      · rw [if_neg h2] at h
        exact structuredRetryStep_ok _ _ _ _ _ _ _ _ h
    · have := (Except.ok.inj h).symm
      subst this
      exact buildMapsGrounded_length _ _ _ _ _ _ hg
  · rw [if_neg hc] at h
    exact structuredRetryStep_ok _ _ _ _ _ _ _ _ h

theorem generateInner_ok (env : LoopEnv) (ctx : GroupContext) (notes : Option String)
    (prompt : String) (utg : Bool) (now : Int) (ps : List Plan)
    (h : generateInner env ctx notes prompt utg now = .ok ps) :
    ps.length = 5 := by
  unfold generateInner at h
  rcases h1 : generateStep1 env prompt utg with e | ⟨output, toolMessages, callsUsed⟩ <;>
    simp only [h1] at h
  · simp at h
  · rcases hex : extractPlans output with exc | plans <;> simp only [hex] at h
    · rcases exc with m | m
      · exact handleParseFailure_ok _ _ _ _ _ _ _ _ _ h
      · simp at h
    · have := (Except.ok.inj h).symm
      subst this
      exact (extractPlans_ok _ _ hex).1

/-- C2: every call to `generate_group_plans` ends in either a list of
exactly 5 plans (real or fallback) or a generation-level
`PlannerError`; with the fallback setting enabled every internal error
class still ends in 5 returned plans. -/
theorem c2_five_plans_or_planner_error (env : LoopEnv) (ctx : GroupContext)
    (notes : Option String) (prompt : String) (utg fe : Bool) (now : Int) :
    (∀ ps, generateGroupPlans env ctx notes prompt utg fe now = .ok ps → ps.length = 5)
    ∧ (∀ e, generateGroupPlans env ctx notes prompt utg fe now = .error e →
        ∃ m, e = .plannerError m)
    ∧ (fe = true → ∃ ps, generateGroupPlans env ctx notes prompt utg fe now = .ok ps ∧
        ps.length = 5) := by
  refine ⟨?_, ?_, ?_⟩
  · intro ps h
    unfold generateGroupPlans at h
    rcases hi : generateInner env ctx notes prompt utg now with e | qs <;> simp only [hi] at h
    · by_cases hfe : fe = true
      · rw [if_pos hfe] at h
        have := (Except.ok.inj h).symm
        subst this
        exact buildFallbackPlans_length _ _ _ _
      · rw [if_neg hfe] at h
        simp at h
    · have := (Except.ok.inj h).symm
      subst this
      exact generateInner_ok _ _ _ _ _ _ _ hi
  · intro e h
    unfold generateGroupPlans at h
    rcases hi : generateInner env ctx notes prompt utg now with e2 | qs <;> simp only [hi] at h
    · by_cases hfe : fe = true
      · rw [if_pos hfe] at h
        simp at h
      · rw [if_neg hfe] at h
        exact ⟨_, (Except.error.inj h).symm⟩
    · simp at h
  · intro hfe
    unfold generateGroupPlans
    rcases hi : generateInner env ctx notes prompt utg now with e | qs
    · refine ⟨buildFallbackPlans ctx (excName e ++ ": " ++ excMsg e) notes now, ?_,
        buildFallbackPlans_length _ _ _ _⟩
      simp only [hi]
      rw [if_pos hfe]
    · exact ⟨qs, by simp only [hi], generateInner_ok _ _ _ _ _ _ _ hi⟩

/-- Witness for C2 at a concrete oracle (clean one-record reply, no
tool grounding, fallback enabled). -/
theorem c2_five_plans_or_planner_error_witness :
    ((generateGroupPlans envW ctx0 none "p" false true 0).toOption.getD []).length = 5 ∧
    (∃ ps, generateGroupPlans envW ctx0 none "p" false true 0 = .ok ps ∧ ps.length = 5) :=
  ⟨(c2_five_plans_or_planner_error envW ctx0 none "p" false true 0).1 _ (by rfl),
   (c2_five_plans_or_planner_error envW ctx0 none "p" false true 0).2.2 rfl⟩


/-! ## C5 and C6 -/

theorem summarize_append_user (msgs : List Msg) (s : String) :
    summarizeToolResults (msgs ++ [.user s]) = summarizeToolResults msgs := by
  unfold summarizeToolResults
  rw [List.foldl_append]
  rfl

/-- C5 counterexample: when the round budget is exhausted *with*
grounding data collected, the controller performs no finalize call at
all (it returns the grounded-fallback signal), contradicting the
claimed "one additional finalize completion call". -/
theorem c5_counterexample :
    (runToolLoop env0 [] MAX_TOOL_ROUNDS).map
        (fun r => (r.output, r.completionCalls, r.finalizeCalled)) =
      .ok ("\x7b\"plans\":[]\x7d", 2, false) ∧
    (runToolLoop env0 [] MAX_TOOL_ROUNDS).map
        (fun r => (summarizeToolResults r.messages).place_results) = .ok 2 :=
  ⟨by rfl, by rfl⟩

/-- C5 (amended): the extra non-tool finalize completion call happens
exactly when the round loop ends (budget exhausted or all-error break)
with *zero* collected place results; whenever place results exist at
loop end the finalize is skipped and `{"plans":[]}` is returned to
signal grounded-fallback synthesis; a no-tool-call reply returns
immediately with no finalize. -/
theorem c5_finalize_only_without_grounding (env : LoopEnv) (msgs : List Msg)
    (res : LoopResult) (h : runToolLoop env msgs MAX_TOOL_ROUNDS = .ok res) :
    (res.finalizeCalled = true → (summarizeToolResults res.messages).place_results = 0)
    ∧ (∀ work calls, runToolRounds env MAX_TOOL_ROUNDS 0 msgs 0 = .ok (none, work, calls) →
        ((0 < (summarizeToolResults work).place_results →
          res.output = "\x7b\"plans\":[]\x7d" ∧ res.finalizeCalled = false ∧
          res.completionCalls = calls)
         ∧ ((summarizeToolResults work).place_results = 0 →
            res.finalizeCalled = true ∧ res.completionCalls = calls + 1)))
    ∧ (∀ out work calls,
        runToolRounds env MAX_TOOL_ROUNDS 0 msgs 0 = .ok (some out, work, calls) →
        res.finalizeCalled = false ∧ res.output = out ∧ res.completionCalls = calls) := by
  unfold runToolLoop at h
  split at h
  · simp at h
  · rename_i out work calls heq
    have := (Except.ok.inj h).symm
    subst this
    refine ⟨by intro hf; simp at hf, ?_, ?_⟩
    · intro work2 calls2 h2
      rw [heq] at h2
      simp at h2
    · intro out2 work2 calls2 h2
      rw [heq] at h2
      obtain ⟨h4, h5, h6⟩ : out = out2 ∧ work = work2 ∧ calls = calls2 := by simpa using h2
      exact ⟨rfl, h4, h6⟩
  · rename_i work calls heq
    by_cases hpl : 0 < (summarizeToolResults work).place_results
    · rw [if_pos hpl] at h
      have := (Except.ok.inj h).symm
      subst this
      refine ⟨by intro hf; simp at hf, ?_, ?_⟩
      · intro work2 calls2 h2
        rw [heq] at h2
        obtain ⟨h5, h6⟩ : work = work2 ∧ calls = calls2 := by simpa using h2
        subst h5
        subst h6
        exact ⟨fun _ => ⟨rfl, rfl, rfl⟩, fun h0 => absurd hpl (by omega)⟩
      · intro out2 work2 calls2 h2
        rw [heq] at h2
        simp at h2
    · rw [if_neg hpl] at h
      rcases hc : env.complete calls with e | fin <;> simp only [hc] at h
      · simp at h
      · have := (Except.ok.inj h).symm
        subst this
        refine ⟨?_, ?_, ?_⟩
        · intro _
          simp only [summarize_append_user]
          omega
        · intro work2 calls2 h2
          rw [heq] at h2
          obtain ⟨h5, h6⟩ : work = work2 ∧ calls = calls2 := by simpa using h2
          subst h5
          subst h6
          exact ⟨fun h0 => absurd h0 hpl, fun _ => ⟨rfl, rfl⟩⟩
        · intro out2 work2 calls2 h2
          rw [heq] at h2
          simp at h2

/-- Witness for C5 on the concrete exhausted-with-grounding oracle. -/
theorem c5_finalize_only_without_grounding_witness :
    loop0.output = "\x7b\"plans\":[]\x7d" ∧ loop0.finalizeCalled = false ∧
    loop0.completionCalls = rounds0.2.2 := by
  have hc := ((c5_finalize_only_without_grounding env0 [] loop0 (by rfl)).2.1
    rounds0.2.1 rounds0.2.2 (by rfl)).1 (by decide)
  exact ⟨hc.1, hc.2.1, hc.2.2⟩

/-- C6 counterexample: on input `'{"a": b}'` a balanced span is
extracted and its permissive parse fails, so the pipeline reports
failure — even though the claimed full-text last-resort permissive parse
would have succeeded (the whole input is a Python string literal). -/
theorem c6_counterexample :
    parseJsonLike "'\x7b\"a\": b\x7d'" = .error (.plannerError "LLM output JSON parse failed") ∧
    literalEvalC "'\x7b\"a\": b\x7d'".data = some (.pstr "\x7b\"a\": b\x7d") :=
  ⟨by rfl, by rfl⟩

/-- C6 (amended): when strict parse, span extraction plus comma removal
and strict reparse all fail, the permissive literal parse is attempted
on the extracted span and its outcome is final — the full-text
permissive parse runs only when *no* balanced span was extracted. -/
theorem c6_span_literal_then_fail (text : Chars)
    (hne : (pyStripC text).isEmpty = false)
    (hstrict : jsonLoadsC (pyStripC text) = none) :
    (∀ sub, extractJsonCandidateC (pyStripC text) = some sub →
      jsonLoadsC (sanitizeJsonLikeC sub) = none →
      ((∀ v, literalEvalC (sanitizeJsonLikeC sub) = some v → parseJsonLikeC text = .ok v) ∧
       (literalEvalC (sanitizeJsonLikeC sub) = none →
        parseJsonLikeC text = .error (.plannerError "LLM output JSON parse failed"))))
    ∧ (extractJsonCandidateC (pyStripC text) = none →
       ((∀ v, literalEvalC (pyStripC text) = some v → parseJsonLikeC text = .ok v) ∧
        (literalEvalC (pyStripC text) = none →
         parseJsonLikeC text = .error (.plannerError "LLM output was not valid JSON")))) := by
  constructor
  · intro sub hsub hclean
    constructor
    · intro v hv
      unfold parseJsonLikeC
      rw [if_neg (by simp [hne])]
      simp only [hstrict, hsub, hclean, hv]
    · intro hlit
      unfold parseJsonLikeC
      rw [if_neg (by simp [hne])]
      simp only [hstrict, hsub, hclean, hlit]
  · intro hnone
    constructor
    · intro v hv
      unfold parseJsonLikeC
      rw [if_neg (by simp [hne])]
      simp only [hstrict, hnone, hv]
    · intro hlit
      unfold parseJsonLikeC
      rw [if_neg (by simp [hne])]
      simp only [hstrict, hnone, hlit]

/-- Witness for C6 on both branches: a span whose literal parse
succeeds, and a span-free input falling back to the full-text literal
parse. -/
theorem c6_span_literal_then_fail_witness :
    parseJsonLikeC "x \x7b'a': 1\x7d y".data = .ok (.pdict [(.pstr "a", .pint 1)]) ∧
    parseJsonLikeC "'abc'".data = .ok (.pstr "abc") :=
  ⟨((c6_span_literal_then_fail "x \x7b'a': 1\x7d y".data (by rfl) (by rfl)).1
      "\x7b'a': 1\x7d".data (by rfl) (by rfl)).1 (.pdict [(.pstr "a", .pint 1)]) (by rfl),
   ((c6_span_literal_then_fail "'abc'".data (by rfl) (by rfl)).2 (by rfl)).1
      (.pstr "abc") (by rfl)⟩

/-! ## C4: the recovery pipeline on serializer output

Bottom-up lemma stack: character facts, whitespace and stripping,
decimal digits, string literals, serializer shape facts, the two
parser round-trips, the balanced-segment scanner, the trailing-comma
sanitizer, and finally the pipeline theorems. -/

theorem toNat_ofNat_lt (n : Nat) (h : n < 55296) : (Char.ofNat n).toNat = n := by
  unfold Char.ofNat
  rw [dif_pos (Or.inl h)]
  rfl

theorem char_ne_of_toNat_ne {c d : Char} (h : c.toNat ≠ d.toNat) : c ≠ d :=
  fun hc => h (congrArg Char.toNat hc)

theorem digit_bounds {c : Char} (h : isDigitB c = true) :
    48 ≤ c.toNat ∧ c.toNat ≤ 57 := by
  simp only [isDigitB, Bool.and_eq_true, decide_eq_true_eq] at h
  obtain ⟨h1, h2⟩ := h
  rw [Char.le_def] at h1 h2
  exact ⟨h1, h2⟩

theorem isDigitB_of_bounds {c : Char} (h1 : 48 ≤ c.toNat) (h2 : c.toNat ≤ 57) :
    isDigitB c = true := by
  simp only [isDigitB, Bool.and_eq_true, decide_eq_true_eq]
  rw [Char.le_def, Char.le_def]
  exact ⟨h1, h2⟩

theorem ofNat_digit_toNat {d : Nat} (h : d < 10) :
    (Char.ofNat (48 + d)).toNat = 48 + d :=
  toNat_ofNat_lt _ (by omega)

theorem ofNat_digit_isDigit {d : Nat} (h : d < 10) :
    isDigitB (Char.ofNat (48 + d)) = true :=
  isDigitB_of_bounds (by rw [ofNat_digit_toNat h]; omega)
    (by rw [ofNat_digit_toNat h]; omega)

/-- Any character at or above `!` (0x21) is not JSON whitespace. -/
theorem jsonWsB_eq_false_of_ge {c : Char} (h : 33 ≤ c.toNat) : jsonWsB c = false := by
  simp only [jsonWsB, Bool.or_eq_false_iff, beq_eq_false_iff_ne, ne_eq]
  refine ⟨⟨⟨?_, ?_⟩, ?_⟩, ?_⟩ <;> intro hc <;> subst hc <;> simp at h

/-- Any character at or above `!` (0x21) is not Python whitespace. -/
theorem pyWsB_eq_false_of_ge {c : Char} (h : 33 ≤ c.toNat) : pyWsB c = false := by
  simp only [pyWsB, Bool.or_eq_false_iff, beq_eq_false_iff_ne, ne_eq]
  refine ⟨⟨⟨⟨⟨?_, ?_⟩, ?_⟩, ?_⟩, ?_⟩, ?_⟩ <;> intro hc <;> subst hc <;>
    exact absurd h (by decide)

theorem plain_facts {c : Char} (h : plainCharB c = true) :
    32 ≤ c.toNat ∧ c.toNat ≤ 126 ∧ c ≠ '"' ∧ c ≠ '\'' ∧ c ≠ '\\' ∧ c ≠ '{' ∧
    c ≠ '}' ∧ c ≠ '[' ∧ c ≠ ']' ∧ c ≠ ',' ∧ c ≠ '<' ∧ c ≠ Char.ofNat 96 := by
  simp only [plainCharB, Bool.and_eq_true, Bool.not_eq_true', Bool.or_eq_false_iff,
    beq_eq_false_iff_ne, ne_eq, decide_eq_true_eq] at h
  refine ⟨h.1.1, h.1.2, ?_, ?_, ?_, ?_, ?_, ?_, ?_, ?_, ?_, ?_⟩ <;> simp_all

theorem digit_ne_structural {c : Char} (h : isDigitB c = true) :
    c ≠ '{' ∧ c ≠ '[' ∧ c ≠ '"' ∧ c ≠ '-' ∧ c ≠ ']' ∧ c ≠ '}' ∧ c ≠ ',' ∧
    c ≠ '\'' ∧ c ≠ '.' ∧ c ≠ '_' ∧ c ≠ Char.ofNat 96 ∧ c ≠ '<' := by
  obtain ⟨h1, h2⟩ := digit_bounds h
  refine ⟨?_, ?_, ?_, ?_, ?_, ?_, ?_, ?_, ?_, ?_, ?_, ?_⟩ <;>
    exact char_ne_of_toNat_ne (by intro hn; rw [hn] at h1 h2; simp at h1 h2)

theorem digit_not_jsonWs {c : Char} (h : isDigitB c = true) : jsonWsB c = false :=
  jsonWsB_eq_false_of_ge (by have := (digit_bounds h).1; omega)

theorem digit_not_pyWs {c : Char} (h : isDigitB c = true) : pyWsB c = false :=
  pyWsB_eq_false_of_ge (by have := (digit_bounds h).1; omega)

/-! ### Whitespace skipping and stripping -/

theorem dropWhile_cons_of_neg {p : Char → Bool} {c : Char} {t : Chars}
    (h : p c = false) : (c :: t).dropWhile p = c :: t := by
  simp [List.dropWhile_cons, h]

theorem dropWhile_head_not {p : Char → Bool} {l : Chars} {c : Char}
    (h1 : l.head? = some c) (h2 : p c = false) : l.dropWhile p = l := by
  cases l with
  | nil => rfl
  | cons a t =>
    simp only [List.head?_cons, Option.some.injEq] at h1
    subst h1
    exact dropWhile_cons_of_neg h2

theorem skipWs_cons_of_neg {c : Char} {t : Chars} (h : jsonWsB c = false) :
    skipWs (c :: t) = c :: t := dropWhile_cons_of_neg h

theorem skipWs_cons_ws {c : Char} {t : Chars} (h : jsonWsB c = true) :
    skipWs (c :: t) = skipWs t := by
  simp [skipWs, List.dropWhile_cons, h]

theorem skipPyWs_cons_of_neg {c : Char} {t : Chars} (h : pyWsB c = false) :
    skipPyWs (c :: t) = c :: t := dropWhile_cons_of_neg h

theorem skipPyWs_cons_ws {c : Char} {t : Chars} (h : pyWsB c = true) :
    skipPyWs (c :: t) = skipPyWs t := by
  simp [skipPyWs, List.dropWhile_cons, h]

/-- `dropWhile` distributes over an append whose right part starts with a
non-matching character. -/
theorem dropWhile_append_of_head {p : Char → Bool} {m : Chars}
    (hm : ∀ c, m.head? = some c → p c = false) :
    ∀ a : Chars, (a ++ m).dropWhile p = a.dropWhile p ++ m := by
  intro a
  induction a with
  | nil =>
    simp only [List.nil_append, List.dropWhile_nil]
    cases m with
    | nil => rfl
    | cons c t => exact dropWhile_cons_of_neg (hm c rfl)
  | cons c a ih =>
    by_cases hc : p c = true
    · simp [List.dropWhile_cons, hc, ih]
    · simp [List.dropWhile_cons, hc]

theorem head?_dropWhile_not {p : Char → Bool} :
    ∀ {l : Chars} {c : Char}, (l.dropWhile p).head? = some c → p c = false := by
  intro l
  induction l with
  | nil => intro c h; simp at h
  | cons a t ih =>
    intro c h
    by_cases ha : p a = true
    · rw [List.dropWhile_cons, if_pos ha] at h
      exact ih h
    · rw [List.dropWhile_cons, if_neg ha, List.head?_cons, Option.some.injEq] at h
      subst h
      simpa using ha

theorem getLast?_of_suffix {d l : Chars} (hs : d <:+ l) (hne : d ≠ []) :
    d.getLast? = l.getLast? := by
  obtain ⟨t, rfl⟩ := hs
  rw [List.getLast?_append]
  cases hd : d.getLast? with
  | none => exact absurd (List.getLast?_eq_none_iff.mp hd) hne
  | some c => rfl

theorem pyStrip_nil : pyStripC [] = [] := rfl

theorem pyStrip_noop {cs : Chars}
    (h1 : ∀ c, cs.head? = some c → pyWsB c = false)
    (h2 : ∀ c, cs.getLast? = some c → pyWsB c = false) :
    pyStripC cs = cs := by
  cases cs with
  | nil => rfl
  | cons a t =>
    unfold pyStripC
    rw [dropWhile_cons_of_neg (h1 a rfl)]
    obtain ⟨c, hc⟩ : ∃ c, (a :: t).getLast? = some c := by
      cases hl : (a :: t).getLast? with
      | none => simp [List.getLast?_eq_none_iff] at hl
      | some c => exact ⟨c, rfl⟩
    have hrc : (a :: t).reverse.head? = some c := by
      rw [List.head?_reverse]
      exact hc
    rw [dropWhile_head_not hrc (h2 c hc), List.reverse_reverse]

/-- Stripping a text whose middle is non-empty and has non-whitespace
endpoints only trims the outer pieces. -/
theorem pyStrip_concat {pre mid post : Chars} (hm : mid ≠ [])
    (hh : ∀ c, mid.head? = some c → pyWsB c = false)
    (hl : ∀ c, mid.getLast? = some c → pyWsB c = false) :
    pyStripC (pre ++ mid ++ post) =
      pre.dropWhile pyWsB ++ mid ++ ((post.reverse.dropWhile pyWsB).reverse) := by
  unfold pyStripC
  have hmp : ∀ c, (mid ++ post).head? = some c → pyWsB c = false := by
    intro c hc
    rw [List.head?_append_of_ne_nil mid hm] at hc
    exact hh c hc
  rw [List.append_assoc, dropWhile_append_of_head hmp pre]
  have hmr : ∀ c, (mid.reverse ++ (pre.dropWhile pyWsB).reverse).head? = some c →
      pyWsB c = false := by
    intro c hc
    rw [List.head?_append_of_ne_nil mid.reverse (by simpa using hm),
      List.head?_reverse] at hc
    exact hl c hc
  rw [List.reverse_append, List.reverse_append, List.append_assoc,
    dropWhile_append_of_head hmr post.reverse]
  simp [List.reverse_append, List.reverse_reverse, List.append_assoc]

theorem mem_pyStrip {c : Char} {cs : Chars} (h : c ∈ pyStripC cs) : c ∈ cs := by
  unfold pyStripC at h
  rw [List.mem_reverse] at h
  have h2 := (List.dropWhile_sublist _).mem h
  rw [List.mem_reverse] at h2
  exact (List.dropWhile_sublist _).mem h2

theorem pyStrip_idem (cs : Chars) : pyStripC (pyStripC cs) = pyStripC cs := by
  apply pyStrip_noop
  · intro c hc
    unfold pyStripC at hc
    rw [List.head?_reverse] at hc
    have hsfx : (cs.dropWhile pyWsB).reverse.dropWhile pyWsB <:+
        (cs.dropWhile pyWsB).reverse := List.dropWhile_suffix pyWsB
    have hne : (cs.dropWhile pyWsB).reverse.dropWhile pyWsB ≠ [] := by
      intro h0
      rw [h0] at hc
      simp at hc
    rw [getLast?_of_suffix hsfx hne, List.getLast?_reverse] at hc
    exact head?_dropWhile_not hc
  · intro c hc
    unfold pyStripC at hc
    rw [List.getLast?_reverse] at hc
    exact head?_dropWhile_not hc

theorem toLower_ne_lt {c : Char} (h : c ≠ '<') : c.toLower ≠ '<' := by
  unfold Char.toLower
  show (if c.toNat ≥ 65 ∧ c.toNat ≤ 90 then Char.ofNat (c.toNat + 32) else c) ≠ '<'
  split
  · rename_i hb
    intro hc
    have h2 := congrArg Char.toNat hc
    rw [toNat_ofNat_lt (c.toNat + 32) (by omega)] at h2
    have h3 : ('<').toNat = 60 := rfl
    omega
  · exact h

theorem lowerEqB_lt_false {c : Char} (h : c ≠ '<') : lowerEqB '<' c = false := by
  have h1 : ('<').toLower = '<' := rfl
  simp only [lowerEqB, h1, beq_eq_false_iff_ne, ne_eq]
  intro hc
  exact toLower_ne_lt h hc.symm

theorem removeThinkAux_noop :
    ∀ (fuel : Nat) (cs : Chars), (∀ c ∈ cs, c ≠ '<') → removeThinkAux fuel cs = cs := by
  intro fuel
  induction fuel with
  | zero => intro cs _; rfl
  | succ f ih =>
    intro cs h
    cases cs with
    | nil => rfl
    | cons c rest =>
      have hstrip : stripPrefixCI "<think>".data (c :: rest) = none := by
        show stripPrefixCI ('<' :: "think>".data) (c :: rest) = none
        unfold stripPrefixCI
        rw [lowerEqB_lt_false (h c (by simp))]
        simp
      simp only [removeThinkAux, hstrip]
      rw [ih rest (fun c2 hc2 => h c2 (by simp [hc2]))]

theorem removeThink_noop {cs : Chars} (h : ∀ c ∈ cs, c ≠ '<') :
    removeThink cs = cs := removeThinkAux_noop cs.length cs h

/-- With no think-tag opener and no backtick at the front, the fence
stripper only performs the outer strip. -/
theorem stripCodeFence_plain {cs : Chars} (h : ∀ c ∈ cs, c ≠ '<')
    (hb : ∀ c, (pyStripC cs).head? = some c → c ≠ Char.ofNat 96) :
    stripCodeFenceC cs = pyStripC cs := by
  have h1 : removeThink (pyStripC cs) = pyStripC cs :=
    removeThink_noop (fun c hc => h c (mem_pyStrip hc))
  have h2 : "```".data.isPrefixOf (pyStripC cs) = false := by
    rw [Bool.eq_false_iff]
    intro hpre
    rw [List.isPrefixOf_iff_prefix] at hpre
    obtain ⟨t, ht⟩ := hpre
    have hhd : (pyStripC cs).head? = some (Char.ofNat 96) := by
      rw [← ht]
      rfl
    exact hb (Char.ofNat 96) hhd rfl
  simp only [stripCodeFenceC, h1, pyStrip_idem, h2]
  simp

/-! ### Decimal digits -/

theorem digitsToNat_append_singleton (xs : Chars) (c : Char) :
    digitsToNat (xs ++ [c]) = 10 * digitsToNat xs + (c.toNat - 48) := by
  simp [digitsToNat, List.foldl_append]

theorem natDigitsAux_spec :
    ∀ fuel n, n < fuel →
      natDigitsAux fuel n ≠ [] ∧
      (∀ c ∈ natDigitsAux fuel n, isDigitB c = true) ∧
      digitsToNat (natDigitsAux fuel n) = n ∧
      (0 < n → ∀ c, (natDigitsAux fuel n).head? = some c → c ≠ '0') := by
  intro fuel
  induction fuel with
  | zero => intro n h; omega
  | succ f ih =>
    intro n h
    have h48 : ('0').toNat = 48 := rfl
    by_cases h10 : n < 10
    · have he : natDigitsAux (f + 1) n = [Char.ofNat (48 + n)] := by
        unfold natDigitsAux
        rw [if_pos h10, h48]
      rw [he]
      refine ⟨by simp, ?_, ?_, ?_⟩
      · intro c hc
        rw [List.mem_singleton] at hc
        subst hc
        exact ofNat_digit_isDigit h10
      · rw [show ([Char.ofNat (48 + n)] : Chars) = [] ++ [Char.ofNat (48 + n)] from rfl,
          digitsToNat_append_singleton, ofNat_digit_toNat h10]
        simp [digitsToNat]
      · intro hn c hc
        simp only [List.head?_cons, Option.some.injEq] at hc
        subst hc
        refine char_ne_of_toNat_ne ?_
        rw [ofNat_digit_toNat h10, h48]
        omega
    · have he : natDigitsAux (f + 1) n =
          natDigitsAux f (n / 10) ++ [Char.ofNat (48 + n % 10)] := by
        conv_lhs => rw [natDigitsAux]
        rw [if_neg h10, h48]
      obtain ⟨hne, hdig, hD, hhd⟩ := ih (n / 10) (by omega)
      rw [he]
      refine ⟨by simp, ?_, ?_, ?_⟩
      · intro c hc
        rcases List.mem_append.mp hc with hc | hc
        · exact hdig c hc
        · rw [List.mem_singleton] at hc
          subst hc
          exact ofNat_digit_isDigit (by omega)
      · rw [digitsToNat_append_singleton, hD, ofNat_digit_toNat (by omega : n % 10 < 10)]
        omega
      · intro _ c hc
        rw [List.head?_append_of_ne_nil _ hne] at hc
        exact hhd (by omega) c hc

theorem natDigits_spec (n : Nat) :
    natDigits n ≠ [] ∧
    (∀ c ∈ natDigits n, isDigitB c = true) ∧
    digitsToNat (natDigits n) = n ∧
    (0 < n → ∀ c, (natDigits n).head? = some c → c ≠ '0') :=
  natDigitsAux_spec (n + 1) n (Nat.lt_succ_self n)

theorem restOk_not_digit {rest : Chars} (hr : restOk rest) :
    ∀ c, rest.head? = some c → isDigitB c = false := by
  intro c hc
  rcases hr c hc with rfl | rfl | rfl | rfl <;> rfl

theorem restOk_floatStart {rest : Chars} (hr : restOk rest) : floatStart rest = false := by
  cases rest with
  | nil => rfl
  | cons c t => rcases hr c rfl with rfl | rfl | rfl | rfl <;> rfl

theorem takeWhile_append_split {p : Char → Bool} {a b : Chars}
    (ha : ∀ c ∈ a, p c = true) (hb : ∀ c, b.head? = some c → p c = false) :
    (a ++ b).takeWhile p = a ∧ (a ++ b).dropWhile p = b := by
  induction a with
  | nil =>
    simp only [List.nil_append, List.takeWhile_nil]
    cases b with
    | nil => exact ⟨rfl, rfl⟩
    | cons c t =>
      rw [List.takeWhile_cons, List.dropWhile_cons, hb c rfl]
      exact ⟨rfl, rfl⟩
  | cons c a ih =>
    have hc : p c = true := ha c (by simp)
    have ih2 := ih (fun x hx => ha x (by simp [hx]))
    simp only [List.cons_append, List.takeWhile_cons, List.dropWhile_cons, hc, if_pos]
    exact ⟨by rw [ih2.1], ih2.2⟩

theorem jUInt_natDigits (m : Nat) {rest : Chars} (hr : restOk rest) :
    jUInt (natDigits m ++ rest) = some (m, rest) := by
  have hfs : floatStart rest = false := restOk_floatStart hr
  by_cases hm : m = 0
  · subst hm
    show jUInt ('0' :: rest) = some (0, rest)
    simp [jUInt, hfs]
  · obtain ⟨hne, hdig, hD, hhd⟩ := natDigits_spec m
    obtain ⟨c, t, hct⟩ : ∃ c t, natDigits m = c :: t := by
      cases hcs : natDigits m with
      | nil => exact absurd hcs hne
      | cons c t => exact ⟨c, t, rfl⟩
    have hcd : isDigitB c = true := hdig c (by rw [hct]; simp)
    have hc0 : c ≠ '0' := hhd (by omega) c (by rw [hct]; rfl)
    have hsplit : (natDigits m ++ rest).takeWhile isDigitB = natDigits m ∧
        (natDigits m ++ rest).dropWhile isDigitB = rest :=
      takeWhile_append_split hdig (restOk_not_digit hr)
    rw [hct] at hsplit
    rw [hct, List.cons_append]
    show jUInt (c :: (t ++ rest)) = some (m, rest)
    simp only [jUInt]
    rw [if_neg hc0, if_pos hcd]
    simp only [← List.cons_append, hsplit.1, hsplit.2, hfs, if_neg]
    rw [← hct, hD]
    simp

theorem jInt_intRepr (n : Int) {rest : Chars} (hr : restOk rest) :
    jInt (intRepr n ++ rest) = some (n, rest) := by
  cases n with
  | ofNat m =>
    show jInt (natDigits m ++ rest) = some ((m : Int), rest)
    obtain ⟨c, t, hct⟩ : ∃ c t, natDigits m = c :: t := by
      cases hcs : natDigits m with
      | nil => exact absurd hcs (natDigits_spec m).1
      | cons c t => exact ⟨c, t, rfl⟩
    have hcd : isDigitB c = true := (natDigits_spec m).2.1 c (by rw [hct]; simp)
    have hcm : c ≠ '-' := (digit_ne_structural hcd).2.2.2.1
    rw [hct, List.cons_append]
    simp only [jInt]
    rw [if_neg hcm, ← List.cons_append, ← hct, jUInt_natDigits m hr]
    rfl
  | negSucc m =>
    show jInt ('-' :: (natDigits (m + 1) ++ rest)) = some (Int.negSucc m, rest)
    simp only [jInt]
    rw [if_pos trivial, jUInt_natDigits (m + 1) hr]
    simp [Int.negSucc_eq]

theorem getLastD_cons_mem (d : Char) :
    ∀ (t : Chars) (c : Char), (c :: t).getLastD d ∈ c :: t := by
  intro t
  induction t with
  | nil => intro c; simp [List.getLastD]
  | cons b t ih =>
    intro c
    rw [show (c :: b :: t).getLastD d = (b :: t).getLastD c from rfl]
    exact List.mem_cons_of_mem c (ih b)

theorem pIntLit_natDigits (m : Nat) {rest : Chars} (hr : restOk rest) :
    pIntLit (natDigits m ++ rest) = some (m, rest) := by
  obtain ⟨hne, hdig, hD, hhd⟩ := natDigits_spec m
  have hsplit : (natDigits m ++ rest).takeWhile (fun c => isDigitB c || c == '_') =
      natDigits m ∧
      (natDigits m ++ rest).dropWhile (fun c => isDigitB c || c == '_') = rest :=
    takeWhile_append_split
      (fun c hc => by show (isDigitB c || c == '_') = true; rw [hdig c hc]; rfl)
      (fun c hc => by rcases hr c hc with rfl | rfl | rfl | rfl <;> rfl)
  obtain ⟨c, t, hct⟩ : ∃ c t, natDigits m = c :: t := by
    cases hcs : natDigits m with
    | nil => exact absurd hcs hne
    | cons c t => exact ⟨c, t, rfl⟩
  have hfilter : (natDigits m).filter isDigitB = natDigits m :=
    List.filter_eq_self.mpr hdig
  simp only [pIntLit, hsplit.1, hsplit.2, hfilter]
  rw [if_neg (by rw [hct]; simp)]
  rw [if_neg ?hheadlast]
  case hheadlast =>
    rw [Bool.or_eq_true, not_or]
    constructor
    · rw [hct]
      simp only [List.headD_cons, Bool.not_eq_true', Bool.not_eq_false]
      exact hdig c (by rw [hct]; simp)
    · have hmem : (natDigits m).getLastD ' ' ∈ natDigits m := by
        rw [hct]
        exact getLastD_cons_mem ' ' t c
      simp only [Bool.not_eq_true', Bool.not_eq_false]
      exact hdig _ hmem
  rw [if_neg ?hzip]
  case hzip =>
    rw [Bool.not_eq_true, List.any_eq_false]
    rintro ⟨a, b⟩ hab
    have ha : a ∈ natDigits m := (List.of_mem_zip hab).1
    have : (a == '_') = false := by
      rw [beq_eq_false_iff_ne]
      exact (digit_ne_structural (hdig a ha)).2.2.2.2.2.2.2.2.2.1
    simp [this]
  rw [if_neg ?hzero]
  case hzero =>
    by_cases hm : m = 0
    · subst hm
      rw [show natDigits 0 = ['0'] from rfl]
      decide
    · rw [Bool.and_eq_true, not_and]
      intro hhead
      rw [hct] at hhead
      simp only [List.headD_cons, beq_iff_eq] at hhead
      exact absurd hhead (hhd (by omega) c (by rw [hct]; rfl))
  cases rest with
  | nil =>
    show some (digitsToNat (natDigits m), ([] : Chars)) = some (m, [])
    rw [hD]
  | cons r rt =>
    have hid : (identCharB r || r == '.') = false := by
      rcases hr r rfl with rfl | rfl | rfl | rfl <;> rfl
    show (if (identCharB r || r == '.') = true then none
          else some (digitsToNat (natDigits m), r :: rt)) = some (m, r :: rt)
    rw [hid]
    simp only [Bool.false_eq_true, if_false, hD]

/-! ### String literals over the plain alphabet -/

theorem jsonEscapeChar_plain {c : Char} (h : plainCharB c = true) :
    jsonEscapeChar c = [c] := by
  obtain ⟨h1, h2, hq, hsq, hbs, _, _, _, _, _, _, _⟩ := plain_facts h
  have e1 : (c == '\\') = false := by rw [beq_eq_false_iff_ne]; exact hbs
  have e2 : (c == '"') = false := by rw [beq_eq_false_iff_ne]; exact hq
  have e3 : (c == '\n') = false := by
    rw [beq_eq_false_iff_ne]
    exact char_ne_of_toNat_ne (by rw [show ('\n').toNat = 10 from rfl]; omega)
  have e4 : (c == '\r') = false := by
    rw [beq_eq_false_iff_ne]
    exact char_ne_of_toNat_ne (by rw [show ('\r').toNat = 13 from rfl]; omega)
  have e5 : (c == '\t') = false := by
    rw [beq_eq_false_iff_ne]
    exact char_ne_of_toNat_ne (by rw [show ('\t').toNat = 9 from rfl]; omega)
  have e6 : (c == Char.ofNat 8) = false := by
    rw [beq_eq_false_iff_ne]
    exact char_ne_of_toNat_ne (by rw [toNat_ofNat_lt 8 (by omega)]; omega)
  have e7 : (c == Char.ofNat 12) = false := by
    rw [beq_eq_false_iff_ne]
    exact char_ne_of_toNat_ne (by rw [toNat_ofNat_lt 12 (by omega)]; omega)
  have e8 : (c.toNat < 32 || c.toNat > 126) = false := by
    simp only [Bool.or_eq_false_iff, decide_eq_false_iff_not]
    omega
  simp only [jsonEscapeChar, e1, e2, e3, e4, e5, e6, e7, e8, Bool.false_eq_true, if_false]

theorem reprEscapeChar_plain {c : Char} (h : plainCharB c = true) :
    reprEscapeChar c = [c] := by
  obtain ⟨h1, h2, hq, hsq, hbs, _, _, _, _, _, _, _⟩ := plain_facts h
  have e1 : (c == '\\') = false := by rw [beq_eq_false_iff_ne]; exact hbs
  have e2 : (c == '\'') = false := by rw [beq_eq_false_iff_ne]; exact hsq
  have e3 : (c == '\n') = false := by
    rw [beq_eq_false_iff_ne]
    exact char_ne_of_toNat_ne (by rw [show ('\n').toNat = 10 from rfl]; omega)
  have e4 : (c == '\r') = false := by
    rw [beq_eq_false_iff_ne]
    exact char_ne_of_toNat_ne (by rw [show ('\r').toNat = 13 from rfl]; omega)
  have e5 : (c == '\t') = false := by
    rw [beq_eq_false_iff_ne]
    exact char_ne_of_toNat_ne (by rw [show ('\t').toNat = 9 from rfl]; omega)
  have e8 : (c.toNat < 32 || c.toNat == 127) = false := by
    simp only [Bool.or_eq_false_iff, decide_eq_false_iff_not, beq_eq_false_iff_ne, ne_eq]
    omega
  simp only [reprEscapeChar, e1, e2, e3, e4, e5, e8, Bool.false_eq_true, if_false]

theorem flatten_map_plain {l : Chars} {f : Char → Chars}
    (h : ∀ c ∈ l, f c = [c]) : (l.map f).flatten = l := by
  induction l with
  | nil => rfl
  | cons c t ih =>
    rw [List.map_cons, List.flatten_cons, h c (by simp),
      ih (fun x hx => h x (by simp [hx]))]
    rfl

theorem jsonQuote_plain {s : String} (h : ∀ c ∈ s.data, plainCharB c = true) :
    jsonQuote s = '"' :: s.data ++ ['"'] := by
  unfold jsonQuote
  rw [flatten_map_plain (fun c hc => jsonEscapeChar_plain (h c hc))]

theorem reprQuote_plain {s : String} (h : ∀ c ∈ s.data, plainCharB c = true) :
    reprQuote s = '\'' :: s.data ++ ['\''] := by
  unfold reprQuote
  rw [flatten_map_plain (fun c hc => reprEscapeChar_plain (h c hc))]

theorem jStr_plain :
    ∀ {s : Chars}, (∀ c ∈ s, plainCharB c = true) →
    ∀ rest, jStr (s ++ '"' :: rest) = some (s, rest) := by
  intro s
  induction s with
  | nil =>
    intro _ rest
    show jStr ('"' :: rest) = some ([], rest)
    rfl
  | cons c t ih =>
    intro h rest
    obtain ⟨h1, h2, hq, _, hbs, _, _, _, _, _, _, _⟩ := plain_facts (h c (by simp))
    show jStr (c :: (t ++ '"' :: rest)) = some (c :: t, rest)
    show (if c = '"' then some (([] : Chars), t ++ '"' :: rest)
      else if c = '\\' then jStrEsc (t ++ '"' :: rest)
      else if c.toNat < 0x20 then none
      else (jStr (t ++ '"' :: rest)).map (fun (s, r) => (c :: s, r))) = some (c :: t, rest)
    rw [if_neg hq, if_neg hbs, if_neg (by omega : ¬c.toNat < 32),
      ih (fun x hx => h x (by simp [hx])) rest]
    rfl

theorem pStr_plain :
    ∀ {s : Chars}, (∀ c ∈ s, plainCharB c = true) →
    ∀ (fuel : Nat) (rest : Chars), s.length < fuel →
    pStr '\'' fuel (s ++ '\'' :: rest) = some (s, rest) := by
  intro s
  induction s with
  | nil =>
    intro _ fuel rest hf
    obtain ⟨f, rfl⟩ : ∃ f, fuel = f + 1 := ⟨fuel - 1, by omega⟩
    show pStr '\'' (f + 1) ('\'' :: rest) = some ([], rest)
    rfl
  | cons c t ih =>
    intro h fuel rest hf
    obtain ⟨f, rfl⟩ : ∃ f, fuel = f + 1 := ⟨fuel - 1, by omega⟩
    obtain ⟨h1, h2, _, hsq, hbs, _, _, _, _, _, _, _⟩ := plain_facts (h c (by simp))
    have hnl : (c = '\n' || c = '\r') = false := by
      simp only [Bool.or_eq_false_iff, decide_eq_false_iff_not]
      constructor
      · exact char_ne_of_toNat_ne (by rw [show ('\n').toNat = 10 from rfl]; omega)
      · exact char_ne_of_toNat_ne (by rw [show ('\r').toNat = 13 from rfl]; omega)
    show pStr '\'' (f + 1) (c :: (t ++ '\'' :: rest)) = some (c :: t, rest)
    show (if c = '\\' then pStrEsc '\'' f (t ++ '\'' :: rest)
      else if c = '\'' then some (([] : Chars), t ++ '\'' :: rest)
      else if (c = '\n' || c = '\r') = true then none
      else (pStr '\'' f (t ++ '\'' :: rest)).map (fun (s, r) => (c :: s, r))) =
        some (c :: t, rest)
    rw [if_neg hbs, if_neg hsq, hnl]
    simp only [Bool.false_eq_true, if_false]
    rw [ih (fun x hx => h x (by simp [hx])) f rest (by simp at hf ⊢; omega)]
    rfl

/-! ### Serializer shape facts -/

theorem mem_of_getLast? : ∀ {l : Chars} {c : Char}, l.getLast? = some c → c ∈ l := by
  intro l
  induction l with
  | nil => intro c h; simp at h
  | cons a t ih =>
    intro c h
    cases t with
    | nil =>
      simp only [List.getLast?_singleton, Option.some.injEq] at h
      simp [h]
    | cons b t2 =>
      rw [show (a :: b :: t2).getLast? = (b :: t2).getLast? from rfl] at h
      exact List.mem_cons_of_mem a (ih h)

/-- The facts about a serialized value's first character that the
parsers and scanners need. -/
def headFacts (c : Char) : Prop :=
  jsonWsB c = false ∧ pyWsB c = false ∧ c ≠ ']' ∧ c ≠ '}' ∧ c ≠ ',' ∧
  c ≠ ':' ∧ c ≠ Char.ofNat 96 ∧ c ≠ '<'

theorem headFacts_of_digit {c : Char} (h : isDigitB c = true) : headFacts c := by
  obtain ⟨h1, h2⟩ := digit_bounds h
  refine ⟨digit_not_jsonWs h, digit_not_pyWs h, ?_, ?_, ?_, ?_, ?_, ?_⟩ <;>
    exact char_ne_of_toNat_ne (by intro hn; rw [hn] at h1 h2; simp at h1 h2)

theorem intRepr_head (n : Int) :
    ∃ c t, intRepr n = c :: t ∧ headFacts c := by
  have hdigit : ∀ m : Nat, ∃ c t, natDigits m = c :: t ∧ headFacts c := by
    intro m
    obtain ⟨hne, hdig, _, _⟩ := natDigits_spec m
    obtain ⟨c, t, hct⟩ : ∃ c t, natDigits m = c :: t := by
      cases hcs : natDigits m with
      | nil => exact absurd hcs hne
      | cons c t => exact ⟨c, t, rfl⟩
    exact ⟨c, t, hct, headFacts_of_digit (hdig c (by rw [hct]; simp))⟩
  cases n with
  | ofNat m => exact hdigit m
  | negSucc m =>
    refine ⟨'-', natDigits (m + 1), rfl, ?_⟩
    refine ⟨rfl, rfl, ?_, ?_, ?_, ?_, ?_, ?_⟩ <;> decide

theorem dumpsV_head (v : PyVal) :
    ∃ c t, dumpsV v = c :: t ∧ headFacts c := by
  cases v with
  | pnone => exact ⟨'n', _, rfl, by unfold headFacts; decide⟩
  | pbool b =>
    cases b with
    | true => exact ⟨'t', _, rfl, by unfold headFacts; decide⟩
    | false => exact ⟨'f', _, rfl, by unfold headFacts; decide⟩
  | pint n =>
    obtain ⟨c, t, hct, hf⟩ := intRepr_head n
    exact ⟨c, t, by rw [show dumpsV (.pint n) = intRepr n from rfl, hct], hf⟩
  | pstr s => exact ⟨'"', _, rfl, by unfold headFacts; decide⟩
  | plist xs => exact ⟨'[', _, rfl, by unfold headFacts; decide⟩
  | pdict kvs => exact ⟨'{', _, rfl, by unfold headFacts; decide⟩

theorem pyReprV_head (v : PyVal) :
    ∃ c t, pyReprV v = c :: t ∧ headFacts c := by
  cases v with
  | pnone => exact ⟨'N', _, rfl, by unfold headFacts; decide⟩
  | pbool b =>
    cases b with
    | true => exact ⟨'T', _, rfl, by unfold headFacts; decide⟩
    | false => exact ⟨'F', _, rfl, by unfold headFacts; decide⟩
  | pint n =>
    obtain ⟨c, t, hct, hf⟩ := intRepr_head n
    exact ⟨c, t, by rw [show pyReprV (.pint n) = intRepr n from rfl, hct], hf⟩
  | pstr s =>
    exact ⟨'\'', (s.data.map reprEscapeChar).flatten ++ ['\''], rfl,
      by unfold headFacts; decide⟩
  | plist xs => exact ⟨'[', _, rfl, by unfold headFacts; decide⟩
  | pdict kvs => exact ⟨'{', _, rfl, by unfold headFacts; decide⟩

theorem intRepr_last {n : Int} {c : Char} (h : (intRepr n).getLast? = some c) :
    isDigitB c = true := by
  cases n with
  | ofNat m =>
    have hmem : c ∈ natDigits m := mem_of_getLast? h
    exact (natDigits_spec m).2.1 c hmem
  | negSucc m =>
    rw [show intRepr (.negSucc m) = '-' :: natDigits (m + 1) from rfl] at h
    have hsfx : natDigits (m + 1) <:+ '-' :: natDigits (m + 1) := ⟨['-'], rfl⟩
    rw [← getLast?_of_suffix hsfx (natDigits_spec (m + 1)).1] at h
    exact (natDigits_spec (m + 1)).2.1 c (mem_of_getLast? h)

theorem dumpsV_last (v : PyVal) :
    ∀ c, (dumpsV v).getLast? = some c → pyWsB c = false := by
  intro c h
  cases v with
  | pnone =>
    rw [show dumpsV .pnone = ['n', 'u', 'l', 'l'] from rfl] at h
    simp at h
    subst h
    decide
  | pbool b =>
    cases b with
    | true =>
      rw [show dumpsV (.pbool true) = ['t', 'r', 'u', 'e'] from rfl] at h
      simp at h
      subst h
      decide
    | false =>
      rw [show dumpsV (.pbool false) = ['f', 'a', 'l', 's', 'e'] from rfl] at h
      simp at h
      subst h
      decide
  | pint n => exact digit_not_pyWs (intRepr_last h)
  | pstr s =>
    rw [show dumpsV (.pstr s) = ('"' :: (s.data.map jsonEscapeChar).flatten) ++ ['"']
      from rfl, List.getLast?_concat] at h
    simp at h
    subst h
    decide
  | plist xs =>
    rw [show dumpsV (.plist xs) = ('[' :: dumpsL xs) ++ [']'] from rfl,
      List.getLast?_concat] at h
    simp at h
    subst h
    decide
  | pdict kvs =>
    rw [show dumpsV (.pdict kvs) = ('{' :: dumpsO kvs) ++ ['}'] from rfl,
      List.getLast?_concat] at h
    simp at h
    subst h
    decide

theorem pyReprV_last (v : PyVal) :
    ∀ c, (pyReprV v).getLast? = some c → pyWsB c = false := by
  intro c h
  cases v with
  | pnone =>
    rw [show pyReprV .pnone = ['N', 'o', 'n', 'e'] from rfl] at h
    simp at h
    subst h
    decide
  | pbool b =>
    cases b with
    | true =>
      rw [show pyReprV (.pbool true) = ['T', 'r', 'u', 'e'] from rfl] at h
      simp at h
      subst h
      decide
    | false =>
      rw [show pyReprV (.pbool false) = ['F', 'a', 'l', 's', 'e'] from rfl] at h
      simp at h
      subst h
      decide
  | pint n => exact digit_not_pyWs (intRepr_last h)
  | pstr s =>
    rw [show pyReprV (.pstr s) = ('\'' :: (s.data.map reprEscapeChar).flatten) ++ ['\'']
      from rfl, List.getLast?_concat] at h
    simp at h
    subst h
    decide
  | plist xs =>
    rw [show pyReprV (.plist xs) = ('[' :: pyReprL xs) ++ [']'] from rfl,
      List.getLast?_concat] at h
    simp at h
    subst h
    decide
  | pdict kvs =>
    rw [show pyReprV (.pdict kvs) = ('{' :: pyReprO kvs) ++ ['}'] from rfl,
      List.getLast?_concat] at h
    simp at h
    subst h
    decide

/-- Parser fuel bound: `needV` is at most twice the serialized length
(strong induction on `sizeOf` to handle the nested mutual structure). -/
theorem need_le_dumps_aux :
    ∀ n : Nat,
      (∀ v : PyVal, sizeOf v ≤ n → needV v ≤ 2 * (dumpsV v).length) ∧
      (∀ xs : List PyVal, sizeOf xs ≤ n → needL xs ≤ 2 * (dumpsL xs).length + 1) ∧
      (∀ kvs : List (PyVal × PyVal), sizeOf kvs ≤ n →
        needO kvs ≤ 2 * (dumpsO kvs).length + 1) := by
  intro n
  induction n using Nat.strong_induction_on with
  | _ n ih =>
    refine ⟨?_, ?_, ?_⟩
    · intro v hv
      cases v with
      | pnone => decide
      | pbool b => cases b <;> decide
      | pint m =>
        obtain ⟨c, t, hct, _⟩ := intRepr_head m
        show 1 ≤ 2 * (intRepr m).length
        rw [hct]
        simp
        omega
      | pstr s =>
        show 1 ≤ 2 * (jsonQuote s).length
        simp [jsonQuote]
        omega
      | plist xs =>
        have hsz : sizeOf xs < n := by
          have : sizeOf (PyVal.plist xs) = 1 + sizeOf xs := by simp
          omega
        have hIH := (ih (sizeOf xs) hsz).2.1 xs (le_refl _)
        show 2 + needL xs ≤ 2 * (('[' :: (dumpsL xs ++ [']'])).length)
        simp only [List.length_cons, List.length_append, List.length_singleton]
        omega
      | pdict kvs =>
        have hsz : sizeOf kvs < n := by
          have : sizeOf (PyVal.pdict kvs) = 1 + sizeOf kvs := by simp
          omega
        have hIH := (ih (sizeOf kvs) hsz).2.2 kvs (le_refl _)
        show 2 + needO kvs ≤ 2 * (('{' :: (dumpsO kvs ++ ['}'])).length)
        simp only [List.length_cons, List.length_append, List.length_singleton]
        omega
    · intro xs hxs
      cases xs with
      | nil => decide
      | cons x t =>
        have hszx : sizeOf x < n := by
          have : sizeOf (x :: t) = 1 + sizeOf x + sizeOf t := by simp
          omega
        have hIHx := (ih (sizeOf x) hszx).1 x (le_refl _)
        cases t with
        | nil =>
          show 1 + needV x + needL [] ≤ 2 * (dumpsV x).length + 1
          have : needL ([] : List PyVal) = 0 := rfl
          omega
        | cons y t2 =>
          have hszt : sizeOf (y :: t2) < n := by
            have : sizeOf (x :: y :: t2) = 1 + sizeOf x + sizeOf (y :: t2) := by simp
            omega
          have hIHt := (ih (sizeOf (y :: t2)) hszt).2.1 (y :: t2) (le_refl _)
          show 1 + needV x + needL (y :: t2) ≤
            2 * ((dumpsV x ++ [',', ' '] ++ dumpsL (y :: t2)).length) + 1
          simp only [List.length_append, List.length_cons, List.length_nil]
          omega
    · intro kvs hkvs
      cases kvs with
      | nil => decide
      | cons kv t =>
        obtain ⟨k, v⟩ := kv
        have hszv : sizeOf v < n := by
          have h1 : sizeOf ((k, v) :: t) = 1 + sizeOf (k, v) + sizeOf t := by simp
          have h2 : sizeOf (k, v) = 1 + sizeOf k + sizeOf v := by simp
          omega
        have hIHv := (ih (sizeOf v) hszv).1 v (le_refl _)
        cases t with
        | nil =>
          show 1 + needV v + needO [] ≤
            2 * ((jsonKeyChars k ++ [':', ' '] ++ dumpsV v).length) + 1
          have : needO ([] : List (PyVal × PyVal)) = 0 := rfl
          simp only [List.length_append, List.length_cons, List.length_nil]
          omega
        | cons kv2 t2 =>
          have hszt : sizeOf (kv2 :: t2) < n := by
            have : sizeOf ((k, v) :: kv2 :: t2) =
              1 + sizeOf (k, v) + sizeOf (kv2 :: t2) := by simp
            omega
          have hIHt := (ih (sizeOf (kv2 :: t2)) hszt).2.2 (kv2 :: t2) (le_refl _)
          show 1 + needV v + needO (kv2 :: t2) ≤
            2 * ((jsonKeyChars k ++ [':', ' '] ++ dumpsV v ++ [',', ' '] ++
              dumpsO (kv2 :: t2)).length) + 1
          simp only [List.length_append, List.length_cons, List.length_nil]
          omega

theorem need_le_repr_aux :
    ∀ n : Nat,
      (∀ v : PyVal, sizeOf v ≤ n → needV v ≤ 2 * (pyReprV v).length) ∧
      (∀ xs : List PyVal, sizeOf xs ≤ n → needL xs ≤ 2 * (pyReprL xs).length + 1) ∧
      (∀ kvs : List (PyVal × PyVal), sizeOf kvs ≤ n →
        needO kvs ≤ 2 * (pyReprO kvs).length + 1) := by
  intro n
  induction n using Nat.strong_induction_on with
  | _ n ih =>
    refine ⟨?_, ?_, ?_⟩
    · intro v hv
      cases v with
      | pnone => decide
      | pbool b => cases b <;> decide
      | pint m =>
        obtain ⟨c, t, hct, _⟩ := intRepr_head m
        show 1 ≤ 2 * (intRepr m).length
        rw [hct]
        simp
        omega
      | pstr s =>
        show 1 ≤ 2 * (reprQuote s).length
        simp [reprQuote]
        omega
      | plist xs =>
        have hsz : sizeOf xs < n := by
          have : sizeOf (PyVal.plist xs) = 1 + sizeOf xs := by simp
          omega
        have hIH := (ih (sizeOf xs) hsz).2.1 xs (le_refl _)
        show 2 + needL xs ≤ 2 * (('[' :: (pyReprL xs ++ [']'])).length)
        simp only [List.length_cons, List.length_append, List.length_singleton]
        omega
      | pdict kvs =>
        have hsz : sizeOf kvs < n := by
          have : sizeOf (PyVal.pdict kvs) = 1 + sizeOf kvs := by simp
          omega
        have hIH := (ih (sizeOf kvs) hsz).2.2 kvs (le_refl _)
        show 2 + needO kvs ≤ 2 * (('{' :: (pyReprO kvs ++ ['}'])).length)
        simp only [List.length_cons, List.length_append, List.length_singleton]
        omega
    · intro xs hxs
      cases xs with
      | nil => decide
      | cons x t =>
        have hszx : sizeOf x < n := by
          have : sizeOf (x :: t) = 1 + sizeOf x + sizeOf t := by simp
          omega
        have hIHx := (ih (sizeOf x) hszx).1 x (le_refl _)
        cases t with
        | nil =>
          show 1 + needV x + needL [] ≤ 2 * (pyReprV x).length + 1
          have : needL ([] : List PyVal) = 0 := rfl
          omega
        | cons y t2 =>
          have hszt : sizeOf (y :: t2) < n := by
            have : sizeOf (x :: y :: t2) = 1 + sizeOf x + sizeOf (y :: t2) := by simp
            omega
          have hIHt := (ih (sizeOf (y :: t2)) hszt).2.1 (y :: t2) (le_refl _)
          show 1 + needV x + needL (y :: t2) ≤
            2 * ((pyReprV x ++ [',', ' '] ++ pyReprL (y :: t2)).length) + 1
          simp only [List.length_append, List.length_cons, List.length_nil]
          omega
    · intro kvs hkvs
      cases kvs with
      | nil => decide
      | cons kv t =>
        obtain ⟨k, v⟩ := kv
        have hszv : sizeOf v < n := by
          have h1 : sizeOf ((k, v) :: t) = 1 + sizeOf (k, v) + sizeOf t := by simp
          have h2 : sizeOf (k, v) = 1 + sizeOf k + sizeOf v := by simp
          omega
        have hIHv := (ih (sizeOf v) hszv).1 v (le_refl _)
        cases t with
        | nil =>
          show 1 + needV v + needO [] ≤
            2 * ((pyReprV k ++ [':', ' '] ++ pyReprV v).length) + 1
          have : needO ([] : List (PyVal × PyVal)) = 0 := rfl
          simp only [List.length_append, List.length_cons, List.length_nil]
          omega
        | cons kv2 t2 =>
          have hszt : sizeOf (kv2 :: t2) < n := by
            have : sizeOf ((k, v) :: kv2 :: t2) =
              1 + sizeOf (k, v) + sizeOf (kv2 :: t2) := by simp
            omega
          have hIHt := (ih (sizeOf (kv2 :: t2)) hszt).2.2 (kv2 :: t2) (le_refl _)
          show 1 + needV v + needO (kv2 :: t2) ≤
            2 * ((pyReprV k ++ [':', ' '] ++ pyReprV v ++ [',', ' '] ++
              pyReprO (kv2 :: t2)).length) + 1
          simp only [List.length_append, List.length_cons, List.length_nil]
          omega

theorem needV_le_dumps (v : PyVal) : needV v ≤ 2 * (dumpsV v).length :=
  (need_le_dumps_aux (sizeOf v)).1 v (le_refl _)

theorem needV_le_repr (v : PyVal) : needV v ≤ 2 * (pyReprV v).length :=
  (need_le_repr_aux (sizeOf v)).1 v (le_refl _)

theorem needO_le_dumps (kvs : List (PyVal × PyVal)) :
    needO kvs ≤ 2 * (dumpsO kvs).length + 1 :=
  (need_le_dumps_aux (sizeOf kvs)).2.2 kvs (le_refl _)

/-! ### Destructuring the well-behavedness predicate -/

theorem goodVal_plist {xs : List PyVal} (h : goodVal (.plist xs) = true) :
    goodValL xs = true := h

theorem goodVal_pdict {kvs : List (PyVal × PyVal)} (h : goodVal (.pdict kvs) = true) :
    nodupKeysB (kvs.map Prod.fst) = true ∧ goodValO kvs = true := by
  have h2 : (nodupKeysB (kvs.map Prod.fst) && goodValO kvs) = true := h
  rw [Bool.and_eq_true] at h2
  exact h2

theorem goodVal_pstr {s : String} (h : goodVal (.pstr s) = true) :
    ∀ c ∈ s.data, plainCharB c = true := by
  have h2 : s.data.all plainCharB = true := h
  exact fun c hc => List.all_eq_true.mp h2 c hc

theorem goodValL_cons {x : PyVal} {t : List PyVal} (h : goodValL (x :: t) = true) :
    goodVal x = true ∧ goodValL t = true := by
  have h2 : (goodVal x && goodValL t) = true := h
  rw [Bool.and_eq_true] at h2
  exact h2

theorem goodValO_cons {k v : PyVal} {t : List (PyVal × PyVal)}
    (h : goodValO ((k, v) :: t) = true) :
    (∃ s : String, k = .pstr s ∧ (∀ c ∈ s.data, plainCharB c = true)) ∧
    goodVal v = true ∧ goodValO t = true := by
  cases k with
  | pstr s =>
    have h2 : (s.data.all plainCharB && goodVal v && goodValO t) = true := h
    rw [Bool.and_eq_true, Bool.and_eq_true] at h2
    exact ⟨⟨s, rfl, fun c hc => List.all_eq_true.mp h2.1.1 c hc⟩, h2.1.2, h2.2⟩
  | pnone => exact absurd h (by rw [show goodValO ((PyVal.pnone, v) :: t) =
      (false && goodVal v && goodValO t) from rfl]; simp)
  | pbool b => exact absurd h (by rw [show goodValO ((PyVal.pbool b, v) :: t) =
      (false && goodVal v && goodValO t) from rfl]; simp)
  | pint n => exact absurd h (by rw [show goodValO ((PyVal.pint n, v) :: t) =
      (false && goodVal v && goodValO t) from rfl]; simp)
  | plist xs => exact absurd h (by rw [show goodValO ((PyVal.plist xs, v) :: t) =
      (false && goodVal v && goodValO t) from rfl]; simp)
  | pdict kvs2 => exact absurd h (by rw [show goodValO ((PyVal.pdict kvs2, v) :: t) =
      (false && goodVal v && goodValO t) from rfl]; simp)

theorem goodValO_key_good {k v : PyVal} {t : List (PyVal × PyVal)}
    (h : goodValO ((k, v) :: t) = true) : goodVal k = true := by
  obtain ⟨⟨s, rfl, hs⟩, _, _⟩ := goodValO_cons h
  exact List.all_eq_true.mpr hs

/-! ### No think-tag opener in serializer output -/

theorem intRepr_no_lt (m : Int) : ∀ c ∈ intRepr m, c ≠ '<' := by
  intro c hc
  cases m with
  | ofNat k =>
    exact (digit_ne_structural ((natDigits_spec k).2.1 c hc)).2.2.2.2.2.2.2.2.2.2.2
  | negSucc k =>
    rw [show intRepr (.negSucc k) = '-' :: natDigits (k + 1) from rfl] at hc
    rcases List.mem_cons.mp hc with rfl | hc2
    · decide
    · exact (digit_ne_structural ((natDigits_spec (k + 1)).2.1 c hc2)).2.2.2.2.2.2.2.2.2.2.2

theorem dumps_no_lt_aux :
    ∀ n : Nat,
      (∀ v : PyVal, sizeOf v ≤ n → goodVal v = true → ∀ c ∈ dumpsV v, c ≠ '<') ∧
      (∀ xs : List PyVal, sizeOf xs ≤ n → goodValL xs = true →
        ∀ c ∈ dumpsL xs, c ≠ '<') ∧
      (∀ kvs : List (PyVal × PyVal), sizeOf kvs ≤ n → goodValO kvs = true →
        ∀ c ∈ dumpsO kvs, c ≠ '<') := by
  intro n
  induction n using Nat.strong_induction_on with
  | _ n ih =>
    refine ⟨?_, ?_, ?_⟩
    · intro v hv hg c hc
      cases v with
      | pnone =>
        rw [show dumpsV .pnone = ['n', 'u', 'l', 'l'] from rfl] at hc
        simp only [List.mem_cons, List.mem_nil_iff, or_false] at hc
        rcases hc with rfl | rfl | rfl | rfl <;> decide
      | pbool b =>
        cases b with
        | true =>
          rw [show dumpsV (.pbool true) = ['t', 'r', 'u', 'e'] from rfl] at hc
          simp only [List.mem_cons, List.mem_nil_iff, or_false] at hc
          rcases hc with rfl | rfl | rfl | rfl <;> decide
        | false =>
          rw [show dumpsV (.pbool false) = ['f', 'a', 'l', 's', 'e'] from rfl] at hc
          simp only [List.mem_cons, List.mem_nil_iff, or_false] at hc
          rcases hc with rfl | rfl | rfl | rfl | rfl <;> decide
      | pint m => exact intRepr_no_lt m c hc
      | pstr s =>
        rw [show dumpsV (.pstr s) = jsonQuote s from rfl,
          jsonQuote_plain (goodVal_pstr hg)] at hc
        rcases List.mem_cons.mp hc with rfl | hc2
        · decide
        · rcases List.mem_append.mp hc2 with hc3 | hc3
          · exact (plain_facts (goodVal_pstr hg c hc3)).2.2.2.2.2.2.2.2.2.2.1
          · rw [List.mem_singleton] at hc3
            subst hc3
            decide
      | plist xs =>
        have hsz : sizeOf xs < n := by
          have : sizeOf (PyVal.plist xs) = 1 + sizeOf xs := by simp
          omega
        rw [show dumpsV (.plist xs) = '[' :: (dumpsL xs ++ [']']) from rfl] at hc
        rcases List.mem_cons.mp hc with rfl | hc2
        · decide
        · rcases List.mem_append.mp hc2 with hc3 | hc3
          · exact (ih (sizeOf xs) hsz).2.1 xs (le_refl _) (goodVal_plist hg) c hc3
          · rw [List.mem_singleton] at hc3
            subst hc3
            decide
      | pdict kvs =>
        have hsz : sizeOf kvs < n := by
          have : sizeOf (PyVal.pdict kvs) = 1 + sizeOf kvs := by simp
          omega
        rw [show dumpsV (.pdict kvs) = '{' :: (dumpsO kvs ++ ['}']) from rfl] at hc
        rcases List.mem_cons.mp hc with rfl | hc2
        · decide
        · rcases List.mem_append.mp hc2 with hc3 | hc3
          · exact (ih (sizeOf kvs) hsz).2.2 kvs (le_refl _) (goodVal_pdict hg).2 c hc3
          · rw [List.mem_singleton] at hc3
            subst hc3
            decide
    · intro xs hxs hg c hc
      cases xs with
      | nil =>
        rw [show dumpsL ([] : List PyVal) = [] from rfl] at hc
        exact absurd hc (List.not_mem_nil c)
      | cons x t =>
        obtain ⟨hgx, hgt⟩ := goodValL_cons hg
        have hszx : sizeOf x < n := by
          have : sizeOf (x :: t) = 1 + sizeOf x + sizeOf t := by simp
          omega
        cases t with
        | nil =>
          exact (ih (sizeOf x) hszx).1 x (le_refl _) hgx c hc
        | cons y t2 =>
          have hszt : sizeOf (y :: t2) < n := by
            have : sizeOf (x :: y :: t2) = 1 + sizeOf x + sizeOf (y :: t2) := by simp
            omega
          rw [show dumpsL (x :: y :: t2) = dumpsV x ++ [',', ' '] ++ dumpsL (y :: t2)
            from rfl] at hc
          rcases List.mem_append.mp hc with hc2 | hc2
          · rcases List.mem_append.mp hc2 with hc3 | hc3
            · exact (ih (sizeOf x) hszx).1 x (le_refl _) hgx c hc3
            · simp only [List.mem_cons, List.mem_nil_iff, or_false] at hc3
              rcases hc3 with rfl | rfl <;> decide
          · exact (ih (sizeOf (y :: t2)) hszt).2.1 (y :: t2) (le_refl _) hgt c hc2
    · intro kvs hkvs hg c hc
      cases kvs with
      | nil =>
        rw [show dumpsO ([] : List (PyVal × PyVal)) = [] from rfl] at hc
        exact absurd hc (List.not_mem_nil c)
      | cons kv t =>
        obtain ⟨k, v⟩ := kv
        obtain ⟨⟨s, rfl, hks⟩, hgv, hgt⟩ := goodValO_cons hg
        have hszv : sizeOf v < n := by
          have h1 : sizeOf ((PyVal.pstr s, v) :: t) =
            1 + sizeOf (PyVal.pstr s, v) + sizeOf t := by simp
          have h2 : sizeOf (PyVal.pstr s, v) = 1 + sizeOf (PyVal.pstr s) + sizeOf v := by
            simp
          omega
        have hkey : ∀ c2 ∈ jsonKeyChars (.pstr s), c2 ≠ '<' := by
          intro c2 hc2
          rw [show jsonKeyChars (.pstr s) = jsonQuote s from rfl,
            jsonQuote_plain hks] at hc2
          rcases List.mem_cons.mp hc2 with rfl | hc3
          · decide
          · rcases List.mem_append.mp hc3 with hc4 | hc4
            · exact (plain_facts (hks c2 hc4)).2.2.2.2.2.2.2.2.2.2.1
            · rw [List.mem_singleton] at hc4
              subst hc4
              decide
        cases t with
        | nil =>
          rw [show dumpsO [(PyVal.pstr s, v)] =
            jsonKeyChars (.pstr s) ++ [':', ' '] ++ dumpsV v from rfl] at hc
          rcases List.mem_append.mp hc with hc2 | hc2
          · rcases List.mem_append.mp hc2 with hc3 | hc3
            · exact hkey c hc3
            · simp only [List.mem_cons, List.mem_nil_iff, or_false] at hc3
              rcases hc3 with rfl | rfl <;> decide
          · exact (ih (sizeOf v) hszv).1 v (le_refl _) hgv c hc2
        | cons kv2 t2 =>
          have hszt : sizeOf (kv2 :: t2) < n := by
            have : sizeOf ((PyVal.pstr s, v) :: kv2 :: t2) =
              1 + sizeOf (PyVal.pstr s, v) + sizeOf (kv2 :: t2) := by simp
            omega
          rw [show dumpsO ((PyVal.pstr s, v) :: kv2 :: t2) =
            jsonKeyChars (.pstr s) ++ [':', ' '] ++ dumpsV v ++ [',', ' '] ++
              dumpsO (kv2 :: t2) from rfl] at hc
          rcases List.mem_append.mp hc with hc2 | hc2
          · rcases List.mem_append.mp hc2 with hc3 | hc3
            · rcases List.mem_append.mp hc3 with hc4 | hc4
              · rcases List.mem_append.mp hc4 with hc5 | hc5
                · exact hkey c hc5
                · simp only [List.mem_cons, List.mem_nil_iff, or_false] at hc5
                  rcases hc5 with rfl | rfl <;> decide
              · exact (ih (sizeOf v) hszv).1 v (le_refl _) hgv c hc4
            · simp only [List.mem_cons, List.mem_nil_iff, or_false] at hc3
              rcases hc3 with rfl | rfl <;> decide
          · exact (ih (sizeOf (kv2 :: t2)) hszt).2.2 (kv2 :: t2) (le_refl _) hgt c hc2

theorem dumps_no_lt {v : PyVal} (hg : goodVal v = true) :
    ∀ c ∈ dumpsV v, c ≠ '<' :=
  (dumps_no_lt_aux (sizeOf v)).1 v (le_refl _) hg

theorem repr_no_lt_aux :
    ∀ n : Nat,
      (∀ v : PyVal, sizeOf v ≤ n → goodVal v = true → ∀ c ∈ pyReprV v, c ≠ '<') ∧
      (∀ xs : List PyVal, sizeOf xs ≤ n → goodValL xs = true →
        ∀ c ∈ pyReprL xs, c ≠ '<') ∧
      (∀ kvs : List (PyVal × PyVal), sizeOf kvs ≤ n → goodValO kvs = true →
        ∀ c ∈ pyReprO kvs, c ≠ '<') := by
  intro n
  induction n using Nat.strong_induction_on with
  | _ n ih =>
    refine ⟨?_, ?_, ?_⟩
    · intro v hv hg c hc
      cases v with
      | pnone =>
        rw [show pyReprV .pnone = ['N', 'o', 'n', 'e'] from rfl] at hc
        simp only [List.mem_cons, List.mem_nil_iff, or_false] at hc
        rcases hc with rfl | rfl | rfl | rfl <;> decide
      | pbool b =>
        cases b with
        | true =>
          rw [show pyReprV (.pbool true) = ['T', 'r', 'u', 'e'] from rfl] at hc
          simp only [List.mem_cons, List.mem_nil_iff, or_false] at hc
          rcases hc with rfl | rfl | rfl | rfl <;> decide
        | false =>
          rw [show pyReprV (.pbool false) = ['F', 'a', 'l', 's', 'e'] from rfl] at hc
          simp only [List.mem_cons, List.mem_nil_iff, or_false] at hc
          rcases hc with rfl | rfl | rfl | rfl | rfl <;> decide
      | pint m => exact intRepr_no_lt m c hc
      | pstr s =>
        rw [show pyReprV (.pstr s) = reprQuote s from rfl,
          reprQuote_plain (goodVal_pstr hg)] at hc
        rcases List.mem_cons.mp hc with rfl | hc2
        · decide
        · rcases List.mem_append.mp hc2 with hc3 | hc3
          · exact (plain_facts (goodVal_pstr hg c hc3)).2.2.2.2.2.2.2.2.2.2.1
          · rw [List.mem_singleton] at hc3
            subst hc3
            decide
      | plist xs =>
        have hsz : sizeOf xs < n := by
          have : sizeOf (PyVal.plist xs) = 1 + sizeOf xs := by simp
          omega
        rw [show pyReprV (.plist xs) = '[' :: (pyReprL xs ++ [']']) from rfl] at hc
        rcases List.mem_cons.mp hc with rfl | hc2
        · decide
        · rcases List.mem_append.mp hc2 with hc3 | hc3
          · exact (ih (sizeOf xs) hsz).2.1 xs (le_refl _) (goodVal_plist hg) c hc3
          · rw [List.mem_singleton] at hc3
            subst hc3
            decide
      | pdict kvs =>
        have hsz : sizeOf kvs < n := by
          have : sizeOf (PyVal.pdict kvs) = 1 + sizeOf kvs := by simp
          omega
        rw [show pyReprV (.pdict kvs) = '{' :: (pyReprO kvs ++ ['}']) from rfl] at hc
        rcases List.mem_cons.mp hc with rfl | hc2
        · decide
        · rcases List.mem_append.mp hc2 with hc3 | hc3
          · exact (ih (sizeOf kvs) hsz).2.2 kvs (le_refl _) (goodVal_pdict hg).2 c hc3
          · rw [List.mem_singleton] at hc3
            subst hc3
            decide
    · intro xs hxs hg c hc
      cases xs with
      | nil =>
        rw [show pyReprL ([] : List PyVal) = [] from rfl] at hc
        exact absurd hc (List.not_mem_nil c)
      | cons x t =>
        obtain ⟨hgx, hgt⟩ := goodValL_cons hg
        have hszx : sizeOf x < n := by
          have : sizeOf (x :: t) = 1 + sizeOf x + sizeOf t := by simp
          omega
        cases t with
        | nil =>
          exact (ih (sizeOf x) hszx).1 x (le_refl _) hgx c hc
        | cons y t2 =>
          have hszt : sizeOf (y :: t2) < n := by
            have : sizeOf (x :: y :: t2) = 1 + sizeOf x + sizeOf (y :: t2) := by simp
            omega
          rw [show pyReprL (x :: y :: t2) = pyReprV x ++ [',', ' '] ++ pyReprL (y :: t2)
            from rfl] at hc
          rcases List.mem_append.mp hc with hc2 | hc2
          · rcases List.mem_append.mp hc2 with hc3 | hc3
            · exact (ih (sizeOf x) hszx).1 x (le_refl _) hgx c hc3
            · simp only [List.mem_cons, List.mem_nil_iff, or_false] at hc3
              rcases hc3 with rfl | rfl <;> decide
          · exact (ih (sizeOf (y :: t2)) hszt).2.1 (y :: t2) (le_refl _) hgt c hc2
    · intro kvs hkvs hg c hc
      cases kvs with
      | nil =>
        rw [show pyReprO ([] : List (PyVal × PyVal)) = [] from rfl] at hc
        exact absurd hc (List.not_mem_nil c)
      | cons kv t =>
        obtain ⟨k, v⟩ := kv
        have hgk : goodVal k = true := goodValO_key_good hg
        obtain ⟨_, hgv, hgt⟩ := goodValO_cons hg
        have hszk : sizeOf k < n := by
          have h1 : sizeOf ((k, v) :: t) = 1 + sizeOf (k, v) + sizeOf t := by simp
          have h2 : sizeOf (k, v) = 1 + sizeOf k + sizeOf v := by simp
          omega
        have hszv : sizeOf v < n := by
          have h1 : sizeOf ((k, v) :: t) = 1 + sizeOf (k, v) + sizeOf t := by simp
          have h2 : sizeOf (k, v) = 1 + sizeOf k + sizeOf v := by simp
          omega
        cases t with
        | nil =>
          rw [show pyReprO [(k, v)] = pyReprV k ++ [':', ' '] ++ pyReprV v from rfl] at hc
          rcases List.mem_append.mp hc with hc2 | hc2
          · rcases List.mem_append.mp hc2 with hc3 | hc3
            · exact (ih (sizeOf k) hszk).1 k (le_refl _) hgk c hc3
            · simp only [List.mem_cons, List.mem_nil_iff, or_false] at hc3
              rcases hc3 with rfl | rfl <;> decide
          · exact (ih (sizeOf v) hszv).1 v (le_refl _) hgv c hc2
        | cons kv2 t2 =>
          have hszt : sizeOf (kv2 :: t2) < n := by
            have : sizeOf ((k, v) :: kv2 :: t2) =
              1 + sizeOf (k, v) + sizeOf (kv2 :: t2) := by simp
            omega
          rw [show pyReprO ((k, v) :: kv2 :: t2) =
            pyReprV k ++ [':', ' '] ++ pyReprV v ++ [',', ' '] ++
              pyReprO (kv2 :: t2) from rfl] at hc
          rcases List.mem_append.mp hc with hc2 | hc2
          · rcases List.mem_append.mp hc2 with hc3 | hc3
            · rcases List.mem_append.mp hc3 with hc4 | hc4
              · rcases List.mem_append.mp hc4 with hc5 | hc5
                · exact (ih (sizeOf k) hszk).1 k (le_refl _) hgk c hc5
                · simp only [List.mem_cons, List.mem_nil_iff, or_false] at hc5
                  rcases hc5 with rfl | rfl <;> decide
              · exact (ih (sizeOf v) hszv).1 v (le_refl _) hgv c hc4
            · simp only [List.mem_cons, List.mem_nil_iff, or_false] at hc3
              rcases hc3 with rfl | rfl <;> decide
          · exact (ih (sizeOf (kv2 :: t2)) hszt).2.2 (kv2 :: t2) (le_refl _) hgt c hc2

theorem repr_no_lt {v : PyVal} (hg : goodVal v = true) :
    ∀ c ∈ pyReprV v, c ≠ '<' :=
  (repr_no_lt_aux (sizeOf v)).1 v (le_refl _) hg

/-! ### Glue for the parser round-trips -/

theorem restOk_nil : restOk [] := fun c h => by simp at h

theorem restOk_comma {t : Chars} : restOk (',' :: t) := by
  intro c h
  simp only [List.head?_cons, Option.some.injEq] at h
  subst h
  exact Or.inl rfl

theorem restOk_rbracket {t : Chars} : restOk (']' :: t) := by
  intro c h
  simp only [List.head?_cons, Option.some.injEq] at h
  subst h
  exact Or.inr (Or.inl rfl)

theorem restOk_rbrace {t : Chars} : restOk ('}' :: t) := by
  intro c h
  simp only [List.head?_cons, Option.some.injEq] at h
  subst h
  exact Or.inr (Or.inr (Or.inl rfl))

theorem restOk_colon {t : Chars} : restOk (':' :: t) := by
  intro c h
  simp only [List.head?_cons, Option.some.injEq] at h
  subst h
  exact Or.inr (Or.inr (Or.inr rfl))

theorem string_mk_data (s : String) : String.mk s.data = s := rfl

theorem isPrefixOf_cons_ne {a c : Char} (as : Chars) {cs : Chars} (h : a ≠ c) :
    (a :: as).isPrefixOf (c :: cs) = false := by
  rw [show (a :: as).isPrefixOf (c :: cs) = ((a == c) && as.isPrefixOf cs) from rfl,
    show (a == c) = false from beq_eq_false_iff_ne.mpr h, Bool.false_and]

theorem isPrefixOf_append_self (l t : Chars) : l.isPrefixOf (l ++ t) = true := by
  rw [List.isPrefixOf_iff_prefix]
  exact List.prefix_append l t

theorem nodupKeysB_cons {k : PyVal} {ks : List PyVal} (h : nodupKeysB (k :: ks) = true) :
    (∀ k2 ∈ ks, pyBeq k k2 = false) ∧ nodupKeysB ks = true := by
  have h2 : (!(ks.any (fun k2 => pyBeq k k2)) && nodupKeysB ks) = true := h
  rw [Bool.and_eq_true, Bool.not_eq_true'] at h2
  refine ⟨?_, h2.2⟩
  intro k2 hk2
  have := List.any_eq_false.mp h2.1 k2 hk2
  simpa using this

theorem dictInsert_fresh {acc : List (PyVal × PyVal)} {k v : PyVal}
    (h : ∀ kv ∈ acc, pyBeq kv.1 k = false) :
    dictInsert acc k v = acc ++ [(k, v)] := by
  unfold dictInsert
  rw [if_neg ?ha]
  case ha =>
    intro hx
    obtain ⟨kv, hkv, hf⟩ := List.any_eq_true.mp hx
    rw [h kv hkv] at hf
    exact absurd hf (by simp)

theorem dumpsL_cons_ex (x : PyVal) (t : List PyVal) :
    ∃ tail, dumpsL (x :: t) = dumpsV x ++ tail := by
  cases t with
  | nil => exact ⟨[], by rw [show dumpsL [x] = dumpsV x from rfl, List.append_nil]⟩
  | cons y t2 =>
    exact ⟨[',', ' '] ++ dumpsL (y :: t2), by
      rw [show dumpsL (x :: y :: t2) = dumpsV x ++ [',', ' '] ++ dumpsL (y :: t2) from rfl,
        List.append_assoc]⟩

theorem dumpsO_cons_ex (k v : PyVal) (t : List (PyVal × PyVal)) :
    ∃ tail, dumpsO ((k, v) :: t) = jsonKeyChars k ++ tail := by
  cases t with
  | nil =>
    exact ⟨[':', ' '] ++ dumpsV v, by
      rw [show dumpsO [(k, v)] = jsonKeyChars k ++ [':', ' '] ++ dumpsV v from rfl,
        List.append_assoc]⟩
  | cons kv2 t2 =>
    exact ⟨[':', ' '] ++ dumpsV v ++ [',', ' '] ++ dumpsO (kv2 :: t2), by
      rw [show dumpsO ((k, v) :: kv2 :: t2) =
        jsonKeyChars k ++ [':', ' '] ++ dumpsV v ++ [',', ' '] ++ dumpsO (kv2 :: t2)
        from rfl]
      simp [List.append_assoc]⟩

theorem intRepr_head_num (n : Int) :
    ∃ c t, intRepr n = c :: t ∧ (isDigitB c = true ∨ c = '-') := by
  cases n with
  | ofNat m =>
    obtain ⟨hne, hdig, _, _⟩ := natDigits_spec m
    obtain ⟨c, t, hct⟩ : ∃ c t, natDigits m = c :: t := by
      cases hcs : natDigits m with
      | nil => exact absurd hcs hne
      | cons c t => exact ⟨c, t, rfl⟩
    exact ⟨c, t, hct, Or.inl (hdig c (by rw [hct]; simp))⟩
  | negSucc m => exact ⟨'-', natDigits (m + 1), rfl, Or.inr rfl⟩

/-- Facts about a rendered number's first character needed by the
token dispatch of `jVal` and `pVal`. -/
theorem numhead_facts {c : Char} (h : isDigitB c = true ∨ c = '-') :
    jsonWsB c = false ∧ pyWsB c = false ∧ c ≠ '{' ∧ c ≠ '[' ∧ c ≠ '"' ∧ c ≠ '\'' ∧
    c ≠ 't' ∧ c ≠ 'f' ∧ c ≠ 'n' ∧ c ≠ 'T' ∧ c ≠ 'F' ∧ c ≠ 'N' ∧ c ≠ '+' := by
  rcases h with hd | rfl
  · obtain ⟨h1, h2⟩ := digit_bounds hd
    refine ⟨digit_not_jsonWs hd, digit_not_pyWs hd,
      ?_, ?_, ?_, ?_, ?_, ?_, ?_, ?_, ?_, ?_, ?_⟩ <;>
      exact char_ne_of_toNat_ne (by intro hn; rw [hn] at h1 h2; simp at h1 h2)
  · refine ⟨rfl, rfl, ?_, ?_, ?_, ?_, ?_, ?_, ?_, ?_, ?_, ?_, ?_⟩ <;> decide

theorem jVal_ws {c : Char} (hc : jsonWsB c = true) :
    ∀ (fuel : Nat) (cs : Chars), jVal fuel (c :: cs) = jVal fuel cs := by
  intro fuel cs
  cases fuel with
  | zero => rfl
  | succ f =>
    conv_lhs => rw [jVal]
    conv_rhs => rw [jVal]
    rw [skipWs_cons_ws hc]

theorem jArrLoop_ws {c : Char} (hc : jsonWsB c = true) :
    ∀ (fuel : Nat) (cs : Chars) (acc : List PyVal),
    jArrLoop fuel (c :: cs) acc = jArrLoop fuel cs acc := by
  intro fuel cs acc
  cases fuel with
  | zero => rfl
  | succ f =>
    conv_lhs => rw [jArrLoop]
    conv_rhs => rw [jArrLoop]
    rw [jVal_ws hc]

theorem jObjLoop_ws {c : Char} (hc : jsonWsB c = true) :
    ∀ (fuel : Nat) (cs : Chars) (acc : List (PyVal × PyVal)),
    jObjLoop fuel (c :: cs) acc = jObjLoop fuel cs acc := by
  intro fuel cs acc
  cases fuel with
  | zero => rfl
  | succ f =>
    conv_lhs => rw [jObjLoop]
    conv_rhs => rw [jObjLoop]
    rw [skipWs_cons_ws hc]

theorem kwPrefix_false (c : Char) (hT : c ≠ 't') (hF : c ≠ 'f') (hN : c ≠ 'n')
    (X : Chars) :
    "true".data.isPrefixOf (c :: X) = false ∧
    "false".data.isPrefixOf (c :: X) = false ∧
    "null".data.isPrefixOf (c :: X) = false := by
  refine ⟨?_, ?_, ?_⟩
  · rw [show "true".data = 't' :: ['r', 'u', 'e'] from rfl]
    exact isPrefixOf_cons_ne _ (Ne.symm hT)
  · rw [show "false".data = 'f' :: ['a', 'l', 's', 'e'] from rfl]
    exact isPrefixOf_cons_ne _ (Ne.symm hF)
  · rw [show "null".data = 'n' :: ['u', 'l', 'l'] from rfl]
    exact isPrefixOf_cons_ne _ (Ne.symm hN)

theorem needV_pos (v : PyVal) : 1 ≤ needV v := by
  cases v with
  | pnone => exact le_refl 1
  | pbool b => exact le_refl 1
  | pint n => exact le_refl 1
  | pstr s => exact le_refl 1
  | plist xs => show 1 ≤ 2 + needL xs; omega
  | pdict kvs => show 1 ≤ 2 + needO kvs; omega

theorem needL_cons (x : PyVal) (t : List PyVal) :
    needL (x :: t) = 1 + needV x + needL t := rfl

theorem needO_cons (k v : PyVal) (t : List (PyVal × PyVal)) :
    needO ((k, v) :: t) = 1 + needV v + needO t := rfl

/-- The JSON serializer/parser round-trip: on well-behaved values with
enough fuel, `jVal` parses `dumpsV` output back to the same value, and
the array/object loops accumulate accordingly. -/
theorem jRoundtrip :
    ∀ fuel : Nat,
      (∀ (v : PyVal) (rest : Chars), goodVal v = true → needV v ≤ fuel → restOk rest →
        jVal fuel (dumpsV v ++ rest) = some (v, rest)) ∧
      (∀ (ys : List PyVal) (acc : List PyVal) (rest : Chars), ys ≠ [] →
        goodValL ys = true → needL ys ≤ fuel → restOk rest →
        jArrLoop fuel (dumpsL ys ++ ']' :: rest) acc = some (.plist (acc ++ ys), rest)) ∧
      (∀ (kvs2 : List (PyVal × PyVal)) (acc : List (PyVal × PyVal)) (rest : Chars),
        kvs2 ≠ [] → goodValO kvs2 = true →
        (∀ kv ∈ acc, ∀ k2 ∈ kvs2.map Prod.fst, pyBeq kv.1 k2 = false) →
        nodupKeysB (kvs2.map Prod.fst) = true → needO kvs2 ≤ fuel → restOk rest →
        jObjLoop fuel (dumpsO kvs2 ++ '}' :: rest) acc =
          some (.pdict (acc ++ kvs2), rest)) := by
  intro fuel
  induction fuel using Nat.strong_induction_on with
  | _ fuel ih =>
    refine ⟨?_, ?_, ?_⟩
    · intro v rest hg hn hr
      have hpos := needV_pos v
      obtain ⟨f, rfl⟩ : ∃ f, fuel = f + 1 := ⟨fuel - 1, by omega⟩
      cases v with
      | pnone =>
        show jVal (f + 1) ('n' :: 'u' :: 'l' :: 'l' :: rest) = some (.pnone, rest)
        conv_lhs => rw [jVal]
        rw [skipWs_cons_of_neg (by decide)]
        have h1 : "true".data.isPrefixOf ('n' :: 'u' :: 'l' :: 'l' :: rest) = false := by
          rw [show "true".data = 't' :: ['r', 'u', 'e'] from rfl]
          exact isPrefixOf_cons_ne _ (by decide)
        have h2 : "false".data.isPrefixOf ('n' :: 'u' :: 'l' :: 'l' :: rest) = false := by
          rw [show "false".data = 'f' :: ['a', 'l', 's', 'e'] from rfl]
          exact isPrefixOf_cons_ne _ (by decide)
        have h3 : "null".data.isPrefixOf ('n' :: 'u' :: 'l' :: 'l' :: rest) = true := by
          rw [show ('n' :: 'u' :: 'l' :: 'l' :: rest) = "null".data ++ rest from rfl]
          exact isPrefixOf_append_self _ _
        simp only [h1, h2, h3, Bool.false_eq_true, if_false, if_true]
        simp
      | pbool b =>
        cases b with
        | true =>
          show jVal (f + 1) ('t' :: 'r' :: 'u' :: 'e' :: rest) = some (.pbool true, rest)
          conv_lhs => rw [jVal]
          rw [skipWs_cons_of_neg (by decide)]
          have h1 : "true".data.isPrefixOf ('t' :: 'r' :: 'u' :: 'e' :: rest) = true := by
            rw [show ('t' :: 'r' :: 'u' :: 'e' :: rest) = "true".data ++ rest from rfl]
            exact isPrefixOf_append_self _ _
          simp only [h1, if_true]
          simp
        | false =>
          show jVal (f + 1) ('f' :: 'a' :: 'l' :: 's' :: 'e' :: rest) =
            some (.pbool false, rest)
          conv_lhs => rw [jVal]
          rw [skipWs_cons_of_neg (by decide)]
          have h1 : "true".data.isPrefixOf ('f' :: 'a' :: 'l' :: 's' :: 'e' :: rest) =
              false := by
            rw [show "true".data = 't' :: ['r', 'u', 'e'] from rfl]
            exact isPrefixOf_cons_ne _ (by decide)
          have h2 : "false".data.isPrefixOf ('f' :: 'a' :: 'l' :: 's' :: 'e' :: rest) =
              true := by
            rw [show ('f' :: 'a' :: 'l' :: 's' :: 'e' :: rest) = "false".data ++ rest
              from rfl]
            exact isPrefixOf_append_self _ _
          simp only [h1, h2, Bool.false_eq_true, if_false, if_true]
          simp
      | pint m =>
        obtain ⟨c, t, hct, hnum⟩ := intRepr_head_num m
        obtain ⟨hws, _, hbrace, hbrack, hq, _, hT, hF, hN, _, _, _⟩ := numhead_facts hnum
        show jVal (f + 1) (intRepr m ++ rest) = some (.pint m, rest)
        conv_lhs => rw [jVal]
        rw [show intRepr m ++ rest = c :: (t ++ rest) from by rw [hct]; rfl]
        rw [skipWs_cons_of_neg hws]
        obtain ⟨h1, h2, h3⟩ := kwPrefix_false c hT hF hN (t ++ rest)
        simp only [if_neg hbrace, if_neg hbrack, if_neg hq, h1, h2, h3,
          Bool.false_eq_true, if_false]
        rw [show c :: (t ++ rest) = intRepr m ++ rest from by rw [hct]; rfl,
          jInt_intRepr m hr]
        rfl
      | pstr s =>
        have hs := goodVal_pstr hg
        have hsh : dumpsV (.pstr s) ++ rest = '"' :: (s.data ++ '"' :: rest) := by
          rw [show dumpsV (.pstr s) = jsonQuote s from rfl, jsonQuote_plain hs]
          simp
        rw [hsh]
        conv_lhs => rw [jVal]
        rw [skipWs_cons_of_neg (by decide)]
        obtain ⟨h1, h2, h3⟩ := kwPrefix_false '"' (by decide) (by decide) (by decide)
          (s.data ++ '"' :: rest)
        simp only [h1, h2, h3, Bool.false_eq_true, if_false,
          jStr_plain hs rest]
        simp [string_mk_data]
      | plist xs =>
        have hgl := goodVal_plist hg
        have hn2 : 2 + needL xs ≤ f + 1 := hn
        obtain ⟨g, rfl⟩ : ∃ g, f = g + 1 := ⟨f - 1, by omega⟩
        cases xs with
        | nil =>
          show jVal (g + 1 + 1) ('[' :: ']' :: rest) = some (.plist [], rest)
          conv_lhs => rw [jVal]
          rw [skipWs_cons_of_neg (by decide)]
          obtain ⟨h1, h2, h3⟩ := kwPrefix_false '[' (by decide) (by decide) (by decide)
            (']' :: rest)
          simp only [h1, h2, h3, Bool.false_eq_true,
            show ('[' = '{') = False from by simp,
            show ('[' = '[') = True from by simp, if_false, if_true]
          conv_lhs => rw [jArr]
          rw [skipWs_cons_of_neg (by decide)]
          simp
        | cons x xs2 =>
          have hsh : dumpsV (.plist (x :: xs2)) ++ rest =
              '[' :: (dumpsL (x :: xs2) ++ ']' :: rest) := by
            rw [show dumpsV (.plist (x :: xs2)) = '[' :: (dumpsL (x :: xs2) ++ [']'])
              from rfl]
            simp [List.append_assoc]
          rw [hsh]
          conv_lhs => rw [jVal]
          rw [skipWs_cons_of_neg (by decide)]
          obtain ⟨h1, h2, h3⟩ := kwPrefix_false '[' (by decide) (by decide) (by decide)
            (dumpsL (x :: xs2) ++ ']' :: rest)
          simp only [h1, h2, h3, Bool.false_eq_true,
            show ('[' = '{') = False from by simp,
            show ('[' = '[') = True from by simp, if_false, if_true]
          obtain ⟨tail, htail⟩ := dumpsL_cons_ex x xs2
          obtain ⟨ch, ct, hcht, hchf⟩ := dumpsV_head x
          have hshape : dumpsL (x :: xs2) ++ ']' :: rest =
              ch :: (ct ++ (tail ++ ']' :: rest)) := by
            rw [htail, hcht]
            simp [List.append_assoc]
          conv_lhs => rw [jArr]
          simp only [hshape, skipWs_cons_of_neg hchf.1]
          rw [if_neg hchf.2.2.1, ← hshape]
          have hPAL := (ih g (by omega)).2.1 (x :: xs2) [] rest
            (by simp) hgl (by omega) hr
          rw [hPAL]
          simp
      | pdict kvs =>
        obtain ⟨hnodup, hgo⟩ := goodVal_pdict hg
        have hn2 : 2 + needO kvs ≤ f + 1 := hn
        obtain ⟨g, rfl⟩ : ∃ g, f = g + 1 := ⟨f - 1, by omega⟩
        cases kvs with
        | nil =>
          show jVal (g + 1 + 1) ('{' :: '}' :: rest) = some (.pdict [], rest)
          conv_lhs => rw [jVal]
          rw [skipWs_cons_of_neg (by decide)]
          simp only [show ('{' = '{') = True from by simp, if_true]
          conv_lhs => rw [jObj]
          rw [skipWs_cons_of_neg (by decide)]
          simp
        | cons kv t =>
          obtain ⟨k, v⟩ := kv
          obtain ⟨⟨s, rfl, hs⟩, hgv, hgt⟩ := goodValO_cons hgo
          have hsh : dumpsV (.pdict ((PyVal.pstr s, v) :: t)) ++ rest =
              '{' :: (dumpsO ((PyVal.pstr s, v) :: t) ++ '}' :: rest) := by
            rw [show dumpsV (.pdict ((PyVal.pstr s, v) :: t)) =
              '{' :: (dumpsO ((PyVal.pstr s, v) :: t) ++ ['}']) from rfl]
            simp [List.append_assoc]
          rw [hsh]
          conv_lhs => rw [jVal]
          rw [skipWs_cons_of_neg (by decide)]
          simp only [show ('{' = '{') = True from by simp, if_true]
          obtain ⟨tail, htail⟩ := dumpsO_cons_ex (.pstr s) v t
          have hshape : dumpsO ((PyVal.pstr s, v) :: t) ++ '}' :: rest =
              '"' :: ((s.data ++ ['"']) ++ (tail ++ '}' :: rest)) := by
            rw [htail, show jsonKeyChars (.pstr s) = jsonQuote s from rfl,
              jsonQuote_plain hs]
            simp [List.append_assoc]
          conv_lhs => rw [jObj]
          simp only [hshape, skipWs_cons_of_neg (show jsonWsB '"' = false from by decide)]
          rw [if_neg (show ('"' : Char) ≠ '}' from by decide), ← hshape]
          have hPOL := (ih g (by omega)).2.2 ((PyVal.pstr s, v) :: t) [] rest
            (by simp) hgo (by simp) hnodup (by omega) hr
          rw [hPOL]
          simp
    · intro ys acc rest hne hgl hn hr
      cases ys with
      | nil => exact absurd rfl hne
      | cons x t =>
        obtain ⟨hgx, hgt⟩ := goodValL_cons hgl
        rw [needL_cons] at hn
        have hvx := needV_pos x
        obtain ⟨f, rfl⟩ : ∃ f, fuel = f + 1 := ⟨fuel - 1, by omega⟩
        cases t with
        | nil =>
          have hPV := (ih f (by omega)).1 x (']' :: rest) hgx (by omega) restOk_rbracket
          show jArrLoop (f + 1) (dumpsV x ++ ']' :: rest) acc =
            some (.plist (acc ++ [x]), rest)
          conv_lhs => rw [jArrLoop]
          simp only [hPV, skipWs_cons_of_neg (show jsonWsB ']' = false from by decide)]
          simp
        | cons y t2 =>
          have hPV := (ih f (by omega)).1 x
            (',' :: ' ' :: (dumpsL (y :: t2) ++ ']' :: rest)) hgx (by omega) restOk_comma
          have hsh : dumpsL (x :: y :: t2) ++ ']' :: rest =
              dumpsV x ++ (',' :: ' ' :: (dumpsL (y :: t2) ++ ']' :: rest)) := by
            rw [show dumpsL (x :: y :: t2) = dumpsV x ++ [',', ' '] ++ dumpsL (y :: t2)
              from rfl]
            simp [List.append_assoc]
          rw [hsh]
          conv_lhs => rw [jArrLoop]
          simp only [hPV, skipWs_cons_of_neg (show jsonWsB ',' = false from by decide)]
          rw [if_pos trivial]
          rw [jArrLoop_ws (by decide)]
          have hPAL := (ih f (by omega)).2.1 (y :: t2) (acc ++ [x]) rest (by simp) hgt
            (by omega) hr
          rw [hPAL]
          simp
    · intro kvs2 acc rest hne hgo hdisj hnodup hn hr
      cases kvs2 with
      | nil => exact absurd rfl hne
      | cons kv t =>
        obtain ⟨k, v⟩ := kv
        obtain ⟨⟨s, rfl, hs⟩, hgv, hgt⟩ := goodValO_cons hgo
        rw [needO_cons] at hn
        have hvv := needV_pos v
        obtain ⟨f, rfl⟩ : ∃ f, fuel = f + 1 := ⟨fuel - 1, by omega⟩
        have hfresh : dictInsert acc (.pstr s) v = acc ++ [(.pstr s, v)] :=
          dictInsert_fresh (fun kv hkv => hdisj kv hkv (.pstr s) (by simp))
        have hnodup1 : nodupKeysB (PyVal.pstr s :: t.map Prod.fst) = true := hnodup
        obtain ⟨hks, hnodup2⟩ := nodupKeysB_cons hnodup1
        cases t with
        | nil =>
          have hsh : dumpsO [(PyVal.pstr s, v)] ++ '}' :: rest =
              '"' :: (s.data ++ '"' :: ':' :: ' ' :: (dumpsV v ++ '}' :: rest)) := by
            rw [show dumpsO [(PyVal.pstr s, v)] =
              jsonKeyChars (.pstr s) ++ [':', ' '] ++ dumpsV v from rfl,
              show jsonKeyChars (.pstr s) = jsonQuote s from rfl, jsonQuote_plain hs]
            simp [List.append_assoc]
          have hPV := (ih f (by omega)).1 v ('}' :: rest) hgv (by omega) restOk_rbrace
          have hvws : jVal f (' ' :: (dumpsV v ++ '}' :: rest)) = some (v, '}' :: rest) := by
            rw [jVal_ws (by decide)]
            exact hPV
          rw [hsh]
          conv_lhs => rw [jObjLoop]
          simp only [skipWs_cons_of_neg (show jsonWsB '"' = false from by decide),
            show ('"' = '"') = True from by simp, if_true,
            jStr_plain hs (':' :: ' ' :: (dumpsV v ++ '}' :: rest)),
            skipWs_cons_of_neg (show jsonWsB ':' = false from by decide),
            show (':' = ':') = True from by simp,
            hvws, string_mk_data, hfresh,
            skipWs_cons_of_neg (show jsonWsB '}' = false from by decide)]
          simp
        | cons kv2 t2 =>
          have hsh : dumpsO ((PyVal.pstr s, v) :: kv2 :: t2) ++ '}' :: rest =
              '"' :: (s.data ++ '"' :: ':' :: ' ' :: (dumpsV v ++
                ',' :: ' ' :: (dumpsO (kv2 :: t2) ++ '}' :: rest))) := by
            rw [show dumpsO ((PyVal.pstr s, v) :: kv2 :: t2) =
              jsonKeyChars (.pstr s) ++ [':', ' '] ++ dumpsV v ++ [',', ' '] ++
                dumpsO (kv2 :: t2) from rfl,
              show jsonKeyChars (.pstr s) = jsonQuote s from rfl, jsonQuote_plain hs]
            simp [List.append_assoc]
          have hPV := (ih f (by omega)).1 v
            (',' :: ' ' :: (dumpsO (kv2 :: t2) ++ '}' :: rest)) hgv (by omega) restOk_comma
          have hvws : jVal f (' ' :: (dumpsV v ++
              ',' :: ' ' :: (dumpsO (kv2 :: t2) ++ '}' :: rest))) =
              some (v, ',' :: ' ' :: (dumpsO (kv2 :: t2) ++ '}' :: rest)) := by
            rw [jVal_ws (by decide)]
            exact hPV
          rw [hsh]
          conv_lhs => rw [jObjLoop]
          simp only [skipWs_cons_of_neg (show jsonWsB '"' = false from by decide),
            show ('"' = '"') = True from by simp, if_true,
            jStr_plain hs (':' :: ' ' :: (dumpsV v ++
              ',' :: ' ' :: (dumpsO (kv2 :: t2) ++ '}' :: rest))),
            skipWs_cons_of_neg (show jsonWsB ':' = false from by decide),
            show (':' = ':') = True from by simp,
            hvws, string_mk_data, hfresh,
            skipWs_cons_of_neg (show jsonWsB ',' = false from by decide),
            show ((',' : Char) = ',') = True from by simp]
          rw [jObjLoop_ws (by decide)]
          have hPOL := (ih f (by omega)).2.2 (kv2 :: t2) (acc ++ [(PyVal.pstr s, v)]) rest
            (by simp) hgt ?hdisj2 hnodup2 (by omega) hr
          case hdisj2 =>
            intro kv hkv k2 hk2
            rcases List.mem_append.mp hkv with hkv2 | hkv2
            · exact hdisj kv hkv2 k2 (List.mem_cons_of_mem _ hk2)
            · rw [List.mem_singleton] at hkv2
              subst hkv2
              exact hks k2 hk2
          rw [hPOL]
          simp

/-- `json.loads` round-trips `json.dumps` on well-behaved values. -/
theorem jsonLoads_dumps {v : PyVal} (hg : goodVal v = true) :
    jsonLoadsC (dumpsV v) = some v := by
  have h := (jRoundtrip (2 * (dumpsV v).length + 2)).1 v [] hg
    (by have := needV_le_dumps v; omega) restOk_nil
  rw [List.append_nil] at h
  unfold jsonLoadsC
  rw [h]
  simp [skipWs]

/-! ### Glue for the Python literal round-trip -/

theorem restOk_kwBoundary {rest : Chars} (hr : restOk rest) : kwBoundary rest = true := by
  cases rest with
  | nil => rfl
  | cons c t => rcases hr c rfl with rfl | rfl | rfl | rfl <;> rfl

theorem kwPrefixR_false (c : Char) (hT : c ≠ 'T') (hF : c ≠ 'F') (hN : c ≠ 'N')
    (X : Chars) :
    "True".data.isPrefixOf (c :: X) = false ∧
    "False".data.isPrefixOf (c :: X) = false ∧
    "None".data.isPrefixOf (c :: X) = false := by
  refine ⟨?_, ?_, ?_⟩
  · rw [show "True".data = 'T' :: ['r', 'u', 'e'] from rfl]
    exact isPrefixOf_cons_ne _ (Ne.symm hT)
  · rw [show "False".data = 'F' :: ['a', 'l', 's', 'e'] from rfl]
    exact isPrefixOf_cons_ne _ (Ne.symm hF)
  · rw [show "None".data = 'N' :: ['o', 'n', 'e'] from rfl]
    exact isPrefixOf_cons_ne _ (Ne.symm hN)

theorem pVal_ws {c : Char} (hc : pyWsB c = true) :
    ∀ (fuel : Nat) (cs : Chars), pVal fuel (c :: cs) = pVal fuel cs := by
  intro fuel cs
  cases fuel with
  | zero => rfl
  | succ f =>
    conv_lhs => rw [pVal]
    conv_rhs => rw [pVal]
    rw [skipPyWs_cons_ws hc]

theorem pArrLoop_ws {c : Char} (hc : pyWsB c = true) :
    ∀ (fuel : Nat) (cs : Chars) (acc : List PyVal),
    pArrLoop fuel (c :: cs) acc = pArrLoop fuel cs acc := by
  intro fuel cs acc
  cases fuel with
  | zero => rfl
  | succ f =>
    conv_lhs => rw [pArrLoop]
    conv_rhs => rw [pArrLoop]
    rw [pVal_ws hc]

theorem pDictLoop_ws {c : Char} (hc : pyWsB c = true) :
    ∀ (fuel : Nat) (cs : Chars) (acc : List (PyVal × PyVal)),
    pDictLoop fuel (c :: cs) acc = pDictLoop fuel cs acc := by
  intro fuel cs acc
  cases fuel with
  | zero => rfl
  | succ f =>
    conv_lhs => rw [pDictLoop]
    conv_rhs => rw [pDictLoop]
    rw [pVal_ws hc]

theorem pyReprL_cons_ex (x : PyVal) (t : List PyVal) :
    ∃ tail, pyReprL (x :: t) = pyReprV x ++ tail := by
  cases t with
  | nil => exact ⟨[], by rw [show pyReprL [x] = pyReprV x from rfl, List.append_nil]⟩
  | cons y t2 =>
    exact ⟨[',', ' '] ++ pyReprL (y :: t2), by
      rw [show pyReprL (x :: y :: t2) = pyReprV x ++ [',', ' '] ++ pyReprL (y :: t2)
        from rfl, List.append_assoc]⟩

theorem pyReprO_cons_ex (k v : PyVal) (t : List (PyVal × PyVal)) :
    ∃ tail, pyReprO ((k, v) :: t) = pyReprV k ++ tail := by
  cases t with
  | nil =>
    exact ⟨[':', ' '] ++ pyReprV v, by
      rw [show pyReprO [(k, v)] = pyReprV k ++ [':', ' '] ++ pyReprV v from rfl,
        List.append_assoc]⟩
  | cons kv2 t2 =>
    exact ⟨[':', ' '] ++ pyReprV v ++ [',', ' '] ++ pyReprO (kv2 :: t2), by
      rw [show pyReprO ((k, v) :: kv2 :: t2) =
        pyReprV k ++ [':', ' '] ++ pyReprV v ++ [',', ' '] ++ pyReprO (kv2 :: t2)
        from rfl]
      simp [List.append_assoc]⟩

/-- The Python-literal serializer/parser round-trip: `ast.literal_eval`
parses `repr` output back to the same well-behaved value. -/
theorem pRoundtrip :
    ∀ fuel : Nat,
      (∀ (v : PyVal) (rest : Chars), goodVal v = true → needV v ≤ fuel → restOk rest →
        pVal fuel (pyReprV v ++ rest) = some (v, rest)) ∧
      (∀ (ys : List PyVal) (acc : List PyVal) (rest : Chars), ys ≠ [] →
        goodValL ys = true → needL ys ≤ fuel → restOk rest →
        pArrLoop fuel (pyReprL ys ++ ']' :: rest) acc = some (.plist (acc ++ ys), rest)) ∧
      (∀ (kvs2 : List (PyVal × PyVal)) (acc : List (PyVal × PyVal)) (rest : Chars),
        kvs2 ≠ [] → goodValO kvs2 = true →
        (∀ kv ∈ acc, ∀ k2 ∈ kvs2.map Prod.fst, pyBeq kv.1 k2 = false) →
        nodupKeysB (kvs2.map Prod.fst) = true → needO kvs2 ≤ fuel → restOk rest →
        pDictLoop fuel (pyReprO kvs2 ++ '}' :: rest) acc =
          some (.pdict (acc ++ kvs2), rest)) := by
  intro fuel
  induction fuel using Nat.strong_induction_on with
  | _ fuel ih =>
    refine ⟨?_, ?_, ?_⟩
    · intro v rest hg hn hr
      have hpos := needV_pos v
      obtain ⟨f, rfl⟩ : ∃ f, fuel = f + 1 := ⟨fuel - 1, by omega⟩
      cases v with
      | pnone =>
        show pVal (f + 1) ('N' :: 'o' :: 'n' :: 'e' :: rest) = some (.pnone, rest)
        conv_lhs => rw [pVal]
        rw [skipPyWs_cons_of_neg (by decide)]
        have h1 : "True".data.isPrefixOf ('N' :: 'o' :: 'n' :: 'e' :: rest) = false := by
          rw [show "True".data = 'T' :: ['r', 'u', 'e'] from rfl]
          exact isPrefixOf_cons_ne _ (by decide)
        have h2 : "False".data.isPrefixOf ('N' :: 'o' :: 'n' :: 'e' :: rest) = false := by
          rw [show "False".data = 'F' :: ['a', 'l', 's', 'e'] from rfl]
          exact isPrefixOf_cons_ne _ (by decide)
        have h3 : "None".data.isPrefixOf ('N' :: 'o' :: 'n' :: 'e' :: rest) = true := by
          rw [show ('N' :: 'o' :: 'n' :: 'e' :: rest) = "None".data ++ rest from rfl]
          exact isPrefixOf_append_self _ _
        have h4 : kwBoundary (('N' :: 'o' :: 'n' :: 'e' :: rest).drop 4) = true := by
          rw [show ('N' :: 'o' :: 'n' :: 'e' :: rest).drop 4 = rest from rfl]
          exact restOk_kwBoundary hr
        simp only [h1, h2, h3, h4, Bool.false_and, Bool.and_self, Bool.false_eq_true,
          if_false, if_true]
        simp
      | pbool b =>
        cases b with
        | true =>
          show pVal (f + 1) ('T' :: 'r' :: 'u' :: 'e' :: rest) = some (.pbool true, rest)
          conv_lhs => rw [pVal]
          rw [skipPyWs_cons_of_neg (by decide)]
          have h1 : "True".data.isPrefixOf ('T' :: 'r' :: 'u' :: 'e' :: rest) = true := by
            rw [show ('T' :: 'r' :: 'u' :: 'e' :: rest) = "True".data ++ rest from rfl]
            exact isPrefixOf_append_self _ _
          have h4 : kwBoundary (('T' :: 'r' :: 'u' :: 'e' :: rest).drop 4) = true := by
            rw [show ('T' :: 'r' :: 'u' :: 'e' :: rest).drop 4 = rest from rfl]
            exact restOk_kwBoundary hr
          simp only [h1, h4, Bool.and_self, if_true]
          simp
        | false =>
          show pVal (f + 1) ('F' :: 'a' :: 'l' :: 's' :: 'e' :: rest) =
            some (.pbool false, rest)
          conv_lhs => rw [pVal]
          rw [skipPyWs_cons_of_neg (by decide)]
          have h1 : "True".data.isPrefixOf ('F' :: 'a' :: 'l' :: 's' :: 'e' :: rest) =
              false := by
            rw [show "True".data = 'T' :: ['r', 'u', 'e'] from rfl]
            exact isPrefixOf_cons_ne _ (by decide)
          have h2 : "False".data.isPrefixOf ('F' :: 'a' :: 'l' :: 's' :: 'e' :: rest) =
              true := by
            rw [show ('F' :: 'a' :: 'l' :: 's' :: 'e' :: rest) = "False".data ++ rest
              from rfl]
            exact isPrefixOf_append_self _ _
          have h4 : kwBoundary (('F' :: 'a' :: 'l' :: 's' :: 'e' :: rest).drop 5) =
              true := by
            rw [show ('F' :: 'a' :: 'l' :: 's' :: 'e' :: rest).drop 5 = rest from rfl]
            exact restOk_kwBoundary hr
          simp only [h1, h2, h4, Bool.false_and, Bool.and_self, Bool.false_eq_true,
            if_false, if_true]
          simp
      | pint m =>
        show pVal (f + 1) (intRepr m ++ rest) = some (.pint m, rest)
        cases m with
        | ofNat k =>
          obtain ⟨hne2, hdig, _, _⟩ := natDigits_spec k
          obtain ⟨c, t, hct⟩ : ∃ c t, natDigits k = c :: t := by
            cases hcs : natDigits k with
            | nil => exact absurd hcs hne2
            | cons c t => exact ⟨c, t, rfl⟩
          have hcd : isDigitB c = true := hdig c (by rw [hct]; simp)
          obtain ⟨_, hpws, hbrace, hbrack, hq, hsq, _, _, _, hT, hF, hN, hplus⟩ :=
            numhead_facts (Or.inl hcd)
          have hminus : c ≠ '-' := (digit_ne_structural hcd).2.2.2.1
          conv_lhs => rw [pVal]
          rw [show intRepr (Int.ofNat k) ++ rest = c :: (t ++ rest) from by
            rw [show intRepr (Int.ofNat k) = natDigits k from rfl, hct]; rfl]
          rw [skipPyWs_cons_of_neg hpws]
          obtain ⟨h1, h2, h3⟩ := kwPrefixR_false c hT hF hN (t ++ rest)
          simp only [if_neg hbrack, if_neg hbrace, if_neg hsq, if_neg hq, h1, h2, h3,
            Bool.false_and, Bool.false_eq_true, if_false, if_neg hminus, if_neg hplus]
          rw [show c :: (t ++ rest) = natDigits k ++ rest from by rw [hct]; rfl,
            pIntLit_natDigits k hr]
          rfl
        | negSucc k =>
          show pVal (f + 1) ('-' :: (natDigits (k + 1) ++ rest)) =
            some (.pint (Int.negSucc k), rest)
          conv_lhs => rw [pVal]
          rw [skipPyWs_cons_of_neg (by decide)]
          obtain ⟨h1, h2, h3⟩ := kwPrefixR_false '-' (by decide) (by decide) (by decide)
            (natDigits (k + 1) ++ rest)
          simp only [h1, h2, h3, Bool.false_and, Bool.false_eq_true, if_false]
          have hskip : skipPyWs (natDigits (k + 1) ++ rest) =
              natDigits (k + 1) ++ rest := by
            obtain ⟨c0, t0, hct0⟩ : ∃ c0 t0, natDigits (k + 1) = c0 :: t0 := by
              cases hcs : natDigits (k + 1) with
              | nil => exact absurd hcs (natDigits_spec (k + 1)).1
              | cons c0 t0 => exact ⟨c0, t0, rfl⟩
            rw [hct0, List.cons_append]
            exact skipPyWs_cons_of_neg
              (digit_not_pyWs ((natDigits_spec (k + 1)).2.1 c0 (by rw [hct0]; simp)))
          simp only [show (('-' : Char) = '-') = True from by simp, if_true, hskip,
            pIntLit_natDigits (k + 1) hr]
          simp [Int.negSucc_eq]
      | pstr s =>
        have hs := goodVal_pstr hg
        have hsh : pyReprV (.pstr s) ++ rest = '\'' :: (s.data ++ '\'' :: rest) := by
          rw [show pyReprV (.pstr s) = reprQuote s from rfl, reprQuote_plain hs]
          simp
        rw [hsh]
        conv_lhs => rw [pVal]
        rw [skipPyWs_cons_of_neg (by decide)]
        have hlen : (s.data).length < 2 * (s.data ++ '\'' :: rest).length + 2 := by
          simp [List.length_append]
          omega
        simp only [show (('\'' : Char) = '\'') = True from by simp, if_true,
          pStr_plain hs (2 * (s.data ++ '\'' :: rest).length + 2) rest hlen]
        simp [string_mk_data]
      | plist xs =>
        have hgl := goodVal_plist hg
        have hn2 : 2 + needL xs ≤ f + 1 := hn
        obtain ⟨g, rfl⟩ : ∃ g, f = g + 1 := ⟨f - 1, by omega⟩
        cases xs with
        | nil =>
          show pVal (g + 1 + 1) ('[' :: ']' :: rest) = some (.plist [], rest)
          conv_lhs => rw [pVal]
          rw [skipPyWs_cons_of_neg (by decide)]
          simp only [show (('[' : Char) = '[') = True from by simp, if_true]
          conv_lhs => rw [pArr]
          rw [skipPyWs_cons_of_neg (by decide)]
          simp
        | cons x xs2 =>
          have hsh : pyReprV (.plist (x :: xs2)) ++ rest =
              '[' :: (pyReprL (x :: xs2) ++ ']' :: rest) := by
            rw [show pyReprV (.plist (x :: xs2)) = '[' :: (pyReprL (x :: xs2) ++ [']'])
              from rfl]
            simp [List.append_assoc]
          rw [hsh]
          conv_lhs => rw [pVal]
          rw [skipPyWs_cons_of_neg (by decide)]
          simp only [show (('[' : Char) = '[') = True from by simp, if_true]
          obtain ⟨tail, htail⟩ := pyReprL_cons_ex x xs2
          obtain ⟨ch, ct, hcht, hchf⟩ := pyReprV_head x
          have hshape : pyReprL (x :: xs2) ++ ']' :: rest =
              ch :: (ct ++ (tail ++ ']' :: rest)) := by
            rw [htail, hcht]
            simp [List.append_assoc]
          conv_lhs => rw [pArr]
          simp only [hshape, skipPyWs_cons_of_neg hchf.2.1]
          rw [if_neg hchf.2.2.1, ← hshape]
          have hPAL := (ih g (by omega)).2.1 (x :: xs2) [] rest
            (by simp) hgl (by omega) hr
          rw [hPAL]
          simp
      | pdict kvs =>
        obtain ⟨hnodup, hgo⟩ := goodVal_pdict hg
        have hn2 : 2 + needO kvs ≤ f + 1 := hn
        obtain ⟨g, rfl⟩ : ∃ g, f = g + 1 := ⟨f - 1, by omega⟩
        cases kvs with
        | nil =>
          show pVal (g + 1 + 1) ('{' :: '}' :: rest) = some (.pdict [], rest)
          conv_lhs => rw [pVal]
          rw [skipPyWs_cons_of_neg (by decide)]
          simp only [show (('{' : Char) = '[') = False from by simp,
            show (('{' : Char) = '{') = True from by simp, if_false, if_true]
          conv_lhs => rw [pDict]
          rw [skipPyWs_cons_of_neg (by decide)]
          simp
        | cons kv t =>
          obtain ⟨k, v⟩ := kv
          obtain ⟨⟨s, rfl, hs⟩, hgv, hgt⟩ := goodValO_cons hgo
          have hsh : pyReprV (.pdict ((PyVal.pstr s, v) :: t)) ++ rest =
              '{' :: (pyReprO ((PyVal.pstr s, v) :: t) ++ '}' :: rest) := by
            rw [show pyReprV (.pdict ((PyVal.pstr s, v) :: t)) =
              '{' :: (pyReprO ((PyVal.pstr s, v) :: t) ++ ['}']) from rfl]
            simp [List.append_assoc]
          rw [hsh]
          conv_lhs => rw [pVal]
          rw [skipPyWs_cons_of_neg (by decide)]
          simp only [show (('{' : Char) = '[') = False from by simp,
            show (('{' : Char) = '{') = True from by simp, if_false, if_true]
          obtain ⟨tail, htail⟩ := pyReprO_cons_ex (.pstr s) v t
          obtain ⟨ch, ct, hcht, hchf⟩ := pyReprV_head (.pstr s)
          have hshape : pyReprO ((PyVal.pstr s, v) :: t) ++ '}' :: rest =
              ch :: (ct ++ (tail ++ '}' :: rest)) := by
            rw [htail, hcht]
            simp [List.append_assoc]
          conv_lhs => rw [pDict]
          simp only [hshape, skipPyWs_cons_of_neg hchf.2.1]
          rw [if_neg hchf.2.2.2.1, ← hshape]
          have hPOL := (ih g (by omega)).2.2 ((PyVal.pstr s, v) :: t) [] rest
            (by simp) hgo (by simp) hnodup (by omega) hr
          rw [hPOL]
          simp
    · intro ys acc rest hne hgl hn hr
      cases ys with
      | nil => exact absurd rfl hne
      | cons x t =>
        obtain ⟨hgx, hgt⟩ := goodValL_cons hgl
        rw [needL_cons] at hn
        have hvx := needV_pos x
        obtain ⟨f, rfl⟩ : ∃ f, fuel = f + 1 := ⟨fuel - 1, by omega⟩
        cases t with
        | nil =>
          have hPV := (ih f (by omega)).1 x (']' :: rest) hgx (by omega) restOk_rbracket
          show pArrLoop (f + 1) (pyReprV x ++ ']' :: rest) acc =
            some (.plist (acc ++ [x]), rest)
          conv_lhs => rw [pArrLoop]
          simp only [hPV, skipPyWs_cons_of_neg (show pyWsB ']' = false from by decide)]
          simp
        | cons y t2 =>
          have hPV := (ih f (by omega)).1 x
            (',' :: ' ' :: (pyReprL (y :: t2) ++ ']' :: rest)) hgx (by omega) restOk_comma
          have hsh : pyReprL (x :: y :: t2) ++ ']' :: rest =
              pyReprV x ++ (',' :: ' ' :: (pyReprL (y :: t2) ++ ']' :: rest)) := by
            rw [show pyReprL (x :: y :: t2) = pyReprV x ++ [',', ' '] ++ pyReprL (y :: t2)
              from rfl]
            simp [List.append_assoc]
          obtain ⟨tail, htail⟩ := pyReprL_cons_ex y t2
          obtain ⟨ch, ct, hcht, hchf⟩ := pyReprV_head y
          have hskip : skipPyWs (' ' :: (pyReprL (y :: t2) ++ ']' :: rest)) =
              ch :: (ct ++ (tail ++ ']' :: rest)) := by
            rw [skipPyWs_cons_ws (by decide), htail, hcht,
              show ((ch :: ct) ++ tail) ++ ']' :: rest =
                ch :: (ct ++ (tail ++ ']' :: rest)) from by simp [List.append_assoc]]
            exact skipPyWs_cons_of_neg hchf.2.1
          rw [hsh]
          conv_lhs => rw [pArrLoop]
          simp only [hPV, skipPyWs_cons_of_neg (show pyWsB ',' = false from by decide),
            show ((',' : Char) = ',') = True from by simp, if_true, hskip]
          rw [if_neg hchf.2.2.1]
          rw [pArrLoop_ws (by decide)]
          have hPAL := (ih f (by omega)).2.1 (y :: t2) (acc ++ [x]) rest (by simp) hgt
            (by omega) hr
          rw [hPAL]
          simp
    · intro kvs2 acc rest hne hgo hdisj hnodup hn hr
      cases kvs2 with
      | nil => exact absurd rfl hne
      | cons kv t =>
        obtain ⟨k, v⟩ := kv
        obtain ⟨⟨s, rfl, hs⟩, hgv, hgt⟩ := goodValO_cons hgo
        rw [needO_cons] at hn
        have hvv := needV_pos v
        obtain ⟨f, rfl⟩ : ∃ f, fuel = f + 1 := ⟨fuel - 1, by omega⟩
        have hfresh : dictInsert acc (.pstr s) v = acc ++ [(.pstr s, v)] :=
          dictInsert_fresh (fun kv hkv => hdisj kv hkv (.pstr s) (by simp))
        have hnodup1 : nodupKeysB (PyVal.pstr s :: t.map Prod.fst) = true := hnodup
        obtain ⟨hks, hnodup2⟩ := nodupKeysB_cons hnodup1
        have hgk : goodVal (PyVal.pstr s) = true := List.all_eq_true.mpr hs
        have hkps : needV (PyVal.pstr s) = 1 := rfl
        cases t with
        | nil =>
          have hsh : pyReprO [(PyVal.pstr s, v)] ++ '}' :: rest =
              pyReprV (.pstr s) ++ (':' :: ' ' :: (pyReprV v ++ '}' :: rest)) := by
            rw [show pyReprO [(PyVal.pstr s, v)] =
              pyReprV (.pstr s) ++ [':', ' '] ++ pyReprV v from rfl]
            simp [List.append_assoc]
          have hkey := (ih f (by omega)).1 (.pstr s)
            (':' :: ' ' :: (pyReprV v ++ '}' :: rest)) hgk (by omega) restOk_colon
          have hPV := (ih f (by omega)).1 v ('}' :: rest) hgv (by omega) restOk_rbrace
          have hvws : pVal f (' ' :: (pyReprV v ++ '}' :: rest)) = some (v, '}' :: rest) := by
            rw [pVal_ws (by decide)]
            exact hPV
          rw [hsh]
          conv_lhs => rw [pDictLoop]
          simp only [hkey, skipPyWs_cons_of_neg (show pyWsB ':' = false from by decide),
            show ((':' : Char) = ':') = True from by simp, if_true, hvws, hfresh,
            skipPyWs_cons_of_neg (show pyWsB '}' = false from by decide)]
          simp
        | cons kv2 t2 =>
          obtain ⟨k2, v2⟩ := kv2
          have hsh : pyReprO ((PyVal.pstr s, v) :: (k2, v2) :: t2) ++ '}' :: rest =
              pyReprV (.pstr s) ++ (':' :: ' ' :: (pyReprV v ++
                ',' :: ' ' :: (pyReprO ((k2, v2) :: t2) ++ '}' :: rest))) := by
            rw [show pyReprO ((PyVal.pstr s, v) :: (k2, v2) :: t2) =
              pyReprV (.pstr s) ++ [':', ' '] ++ pyReprV v ++ [',', ' '] ++
                pyReprO ((k2, v2) :: t2) from rfl]
            simp [List.append_assoc]
          have hkey := (ih f (by omega)).1 (.pstr s)
            (':' :: ' ' :: (pyReprV v ++
              ',' :: ' ' :: (pyReprO ((k2, v2) :: t2) ++ '}' :: rest))) hgk
            (by omega) restOk_colon
          have hPV := (ih f (by omega)).1 v
            (',' :: ' ' :: (pyReprO ((k2, v2) :: t2) ++ '}' :: rest)) hgv (by omega)
            restOk_comma
          have hvws : pVal f (' ' :: (pyReprV v ++
              ',' :: ' ' :: (pyReprO ((k2, v2) :: t2) ++ '}' :: rest))) =
              some (v, ',' :: ' ' :: (pyReprO ((k2, v2) :: t2) ++ '}' :: rest)) := by
            rw [pVal_ws (by decide)]
            exact hPV
          obtain ⟨ktail, hktail⟩ := pyReprO_cons_ex k2 v2 t2
          obtain ⟨ch, ct, hcht, hchf⟩ := pyReprV_head k2
          have hskip : skipPyWs (' ' :: (pyReprO ((k2, v2) :: t2) ++ '}' :: rest)) =
              ch :: (ct ++ (ktail ++ '}' :: rest)) := by
            rw [skipPyWs_cons_ws (by decide), hktail, hcht,
              show ((ch :: ct) ++ ktail) ++ '}' :: rest =
                ch :: (ct ++ (ktail ++ '}' :: rest)) from by simp [List.append_assoc]]
            exact skipPyWs_cons_of_neg hchf.2.1
          rw [hsh]
          conv_lhs => rw [pDictLoop]
          simp only [hkey, skipPyWs_cons_of_neg (show pyWsB ':' = false from by decide),
            show ((':' : Char) = ':') = True from by simp, if_true, hvws, hfresh,
            skipPyWs_cons_of_neg (show pyWsB ',' = false from by decide),
            show ((',' : Char) = ',') = True from by simp, hskip]
          rw [if_neg hchf.2.2.2.1]
          rw [pDictLoop_ws (by decide)]
          have hPOL := (ih f (by omega)).2.2 ((k2, v2) :: t2) (acc ++ [(PyVal.pstr s, v)])
            rest (by simp) hgt ?hdisj2 hnodup2 (by omega) hr
          case hdisj2 =>
            intro kv hkv k3 hk3
            rcases List.mem_append.mp hkv with hkv2 | hkv2
            · exact hdisj kv hkv2 k3 (List.mem_cons_of_mem _ hk3)
            · rw [List.mem_singleton] at hkv2
              subst hkv2
              exact hks k3 hk3
          rw [hPOL]
          simp

/-- `ast.literal_eval` round-trips `repr` on well-behaved values. -/
theorem literalEval_repr {v : PyVal} (hg : goodVal v = true) :
    literalEvalC (pyReprV v) = some v := by
  have h := (pRoundtrip (2 * (pyReprV v).length + 2)).1 v [] hg
    (by have := needV_le_repr v; omega) restOk_nil
  rw [List.append_nil] at h
  unfold literalEvalC
  rw [h]
  simp [skipPyWs]

/-! ### The balanced-segment scanner on serializer output -/

theorem scanOrd {ch : Char} (h1 : ch ≠ '"') (h2 : ch ≠ '{') (h3 : ch ≠ '}')
    (rest : Chars) (d : Int) (acc : Chars) :
    extractBalAux '{' '}' (ch :: rest) d false false acc =
      extractBalAux '{' '}' rest d false false (acc ++ [ch]) := by
  show (if ch == '"' then extractBalAux '{' '}' rest d true false (acc ++ [ch])
    else if ch == '{' then extractBalAux '{' '}' rest (d + 1) false false (acc ++ [ch])
    else if ch == '}' then
      if d - 1 == 0 then some (acc ++ [ch])
      else extractBalAux '{' '}' rest (d - 1) false false (acc ++ [ch])
    else extractBalAux '{' '}' rest d false false (acc ++ [ch])) =
    extractBalAux '{' '}' rest d false false (acc ++ [ch])
  rw [show (ch == '"') = false from beq_eq_false_iff_ne.mpr h1,
    show (ch == '{') = false from beq_eq_false_iff_ne.mpr h2,
    show (ch == '}') = false from beq_eq_false_iff_ne.mpr h3]
  simp

theorem scanRun :
    ∀ {run : Chars}, (∀ c ∈ run, c ≠ '"' ∧ c ≠ '{' ∧ c ≠ '}') →
    ∀ (rest : Chars) (d : Int) (acc : Chars),
    extractBalAux '{' '}' (run ++ rest) d false false acc =
      extractBalAux '{' '}' rest d false false (acc ++ run) := by
  intro run
  induction run with
  | nil => intro _ rest d acc; simp
  | cons c t ih =>
    intro h rest d acc
    obtain ⟨h1, h2, h3⟩ := h c (by simp)
    rw [List.cons_append, scanOrd h1 h2 h3, ih (fun x hx => h x (by simp [hx]))]
    simp

theorem scanStrIn :
    ∀ {s : Chars}, (∀ c ∈ s, c ≠ '"' ∧ c ≠ '\\') →
    ∀ (rest : Chars) (d : Int) (acc : Chars),
    extractBalAux '{' '}' (s ++ rest) d true false acc =
      extractBalAux '{' '}' rest d true false (acc ++ s) := by
  intro s
  induction s with
  | nil => intro _ rest d acc; simp
  | cons c t ih =>
    intro h rest d acc
    obtain ⟨h1, h2⟩ := h c (by simp)
    rw [List.cons_append]
    show (if c == '\\' then extractBalAux '{' '}' (t ++ rest) d true true (acc ++ [c])
      else if c == '"' then extractBalAux '{' '}' (t ++ rest) d false false (acc ++ [c])
      else extractBalAux '{' '}' (t ++ rest) d true false (acc ++ [c])) =
      extractBalAux '{' '}' rest d true false (acc ++ c :: t)
    rw [show (c == '\\') = false from beq_eq_false_iff_ne.mpr h2,
      show (c == '"') = false from beq_eq_false_iff_ne.mpr h1]
    simp only [Bool.false_eq_true, if_false]
    rw [ih (fun x hx => h x (by simp [hx]))]
    simp

theorem scanStr {s : Chars} (h : ∀ c ∈ s, c ≠ '"' ∧ c ≠ '\\')
    (rest : Chars) (d : Int) (acc : Chars) :
    extractBalAux '{' '}' ('"' :: s ++ '"' :: rest) d false false acc =
      extractBalAux '{' '}' rest d false false (acc ++ '"' :: s ++ ['"']) := by
  show extractBalAux '{' '}' (s ++ '"' :: rest) d true false (acc ++ ['"']) =
    extractBalAux '{' '}' rest d false false (acc ++ '"' :: s ++ ['"'])
  rw [scanStrIn h ('"' :: rest) d (acc ++ ['"'])]
  show extractBalAux '{' '}' rest d false false ((acc ++ ['"'] ++ s) ++ ['"']) =
    extractBalAux '{' '}' rest d false false (acc ++ '"' :: s ++ ['"'])
  rw [show (acc ++ ['"'] ++ s) ++ ['"'] = acc ++ '"' :: s ++ ['"'] from by
    simp [List.append_assoc]]

theorem intRepr_scan_facts (m : Int) :
    ∀ c ∈ intRepr m, c ≠ '"' ∧ c ≠ '{' ∧ c ≠ '}' := by
  intro c hc
  have hnum : isDigitB c = true ∨ c = '-' := by
    cases m with
    | ofNat k => exact Or.inl ((natDigits_spec k).2.1 c hc)
    | negSucc k =>
      rw [show intRepr (.negSucc k) = '-' :: natDigits (k + 1) from rfl] at hc
      rcases List.mem_cons.mp hc with rfl | hc2
      · exact Or.inr rfl
      · exact Or.inl ((natDigits_spec (k + 1)).2.1 c hc2)
  rcases hnum with hd | rfl
  · obtain ⟨hds⟩ := digit_ne_structural hd
    exact ⟨(digit_ne_structural hd).2.2.1, (digit_ne_structural hd).1,
      (digit_ne_structural hd).2.2.2.2.2.1⟩
  · exact ⟨by decide, by decide, by decide⟩

theorem keyword_scan_facts :
    (∀ c ∈ ("null".data : Chars), c ≠ '"' ∧ c ≠ '{' ∧ c ≠ '}') ∧
    (∀ c ∈ ("true".data : Chars), c ≠ '"' ∧ c ≠ '{' ∧ c ≠ '}') ∧
    (∀ c ∈ ("false".data : Chars), c ≠ '"' ∧ c ≠ '{' ∧ c ≠ '}') ∧
    (∀ c ∈ ("None".data : Chars), c ≠ '"' ∧ c ≠ '{' ∧ c ≠ '}') ∧
    (∀ c ∈ ("True".data : Chars), c ≠ '"' ∧ c ≠ '{' ∧ c ≠ '}') ∧
    (∀ c ∈ ("False".data : Chars), c ≠ '"' ∧ c ≠ '{' ∧ c ≠ '}') := by
  refine ⟨?_, ?_, ?_, ?_, ?_, ?_⟩ <;> decide

theorem scan_dumps_aux :
    ∀ n : Nat,
      (∀ v : PyVal, sizeOf v ≤ n → goodVal v = true →
        ∀ (rest : Chars) (d : Int) (acc : Chars), 1 ≤ d →
        extractBalAux '{' '}' (dumpsV v ++ rest) d false false acc =
          extractBalAux '{' '}' rest d false false (acc ++ dumpsV v)) ∧
      (∀ xs : List PyVal, sizeOf xs ≤ n → goodValL xs = true →
        ∀ (rest : Chars) (d : Int) (acc : Chars), 1 ≤ d →
        extractBalAux '{' '}' (dumpsL xs ++ rest) d false false acc =
          extractBalAux '{' '}' rest d false false (acc ++ dumpsL xs)) ∧
      (∀ kvs : List (PyVal × PyVal), sizeOf kvs ≤ n → goodValO kvs = true →
        ∀ (rest : Chars) (d : Int) (acc : Chars), 1 ≤ d →
        extractBalAux '{' '}' (dumpsO kvs ++ rest) d false false acc =
          extractBalAux '{' '}' rest d false false (acc ++ dumpsO kvs)) := by
  intro n
  induction n using Nat.strong_induction_on with
  | _ n ih =>
    refine ⟨?_, ?_, ?_⟩
    · intro v hv hg rest d acc hd
      cases v with
      | pnone => exact scanRun keyword_scan_facts.1 rest d acc
      | pbool b =>
        cases b with
        | true => exact scanRun keyword_scan_facts.2.1 rest d acc
        | false => exact scanRun keyword_scan_facts.2.2.1 rest d acc
      | pint m => exact scanRun (intRepr_scan_facts m) rest d acc
      | pstr s =>
        have hs := goodVal_pstr hg
        have hfacts : ∀ c ∈ s.data, c ≠ '"' ∧ c ≠ '\\' := by
          intro c hc
          obtain ⟨_, _, hq, _, hbs, _⟩ := plain_facts (hs c hc)
          exact ⟨hq, hbs⟩
        rw [show dumpsV (.pstr s) ++ rest = '"' :: s.data ++ '"' :: rest from by
          rw [show dumpsV (.pstr s) = jsonQuote s from rfl, jsonQuote_plain hs]
          simp]
        rw [scanStr hfacts rest d acc]
        rw [show dumpsV (.pstr s) = jsonQuote s from rfl, jsonQuote_plain hs]
        simp [List.append_assoc]
      | plist xs =>
        have hsz : sizeOf xs < n := by
          have : sizeOf (PyVal.plist xs) = 1 + sizeOf xs := by simp
          omega
        rw [show dumpsV (.plist xs) ++ rest = '[' :: (dumpsL xs ++ (']' :: rest)) from by
          rw [show dumpsV (.plist xs) = '[' :: (dumpsL xs ++ [']']) from rfl]
          simp [List.append_assoc]]
        rw [scanOrd (by decide) (by decide) (by decide)]
        rw [(ih (sizeOf xs) hsz).2.1 xs (le_refl _) (goodVal_plist hg) _ d _ hd]
        rw [scanOrd (by decide) (by decide) (by decide)]
        rw [show ((acc ++ ['[']) ++ dumpsL xs) ++ [']'] = acc ++ dumpsV (.plist xs) from by
          rw [show dumpsV (.plist xs) = '[' :: (dumpsL xs ++ [']']) from rfl]
          simp [List.append_assoc]]
      | pdict kvs =>
        have hsz : sizeOf kvs < n := by
          have : sizeOf (PyVal.pdict kvs) = 1 + sizeOf kvs := by simp
          omega
        rw [show dumpsV (.pdict kvs) ++ rest = '{' :: (dumpsO kvs ++ ('}' :: rest)) from by
          rw [show dumpsV (.pdict kvs) = '{' :: (dumpsO kvs ++ ['}']) from rfl]
          simp [List.append_assoc]]
        show extractBalAux '{' '}' (dumpsO kvs ++ '}' :: rest) (d + 1) false false
          (acc ++ ['{']) = _
        rw [(ih (sizeOf kvs) hsz).2.2 kvs (le_refl _) (goodVal_pdict hg).2 _ (d + 1) _
          (by omega)]
        show (if (d + 1 - 1 == 0) = true then some ((acc ++ ['{'] ++ dumpsO kvs) ++ ['}'])
          else extractBalAux '{' '}' rest (d + 1 - 1) false false
            ((acc ++ ['{'] ++ dumpsO kvs) ++ ['}'])) = _
        rw [show (d + 1 - 1 : Int) = d from by ring,
          if_neg (show ¬((d == 0) = true) from by simp only [beq_iff_eq]; omega)]
        rw [show ((acc ++ ['{'] ++ dumpsO kvs) ++ ['}']) = acc ++ dumpsV (.pdict kvs)
          from by
          rw [show dumpsV (.pdict kvs) = '{' :: (dumpsO kvs ++ ['}']) from rfl]
          simp [List.append_assoc]]
    · intro xs hxs hg rest d acc hd
      cases xs with
      | nil => simp [show dumpsL ([] : List PyVal) = [] from rfl]
      | cons x t =>
        obtain ⟨hgx, hgt⟩ := goodValL_cons hg
        have hszx : sizeOf x < n := by
          have : sizeOf (x :: t) = 1 + sizeOf x + sizeOf t := by simp
          omega
        cases t with
        | nil => exact (ih (sizeOf x) hszx).1 x (le_refl _) hgx rest d acc hd
        | cons y t2 =>
          have hszt : sizeOf (y :: t2) < n := by
            have : sizeOf (x :: y :: t2) = 1 + sizeOf x + sizeOf (y :: t2) := by simp
            omega
          rw [show dumpsL (x :: y :: t2) ++ rest =
            dumpsV x ++ (',' :: ' ' :: (dumpsL (y :: t2) ++ rest)) from by
            rw [show dumpsL (x :: y :: t2) = dumpsV x ++ [',', ' '] ++ dumpsL (y :: t2)
              from rfl]
            simp [List.append_assoc]]
          rw [(ih (sizeOf x) hszx).1 x (le_refl _) hgx _ d _ hd]
          rw [scanOrd (by decide) (by decide) (by decide),
            scanOrd (by decide) (by decide) (by decide)]
          rw [(ih (sizeOf (y :: t2)) hszt).2.1 (y :: t2) (le_refl _) hgt _ d _ hd]
          rw [show (((acc ++ dumpsV x) ++ [',']) ++ [' ']) ++ dumpsL (y :: t2) =
            acc ++ dumpsL (x :: y :: t2) from by
            rw [show dumpsL (x :: y :: t2) = dumpsV x ++ [',', ' '] ++ dumpsL (y :: t2)
              from rfl]
            simp [List.append_assoc]]
    · intro kvs hkvs hg rest d acc hd
      cases kvs with
      | nil => simp [show dumpsO ([] : List (PyVal × PyVal)) = [] from rfl]
      | cons kv t =>
        obtain ⟨k, v⟩ := kv
        obtain ⟨⟨s, rfl, hks⟩, hgv, hgt⟩ := goodValO_cons hg
        have hszv : sizeOf v < n := by
          have h1 : sizeOf ((PyVal.pstr s, v) :: t) =
            1 + sizeOf (PyVal.pstr s, v) + sizeOf t := by simp
          have h2 : sizeOf (PyVal.pstr s, v) = 1 + sizeOf (PyVal.pstr s) + sizeOf v := by
            simp
          omega
        have hkfacts : ∀ c ∈ s.data, c ≠ '"' ∧ c ≠ '\\' := by
          intro c hc
          obtain ⟨_, _, hq, _, hbs, _⟩ := plain_facts (hks c hc)
          exact ⟨hq, hbs⟩
        have hkey : ∀ (rest2 : Chars) (d2 : Int) (acc2 : Chars),
            extractBalAux '{' '}' (jsonKeyChars (.pstr s) ++ rest2) d2 false false acc2 =
            extractBalAux '{' '}' rest2 d2 false false
              (acc2 ++ jsonKeyChars (.pstr s)) := by
          intro rest2 d2 acc2
          rw [show jsonKeyChars (.pstr s) ++ rest2 = '"' :: s.data ++ '"' :: rest2 from by
            rw [show jsonKeyChars (.pstr s) = jsonQuote s from rfl, jsonQuote_plain hks]
            simp]
          rw [scanStr hkfacts rest2 d2 acc2]
          rw [show jsonKeyChars (.pstr s) = jsonQuote s from rfl, jsonQuote_plain hks]
          simp [List.append_assoc]
        cases t with
        | nil =>
          rw [show dumpsO [(PyVal.pstr s, v)] ++ rest =
            jsonKeyChars (.pstr s) ++ (':' :: ' ' :: (dumpsV v ++ rest)) from by
            rw [show dumpsO [(PyVal.pstr s, v)] =
              jsonKeyChars (.pstr s) ++ [':', ' '] ++ dumpsV v from rfl]
            simp [List.append_assoc]]
          rw [hkey]
          rw [scanOrd (by decide) (by decide) (by decide),
            scanOrd (by decide) (by decide) (by decide)]
          rw [(ih (sizeOf v) hszv).1 v (le_refl _) hgv _ d _ hd]
          rw [show (((acc ++ jsonKeyChars (.pstr s)) ++ [':']) ++ [' ']) ++ dumpsV v =
            acc ++ dumpsO [(PyVal.pstr s, v)] from by
            rw [show dumpsO [(PyVal.pstr s, v)] =
              jsonKeyChars (.pstr s) ++ [':', ' '] ++ dumpsV v from rfl]
            simp [List.append_assoc]]
        | cons kv2 t2 =>
          have hszt : sizeOf (kv2 :: t2) < n := by
            have : sizeOf ((PyVal.pstr s, v) :: kv2 :: t2) =
              1 + sizeOf (PyVal.pstr s, v) + sizeOf (kv2 :: t2) := by simp
            omega
          rw [show dumpsO ((PyVal.pstr s, v) :: kv2 :: t2) ++ rest =
            jsonKeyChars (.pstr s) ++ (':' :: ' ' :: (dumpsV v ++
              (',' :: ' ' :: (dumpsO (kv2 :: t2) ++ rest)))) from by
            rw [show dumpsO ((PyVal.pstr s, v) :: kv2 :: t2) =
              jsonKeyChars (.pstr s) ++ [':', ' '] ++ dumpsV v ++ [',', ' '] ++
                dumpsO (kv2 :: t2) from rfl]
            simp [List.append_assoc]]
          rw [hkey]
          rw [scanOrd (by decide) (by decide) (by decide),
            scanOrd (by decide) (by decide) (by decide)]
          rw [(ih (sizeOf v) hszv).1 v (le_refl _) hgv _ d _ hd]
          rw [scanOrd (by decide) (by decide) (by decide),
            scanOrd (by decide) (by decide) (by decide)]
          rw [(ih (sizeOf (kv2 :: t2)) hszt).2.2 (kv2 :: t2) (le_refl _) hgt _ d _ hd]
          rw [show (((((((acc ++ jsonKeyChars (.pstr s)) ++ [':']) ++ [' ']) ++
              dumpsV v) ++ [',']) ++ [' ']) ++ dumpsO (kv2 :: t2)) =
            acc ++ dumpsO ((PyVal.pstr s, v) :: kv2 :: t2) from by
            rw [show dumpsO ((PyVal.pstr s, v) :: kv2 :: t2) =
              jsonKeyChars (.pstr s) ++ [':', ' '] ++ dumpsV v ++ [',', ' '] ++
                dumpsO (kv2 :: t2) from rfl]
            simp [List.append_assoc]]

theorem reprQuote_scan_facts {s : String} (hs : ∀ c ∈ s.data, plainCharB c = true) :
    ∀ c ∈ reprQuote s, c ≠ '"' ∧ c ≠ '{' ∧ c ≠ '}' := by
  intro c hc
  rw [reprQuote_plain hs] at hc
  rcases List.mem_cons.mp hc with rfl | hc2
  · exact ⟨by decide, by decide, by decide⟩
  · rcases List.mem_append.mp hc2 with hc3 | hc3
    · obtain ⟨_, _, hq, _, _, hbr, hbr2, _⟩ := plain_facts (hs c hc3)
      exact ⟨hq, hbr, hbr2⟩
    · rw [List.mem_singleton] at hc3
      subst hc3
      exact ⟨by decide, by decide, by decide⟩

theorem scan_repr_aux :
    ∀ n : Nat,
      (∀ v : PyVal, sizeOf v ≤ n → goodVal v = true →
        ∀ (rest : Chars) (d : Int) (acc : Chars), 1 ≤ d →
        extractBalAux '{' '}' (pyReprV v ++ rest) d false false acc =
          extractBalAux '{' '}' rest d false false (acc ++ pyReprV v)) ∧
      (∀ xs : List PyVal, sizeOf xs ≤ n → goodValL xs = true →
        ∀ (rest : Chars) (d : Int) (acc : Chars), 1 ≤ d →
        extractBalAux '{' '}' (pyReprL xs ++ rest) d false false acc =
          extractBalAux '{' '}' rest d false false (acc ++ pyReprL xs)) ∧
      (∀ kvs : List (PyVal × PyVal), sizeOf kvs ≤ n → goodValO kvs = true →
        ∀ (rest : Chars) (d : Int) (acc : Chars), 1 ≤ d →
        extractBalAux '{' '}' (pyReprO kvs ++ rest) d false false acc =
          extractBalAux '{' '}' rest d false false (acc ++ pyReprO kvs)) := by
  intro n
  induction n using Nat.strong_induction_on with
  | _ n ih =>
    refine ⟨?_, ?_, ?_⟩
    · intro v hv hg rest d acc hd
      cases v with
      | pnone => exact scanRun keyword_scan_facts.2.2.2.1 rest d acc
      | pbool b =>
        cases b with
        | true => exact scanRun keyword_scan_facts.2.2.2.2.1 rest d acc
        | false => exact scanRun keyword_scan_facts.2.2.2.2.2 rest d acc
      | pint m => exact scanRun (intRepr_scan_facts m) rest d acc
      | pstr s =>
        exact scanRun (reprQuote_scan_facts (goodVal_pstr hg)) rest d acc
      | plist xs =>
        have hsz : sizeOf xs < n := by
          have : sizeOf (PyVal.plist xs) = 1 + sizeOf xs := by simp
          omega
        rw [show pyReprV (.plist xs) ++ rest = '[' :: (pyReprL xs ++ (']' :: rest)) from by
          rw [show pyReprV (.plist xs) = '[' :: (pyReprL xs ++ [']']) from rfl]
          simp [List.append_assoc]]
        rw [scanOrd (by decide) (by decide) (by decide)]
        rw [(ih (sizeOf xs) hsz).2.1 xs (le_refl _) (goodVal_plist hg) _ d _ hd]
        rw [scanOrd (by decide) (by decide) (by decide)]
        rw [show ((acc ++ ['[']) ++ pyReprL xs) ++ [']'] = acc ++ pyReprV (.plist xs)
          from by
          rw [show pyReprV (.plist xs) = '[' :: (pyReprL xs ++ [']']) from rfl]
          simp [List.append_assoc]]
      | pdict kvs =>
        have hsz : sizeOf kvs < n := by
          have : sizeOf (PyVal.pdict kvs) = 1 + sizeOf kvs := by simp
          omega
        rw [show pyReprV (.pdict kvs) ++ rest = '{' :: (pyReprO kvs ++ ('}' :: rest))
          from by
          rw [show pyReprV (.pdict kvs) = '{' :: (pyReprO kvs ++ ['}']) from rfl]
          simp [List.append_assoc]]
        show extractBalAux '{' '}' (pyReprO kvs ++ '}' :: rest) (d + 1) false false
          (acc ++ ['{']) = _
        rw [(ih (sizeOf kvs) hsz).2.2 kvs (le_refl _) (goodVal_pdict hg).2 _ (d + 1) _
          (by omega)]
        show (if (d + 1 - 1 == 0) = true then
            some ((acc ++ ['{'] ++ pyReprO kvs) ++ ['}'])
          else extractBalAux '{' '}' rest (d + 1 - 1) false false
            ((acc ++ ['{'] ++ pyReprO kvs) ++ ['}'])) = _
        rw [show (d + 1 - 1 : Int) = d from by ring,
          if_neg (show ¬((d == 0) = true) from by simp only [beq_iff_eq]; omega)]
        rw [show ((acc ++ ['{'] ++ pyReprO kvs) ++ ['}']) = acc ++ pyReprV (.pdict kvs)
          from by
          rw [show pyReprV (.pdict kvs) = '{' :: (pyReprO kvs ++ ['}']) from rfl]
          simp [List.append_assoc]]
    · intro xs hxs hg rest d acc hd
      cases xs with
      | nil => simp [show pyReprL ([] : List PyVal) = [] from rfl]
      | cons x t =>
        obtain ⟨hgx, hgt⟩ := goodValL_cons hg
        have hszx : sizeOf x < n := by
          have : sizeOf (x :: t) = 1 + sizeOf x + sizeOf t := by simp
          omega
        cases t with
        | nil => exact (ih (sizeOf x) hszx).1 x (le_refl _) hgx rest d acc hd
        | cons y t2 =>
          have hszt : sizeOf (y :: t2) < n := by
            have : sizeOf (x :: y :: t2) = 1 + sizeOf x + sizeOf (y :: t2) := by simp
            omega
          rw [show pyReprL (x :: y :: t2) ++ rest =
            pyReprV x ++ (',' :: ' ' :: (pyReprL (y :: t2) ++ rest)) from by
            rw [show pyReprL (x :: y :: t2) = pyReprV x ++ [',', ' '] ++ pyReprL (y :: t2)
              from rfl]
            simp [List.append_assoc]]
          rw [(ih (sizeOf x) hszx).1 x (le_refl _) hgx _ d _ hd]
          rw [scanOrd (by decide) (by decide) (by decide),
            scanOrd (by decide) (by decide) (by decide)]
          rw [(ih (sizeOf (y :: t2)) hszt).2.1 (y :: t2) (le_refl _) hgt _ d _ hd]
          rw [show (((acc ++ pyReprV x) ++ [',']) ++ [' ']) ++ pyReprL (y :: t2) =
            acc ++ pyReprL (x :: y :: t2) from by
            rw [show pyReprL (x :: y :: t2) = pyReprV x ++ [',', ' '] ++ pyReprL (y :: t2)
              from rfl]
            simp [List.append_assoc]]
    · intro kvs hkvs hg rest d acc hd
      cases kvs with
      | nil => simp [show pyReprO ([] : List (PyVal × PyVal)) = [] from rfl]
      | cons kv t =>
        obtain ⟨k, v⟩ := kv
        have hgk : goodVal k = true := goodValO_key_good hg
        obtain ⟨_, hgv, hgt⟩ := goodValO_cons hg
        have hszk : sizeOf k < n := by
          have h1 : sizeOf ((k, v) :: t) = 1 + sizeOf (k, v) + sizeOf t := by simp
          have h2 : sizeOf (k, v) = 1 + sizeOf k + sizeOf v := by simp
          omega
        have hszv : sizeOf v < n := by
          have h1 : sizeOf ((k, v) :: t) = 1 + sizeOf (k, v) + sizeOf t := by simp
          have h2 : sizeOf (k, v) = 1 + sizeOf k + sizeOf v := by simp
          omega
        cases t with
        | nil =>
          rw [show pyReprO [(k, v)] ++ rest =
            pyReprV k ++ (':' :: ' ' :: (pyReprV v ++ rest)) from by
            rw [show pyReprO [(k, v)] = pyReprV k ++ [':', ' '] ++ pyReprV v from rfl]
            simp [List.append_assoc]]
          rw [(ih (sizeOf k) hszk).1 k (le_refl _) hgk _ d _ hd]
          rw [scanOrd (by decide) (by decide) (by decide),
            scanOrd (by decide) (by decide) (by decide)]
          rw [(ih (sizeOf v) hszv).1 v (le_refl _) hgv _ d _ hd]
          rw [show (((acc ++ pyReprV k) ++ [':']) ++ [' ']) ++ pyReprV v =
            acc ++ pyReprO [(k, v)] from by
            rw [show pyReprO [(k, v)] = pyReprV k ++ [':', ' '] ++ pyReprV v from rfl]
            simp [List.append_assoc]]
        | cons kv2 t2 =>
          have hszt : sizeOf (kv2 :: t2) < n := by
            have : sizeOf ((k, v) :: kv2 :: t2) =
              1 + sizeOf (k, v) + sizeOf (kv2 :: t2) := by simp
            omega
          rw [show pyReprO ((k, v) :: kv2 :: t2) ++ rest =
            pyReprV k ++ (':' :: ' ' :: (pyReprV v ++
              (',' :: ' ' :: (pyReprO (kv2 :: t2) ++ rest)))) from by
            rw [show pyReprO ((k, v) :: kv2 :: t2) =
              pyReprV k ++ [':', ' '] ++ pyReprV v ++ [',', ' '] ++ pyReprO (kv2 :: t2)
              from rfl]
            simp [List.append_assoc]]
          rw [(ih (sizeOf k) hszk).1 k (le_refl _) hgk _ d _ hd]
          rw [scanOrd (by decide) (by decide) (by decide),
            scanOrd (by decide) (by decide) (by decide)]
          rw [(ih (sizeOf v) hszv).1 v (le_refl _) hgv _ d _ hd]
          rw [scanOrd (by decide) (by decide) (by decide),
            scanOrd (by decide) (by decide) (by decide)]
          rw [(ih (sizeOf (kv2 :: t2)) hszt).2.2 (kv2 :: t2) (le_refl _) hgt _ d _ hd]
          rw [show (((((((acc ++ pyReprV k) ++ [':']) ++ [' ']) ++
              pyReprV v) ++ [',']) ++ [' ']) ++ pyReprO (kv2 :: t2)) =
            acc ++ pyReprO ((k, v) :: kv2 :: t2) from by
            rw [show pyReprO ((k, v) :: kv2 :: t2) =
              pyReprV k ++ [':', ' '] ++ pyReprV v ++ [',', ' '] ++ pyReprO (kv2 :: t2)
              from rfl]
            simp [List.append_assoc]]

theorem scanClose (post : Chars) (acc : Chars) :
    extractBalAux '{' '}' ('}' :: post) (0 + 1) false false acc = some (acc ++ ['}']) := by
  show (if ((0 + 1 - 1 : Int) == 0) = true then some (acc ++ ['}'])
    else extractBalAux '{' '}' post (0 + 1 - 1) false false (acc ++ ['}'])) =
    some (acc ++ ['}'])
  rw [if_pos (show ((0 + 1 - 1 : Int) == 0) = true from by decide)]

theorem extract_dump_obj {kvs : List (PyVal × PyVal)}
    (hg : goodVal (.pdict kvs) = true) (post : Chars) :
    extractBalancedSegment (dumpsV (.pdict kvs) ++ post) =
      some (dumpsV (.pdict kvs)) := by
  rw [show dumpsV (.pdict kvs) ++ post = '{' :: (dumpsO kvs ++ ('}' :: post)) from by
    rw [show dumpsV (.pdict kvs) = '{' :: (dumpsO kvs ++ ['}']) from rfl]
    simp [List.append_assoc]]
  show extractBalAux '{' '}' (dumpsO kvs ++ '}' :: post) (0 + 1) false false ['{'] = _
  rw [(scan_dumps_aux (sizeOf kvs)).2.2 kvs (le_refl _) (goodVal_pdict hg).2 _ (0 + 1) _
    (by omega)]
  rw [scanClose]
  rw [show (['{'] ++ dumpsO kvs) ++ ['}'] = dumpsV (.pdict kvs) from by
    rw [show dumpsV (.pdict kvs) = '{' :: (dumpsO kvs ++ ['}']) from rfl]
    simp [List.append_assoc]]

theorem extract_serTrailing {kvs : List (PyVal × PyVal)}
    (hg : goodVal (.pdict kvs) = true) (post : Chars) :
    extractBalancedSegment (serTrailing kvs ++ post) = some (serTrailing kvs) := by
  rw [show serTrailing kvs ++ post = '{' :: (dumpsO kvs ++ (',' :: '}' :: post)) from by
    rw [show serTrailing kvs = '{' :: (dumpsO kvs ++ [',', '}']) from rfl]
    simp [List.append_assoc]]
  show extractBalAux '{' '}' (dumpsO kvs ++ ',' :: '}' :: post) (0 + 1) false false
    ['{'] = _
  rw [(scan_dumps_aux (sizeOf kvs)).2.2 kvs (le_refl _) (goodVal_pdict hg).2 _ (0 + 1) _
    (by omega)]
  rw [scanOrd (by decide) (by decide) (by decide)]
  rw [scanClose]
  rw [show ((['{'] ++ dumpsO kvs) ++ [',']) ++ ['}'] = serTrailing kvs from by
    rw [show serTrailing kvs = '{' :: (dumpsO kvs ++ [',', '}']) from rfl]
    simp [List.append_assoc]]

theorem extract_repr_obj {kvs : List (PyVal × PyVal)}
    (hg : goodVal (.pdict kvs) = true) (post : Chars) :
    extractBalancedSegment (pyReprV (.pdict kvs) ++ post) =
      some (pyReprV (.pdict kvs)) := by
  rw [show pyReprV (.pdict kvs) ++ post = '{' :: (pyReprO kvs ++ ('}' :: post)) from by
    rw [show pyReprV (.pdict kvs) = '{' :: (pyReprO kvs ++ ['}']) from rfl]
    simp [List.append_assoc]]
  show extractBalAux '{' '}' (pyReprO kvs ++ '}' :: post) (0 + 1) false false ['{'] = _
  rw [(scan_repr_aux (sizeOf kvs)).2.2 kvs (le_refl _) (goodVal_pdict hg).2 _ (0 + 1) _
    (by omega)]
  rw [scanClose]
  rw [show (['{'] ++ pyReprO kvs) ++ ['}'] = pyReprV (.pdict kvs) from by
    rw [show pyReprV (.pdict kvs) = '{' :: (pyReprO kvs ++ ['}']) from rfl]
    simp [List.append_assoc]]

theorem extractJsonCandidate_skip :
    ∀ {pre : Chars}, (∀ c ∈ pre, c ≠ '{' ∧ c ≠ '[') → ∀ cs : Chars,
    extractJsonCandidateC (pre ++ cs) = extractJsonCandidateC cs := by
  intro pre
  induction pre with
  | nil => intro _ cs; rfl
  | cons c t ih =>
    intro h cs
    obtain ⟨h1, h2⟩ := h c (by simp)
    show (if c == '{' || c == '[' then _ else extractJsonCandidateC (t ++ cs)) = _
    rw [show (c == '{') = false from beq_eq_false_iff_ne.mpr h1,
      show (c == '[') = false from beq_eq_false_iff_ne.mpr h2]
    simp only [Bool.or_self, Bool.false_eq_true, if_false]
    exact ih (fun x hx => h x (by simp [hx])) cs

theorem extractJsonCandidate_hit {cs seg : Chars} {t : Chars} (hc : cs = '{' :: t)
    (hseg : extractBalancedSegment cs = some seg) :
    extractJsonCandidateC cs = some seg := by
  subst hc
  show (if ('{' == '{' || '{' == '[') = true then
      match extractBalancedSegment ('{' :: t) with
      | some seg => some seg
      | none => extractJsonCandidateC t
    else extractJsonCandidateC t) = some seg
  rw [if_pos (by decide), hseg]

/-! ### The trailing-comma sanitizer on serializer output -/

theorem sanitizeAux_nil : ∀ f : Nat, sanitizeAux f [] = [] := by
  intro f
  cases f with
  | zero => rfl
  | succ f2 => rfl

theorem sanCharNe {c : Char} (h : c ≠ ',') (f : Nat) (rest : Chars) :
    sanitizeAux (f + 1) (c :: rest) = c :: sanitizeAux f rest := by
  show (if c = ',' then
      match rest.dropWhile pyWsB with
      | c2 :: t => if c2 == '}' || c2 == ']' then c2 :: sanitizeAux f t
        else ',' :: sanitizeAux f rest
      | [] => ',' :: sanitizeAux f rest
    else c :: sanitizeAux f rest) = c :: sanitizeAux f rest
  rw [if_neg h]

theorem sanRun :
    ∀ {run : Chars}, (∀ c ∈ run, c ≠ ',') → ∀ (f : Nat) (rest : Chars),
    sanitizeAux (run.length + f) (run ++ rest) = run ++ sanitizeAux f rest := by
  intro run
  induction run with
  | nil =>
    intro _ f rest
    simp
  | cons c t ih =>
    intro h f rest
    rw [show (c :: t).length + f = (t.length + f) + 1 from by
      simp [List.length_cons]
      omega]
    rw [List.cons_append, sanCharNe (h c (by simp)) (t.length + f) (t ++ rest),
      ih (fun x hx => h x (by simp [hx])) f rest]
    rfl

theorem sanSep {X : Chars} {ch : Char} {t2 : Chars} (hX : X = ch :: t2)
    (hws : pyWsB ch = false) (h1 : ch ≠ '}') (h2 : ch ≠ ']') (f : Nat) :
    sanitizeAux (f + 2) (',' :: ' ' :: X) = ',' :: ' ' :: sanitizeAux f X := by
  have hdrop : (' ' :: X).dropWhile pyWsB = ch :: t2 := by
    rw [List.dropWhile_cons, if_pos (by decide), hX]
    exact dropWhile_cons_of_neg hws
  show (if (',' : Char) = ',' then
      match (' ' :: X).dropWhile pyWsB with
      | c2 :: t => if c2 == '}' || c2 == ']' then c2 :: sanitizeAux (f + 1) t
        else ',' :: sanitizeAux (f + 1) (' ' :: X)
      | [] => ',' :: sanitizeAux (f + 1) (' ' :: X)
    else ',' :: sanitizeAux (f + 1) (' ' :: X)) = ',' :: ' ' :: sanitizeAux f X
  rw [if_pos rfl, hdrop]
  show (if ch == '}' || ch == ']' then ch :: sanitizeAux (f + 1) t2
    else ',' :: sanitizeAux (f + 1) (' ' :: X)) = ',' :: ' ' :: sanitizeAux f X
  rw [show (ch == '}') = false from beq_eq_false_iff_ne.mpr h1,
    show (ch == ']') = false from beq_eq_false_iff_ne.mpr h2]
  simp only [Bool.or_self, Bool.false_eq_true, if_false]
  rw [sanCharNe (by decide) f X]

theorem sanSepH {X : Chars} {ch : Char} (hch : X.head? = some ch)
    (hws : pyWsB ch = false) (h1 : ch ≠ '}') (h2 : ch ≠ ']') (f : Nat) :
    sanitizeAux (f + 2) (',' :: ' ' :: X) = ',' :: ' ' :: sanitizeAux f X := by
  cases X with
  | nil => exact absurd hch (by simp)
  | cons a t =>
    simp only [List.head?_cons, Option.some.injEq] at hch
    exact sanSep (by rw [hch]) hws h1 h2 f

theorem keyword_no_comma :
    (∀ c ∈ ("null".data : Chars), c ≠ ',') ∧
    (∀ c ∈ ("true".data : Chars), c ≠ ',') ∧
    (∀ c ∈ ("false".data : Chars), c ≠ ',') ∧
    (∀ c ∈ ("None".data : Chars), c ≠ ',') ∧
    (∀ c ∈ ("True".data : Chars), c ≠ ',') ∧
    (∀ c ∈ ("False".data : Chars), c ≠ ',') := by
  refine ⟨?_, ?_, ?_, ?_, ?_, ?_⟩ <;> decide

theorem intRepr_no_comma (m : Int) : ∀ c ∈ intRepr m, c ≠ ',' := by
  intro c hc
  have hnum : isDigitB c = true ∨ c = '-' := by
    cases m with
    | ofNat k => exact Or.inl ((natDigits_spec k).2.1 c hc)
    | negSucc k =>
      rw [show intRepr (.negSucc k) = '-' :: natDigits (k + 1) from rfl] at hc
      rcases List.mem_cons.mp hc with rfl | hc2
      · exact Or.inr rfl
      · exact Or.inl ((natDigits_spec (k + 1)).2.1 c hc2)
  rcases hnum with hd | rfl
  · exact (digit_ne_structural hd).2.2.2.2.2.2.1
  · decide

theorem jsonQuote_no_comma {s : String} (hs : ∀ c ∈ s.data, plainCharB c = true) :
    ∀ c ∈ jsonQuote s, c ≠ ',' := by
  intro c hc
  rw [jsonQuote_plain hs] at hc
  rcases List.mem_cons.mp hc with rfl | hc2
  · decide
  · rcases List.mem_append.mp hc2 with hc3 | hc3
    · exact (plain_facts (hs c hc3)).2.2.2.2.2.2.2.2.2.1
    · rw [List.mem_singleton] at hc3
      subst hc3
      decide

theorem reprQuote_no_comma {s : String} (hs : ∀ c ∈ s.data, plainCharB c = true) :
    ∀ c ∈ reprQuote s, c ≠ ',' := by
  intro c hc
  rw [reprQuote_plain hs] at hc
  rcases List.mem_cons.mp hc with rfl | hc2
  · decide
  · rcases List.mem_append.mp hc2 with hc3 | hc3
    · exact (plain_facts (hs c hc3)).2.2.2.2.2.2.2.2.2.1
    · rw [List.mem_singleton] at hc3
      subst hc3
      decide

theorem jsonKeyChars_head (k : PyVal) : ∃ t, jsonKeyChars k = '"' :: t := by
  cases k with
  | pbool b => cases b <;> exact ⟨_, rfl⟩
  | pnone => exact ⟨_, rfl⟩
  | pint n => exact ⟨_, rfl⟩
  | pstr s => exact ⟨_, rfl⟩
  | plist xs => exact ⟨_, rfl⟩
  | pdict kvs => exact ⟨_, rfl⟩

theorem dumpsL_cons_head (y : PyVal) (t2 : List PyVal) (rest : Chars) :
    ∃ c, (dumpsL (y :: t2) ++ rest).head? = some c ∧ headFacts c := by
  obtain ⟨c, t, hct, hf⟩ := dumpsV_head y
  cases t2 with
  | nil =>
    refine ⟨c, ?_, hf⟩
    rw [show dumpsL [y] = dumpsV y from rfl, hct]
    rfl
  | cons z t3 =>
    refine ⟨c, ?_, hf⟩
    rw [show dumpsL (y :: z :: t3) = dumpsV y ++ [',', ' '] ++ dumpsL (z :: t3)
      from rfl, hct]
    rfl

theorem dumpsO_cons_head (kv : PyVal × PyVal) (t2 : List (PyVal × PyVal))
    (rest : Chars) : (dumpsO (kv :: t2) ++ rest).head? = some '"' := by
  obtain ⟨k, v⟩ := kv
  obtain ⟨t, ht⟩ := jsonKeyChars_head k
  cases t2 with
  | nil =>
    rw [show dumpsO [(k, v)] = jsonKeyChars k ++ [':', ' '] ++ dumpsV v from rfl, ht]
    rfl
  | cons kv2 t3 =>
    rw [show dumpsO ((k, v) :: kv2 :: t3) =
      jsonKeyChars k ++ [':', ' '] ++ dumpsV v ++ [',', ' '] ++ dumpsO (kv2 :: t3)
      from rfl, ht]
    rfl

theorem pyReprL_cons_head (y : PyVal) (t2 : List PyVal) (rest : Chars) :
    ∃ c, (pyReprL (y :: t2) ++ rest).head? = some c ∧ headFacts c := by
  obtain ⟨c, t, hct, hf⟩ := pyReprV_head y
  cases t2 with
  | nil =>
    refine ⟨c, ?_, hf⟩
    rw [show pyReprL [y] = pyReprV y from rfl, hct]
    rfl
  | cons z t3 =>
    refine ⟨c, ?_, hf⟩
    rw [show pyReprL (y :: z :: t3) = pyReprV y ++ [',', ' '] ++ pyReprL (z :: t3)
      from rfl, hct]
    rfl

theorem pyReprO_cons_head (kv : PyVal × PyVal) (t2 : List (PyVal × PyVal))
    (rest : Chars) :
    ∃ c, (pyReprO (kv :: t2) ++ rest).head? = some c ∧ headFacts c := by
  obtain ⟨k, v⟩ := kv
  obtain ⟨c, t, hct, hf⟩ := pyReprV_head k
  cases t2 with
  | nil =>
    refine ⟨c, ?_, hf⟩
    rw [show pyReprO [(k, v)] = pyReprV k ++ [':', ' '] ++ pyReprV v from rfl, hct]
    rfl
  | cons kv2 t3 =>
    refine ⟨c, ?_, hf⟩
    rw [show pyReprO ((k, v) :: kv2 :: t3) =
      pyReprV k ++ [':', ' '] ++ pyReprV v ++ [',', ' '] ++ pyReprO (kv2 :: t3)
      from rfl, hct]
    rfl

theorem san_dumps_aux :
    ∀ n : Nat,
      (∀ v : PyVal, sizeOf v ≤ n → goodVal v = true →
        ∀ (f : Nat) (rest : Chars),
        sanitizeAux ((dumpsV v).length + f) (dumpsV v ++ rest) =
          dumpsV v ++ sanitizeAux f rest) ∧
      (∀ xs : List PyVal, sizeOf xs ≤ n → goodValL xs = true →
        ∀ (f : Nat) (rest : Chars),
        sanitizeAux ((dumpsL xs).length + f) (dumpsL xs ++ rest) =
          dumpsL xs ++ sanitizeAux f rest) ∧
      (∀ kvs : List (PyVal × PyVal), sizeOf kvs ≤ n → goodValO kvs = true →
        ∀ (f : Nat) (rest : Chars),
        sanitizeAux ((dumpsO kvs).length + f) (dumpsO kvs ++ rest) =
          dumpsO kvs ++ sanitizeAux f rest) := by
  intro n
  induction n using Nat.strong_induction_on with
  | _ n ih =>
    refine ⟨?_, ?_, ?_⟩
    · intro v hv hg f rest
      cases v with
      | pnone => exact sanRun keyword_no_comma.1 f rest
      | pbool b =>
        cases b with
        | true => exact sanRun keyword_no_comma.2.1 f rest
        | false => exact sanRun keyword_no_comma.2.2.1 f rest
      | pint m => exact sanRun (intRepr_no_comma m) f rest
      | pstr s => exact sanRun (jsonQuote_no_comma (goodVal_pstr hg)) f rest
      | plist xs =>
        have hsz : sizeOf xs < n := by
          have : sizeOf (PyVal.plist xs) = 1 + sizeOf xs := by simp
          omega
        rw [show dumpsV (.plist xs) ++ rest = '[' :: (dumpsL xs ++ (']' :: rest))
          from by
          rw [show dumpsV (.plist xs) = '[' :: (dumpsL xs ++ [']']) from rfl]
          simp [List.append_assoc]]
        rw [show (dumpsV (PyVal.plist xs)).length + f =
            ((dumpsL xs).length + (f + 1)) + 1 from by
          rw [show dumpsV (.plist xs) = '[' :: (dumpsL xs ++ [']']) from rfl]
          simp only [List.length_cons, List.length_append, List.length_nil]
          omega]
        rw [sanCharNe (show ('[' : Char) ≠ ',' by decide) ((dumpsL xs).length + (f + 1))
          (dumpsL xs ++ (']' :: rest))]
        rw [(ih (sizeOf xs) hsz).2.1 xs (le_refl _) (goodVal_plist hg) (f + 1)
          (']' :: rest)]
        rw [sanCharNe (show (']' : Char) ≠ ',' by decide) f rest]
        rw [show dumpsV (.plist xs) = '[' :: (dumpsL xs ++ [']']) from rfl]
        simp [List.append_assoc]
      | pdict kvs =>
        have hsz : sizeOf kvs < n := by
          have : sizeOf (PyVal.pdict kvs) = 1 + sizeOf kvs := by simp
          omega
        rw [show dumpsV (.pdict kvs) ++ rest = '{' :: (dumpsO kvs ++ ('}' :: rest))
          from by
          rw [show dumpsV (.pdict kvs) = '{' :: (dumpsO kvs ++ ['}']) from rfl]
          simp [List.append_assoc]]
        rw [show (dumpsV (PyVal.pdict kvs)).length + f =
            ((dumpsO kvs).length + (f + 1)) + 1 from by
          rw [show dumpsV (.pdict kvs) = '{' :: (dumpsO kvs ++ ['}']) from rfl]
          simp only [List.length_cons, List.length_append, List.length_nil]
          omega]
        rw [sanCharNe (show ('{' : Char) ≠ ',' by decide) ((dumpsO kvs).length + (f + 1))
          (dumpsO kvs ++ ('}' :: rest))]
        rw [(ih (sizeOf kvs) hsz).2.2 kvs (le_refl _) (goodVal_pdict hg).2 (f + 1)
          ('}' :: rest)]
        rw [sanCharNe (show ('}' : Char) ≠ ',' by decide) f rest]
        rw [show dumpsV (.pdict kvs) = '{' :: (dumpsO kvs ++ ['}']) from rfl]
        simp [List.append_assoc]
    · intro xs hxs hg f rest
      cases xs with
      | nil => simp [show dumpsL ([] : List PyVal) = [] from rfl]
      | cons x t =>
        obtain ⟨hgx, hgt⟩ := goodValL_cons hg
        have hszx : sizeOf x < n := by
          have : sizeOf (x :: t) = 1 + sizeOf x + sizeOf t := by simp
          omega
        cases t with
        | nil => exact (ih (sizeOf x) hszx).1 x (le_refl _) hgx f rest
        | cons y t2 =>
          have hszt : sizeOf (y :: t2) < n := by
            have : sizeOf (x :: y :: t2) = 1 + sizeOf x + sizeOf (y :: t2) := by simp
            omega
          obtain ⟨ch, hch, hf⟩ := dumpsL_cons_head y t2 rest
          rw [show dumpsL (x :: y :: t2) ++ rest =
            dumpsV x ++ (',' :: ' ' :: (dumpsL (y :: t2) ++ rest)) from by
            rw [show dumpsL (x :: y :: t2) = dumpsV x ++ [',', ' '] ++ dumpsL (y :: t2)
              from rfl]
            simp [List.append_assoc]]
          rw [show (dumpsL (x :: y :: t2)).length + f =
              (dumpsV x).length + ((dumpsL (y :: t2)).length + f + 2) from by
            rw [show dumpsL (x :: y :: t2) = dumpsV x ++ [',', ' '] ++ dumpsL (y :: t2)
              from rfl]
            simp only [List.length_append, List.length_cons, List.length_nil]
            omega]
          rw [(ih (sizeOf x) hszx).1 x (le_refl _) hgx ((dumpsL (y :: t2)).length + f + 2)
            (',' :: ' ' :: (dumpsL (y :: t2) ++ rest))]
          rw [sanSepH hch hf.2.1 hf.2.2.2.1 hf.2.2.1 ((dumpsL (y :: t2)).length + f)]
          rw [(ih (sizeOf (y :: t2)) hszt).2.1 (y :: t2) (le_refl _) hgt f rest]
          rw [show dumpsL (x :: y :: t2) = dumpsV x ++ [',', ' '] ++ dumpsL (y :: t2)
            from rfl]
          simp [List.append_assoc]
    · intro kvs hkvs hg f rest
      cases kvs with
      | nil => simp [show dumpsO ([] : List (PyVal × PyVal)) = [] from rfl]
      | cons kv t =>
        obtain ⟨k, v⟩ := kv
        obtain ⟨⟨s, rfl, hks⟩, hgv, hgt⟩ := goodValO_cons hg
        have hszk : sizeOf (PyVal.pstr s) < n := by
          have h1 : sizeOf ((PyVal.pstr s, v) :: t) =
            1 + sizeOf (PyVal.pstr s, v) + sizeOf t := by simp
          have h2 : sizeOf (PyVal.pstr s, v) = 1 + sizeOf (PyVal.pstr s) + sizeOf v := by
            simp
          omega
        have hszv : sizeOf v < n := by
          have h1 : sizeOf ((PyVal.pstr s, v) :: t) =
            1 + sizeOf (PyVal.pstr s, v) + sizeOf t := by simp
          have h2 : sizeOf (PyVal.pstr s, v) = 1 + sizeOf (PyVal.pstr s) + sizeOf v := by
            simp
          omega
        have hgk : goodVal (PyVal.pstr s) = true := List.all_eq_true.mpr hks
        cases t with
        | nil =>
          rw [show dumpsO [(PyVal.pstr s, v)] ++ rest =
            dumpsV (.pstr s) ++ (':' :: ' ' :: (dumpsV v ++ rest)) from by
            rw [show dumpsO [(PyVal.pstr s, v)] =
              dumpsV (.pstr s) ++ [':', ' '] ++ dumpsV v from rfl]
            simp [List.append_assoc]]
          rw [show (dumpsO [(PyVal.pstr s, v)]).length + f =
              (dumpsV (PyVal.pstr s)).length + ((((dumpsV v).length + f) + 1) + 1)
              from by
            rw [show dumpsO [(PyVal.pstr s, v)] =
              dumpsV (.pstr s) ++ [':', ' '] ++ dumpsV v from rfl]
            simp only [List.length_append, List.length_cons, List.length_nil]
            omega]
          rw [(ih (sizeOf (PyVal.pstr s)) hszk).1 (.pstr s) (le_refl _) hgk
            ((((dumpsV v).length + f) + 1) + 1) (':' :: ' ' :: (dumpsV v ++ rest))]
          rw [sanCharNe (show (':' : Char) ≠ ',' by decide) (((dumpsV v).length + f) + 1)
            (' ' :: (dumpsV v ++ rest))]
          rw [sanCharNe (show (' ' : Char) ≠ ',' by decide) ((dumpsV v).length + f)
            (dumpsV v ++ rest)]
          rw [(ih (sizeOf v) hszv).1 v (le_refl _) hgv f rest]
          rw [show dumpsO [(PyVal.pstr s, v)] =
            dumpsV (.pstr s) ++ [':', ' '] ++ dumpsV v from rfl]
          simp [List.append_assoc]
        | cons kv2 t2 =>
          have hszt : sizeOf (kv2 :: t2) < n := by
            have : sizeOf ((PyVal.pstr s, v) :: kv2 :: t2) =
              1 + sizeOf (PyVal.pstr s, v) + sizeOf (kv2 :: t2) := by simp
            omega
          have hch := dumpsO_cons_head kv2 t2 rest
          rw [show dumpsO ((PyVal.pstr s, v) :: kv2 :: t2) ++ rest =
            dumpsV (.pstr s) ++ (':' :: ' ' :: (dumpsV v ++
              (',' :: ' ' :: (dumpsO (kv2 :: t2) ++ rest)))) from by
            rw [show dumpsO ((PyVal.pstr s, v) :: kv2 :: t2) =
              dumpsV (.pstr s) ++ [':', ' '] ++ dumpsV v ++ [',', ' '] ++
                dumpsO (kv2 :: t2) from rfl]
            simp [List.append_assoc]]
          rw [show (dumpsO ((PyVal.pstr s, v) :: kv2 :: t2)).length + f =
              (dumpsV (PyVal.pstr s)).length +
                ((((dumpsV v).length + ((dumpsO (kv2 :: t2)).length + f + 2)) + 1) + 1)
              from by
            rw [show dumpsO ((PyVal.pstr s, v) :: kv2 :: t2) =
              dumpsV (.pstr s) ++ [':', ' '] ++ dumpsV v ++ [',', ' '] ++
                dumpsO (kv2 :: t2) from rfl]
            simp only [List.length_append, List.length_cons, List.length_nil]
            omega]
          rw [(ih (sizeOf (PyVal.pstr s)) hszk).1 (.pstr s) (le_refl _) hgk
            ((((dumpsV v).length + ((dumpsO (kv2 :: t2)).length + f + 2)) + 1) + 1)
            (':' :: ' ' :: (dumpsV v ++ (',' :: ' ' :: (dumpsO (kv2 :: t2) ++ rest))))]
          rw [sanCharNe (show (':' : Char) ≠ ',' by decide)
            (((dumpsV v).length + ((dumpsO (kv2 :: t2)).length + f + 2)) + 1)
            (' ' :: (dumpsV v ++ (',' :: ' ' :: (dumpsO (kv2 :: t2) ++ rest))))]
          rw [sanCharNe (show (' ' : Char) ≠ ',' by decide)
            ((dumpsV v).length + ((dumpsO (kv2 :: t2)).length + f + 2))
            (dumpsV v ++ (',' :: ' ' :: (dumpsO (kv2 :: t2) ++ rest)))]
          rw [(ih (sizeOf v) hszv).1 v (le_refl _) hgv
            ((dumpsO (kv2 :: t2)).length + f + 2)
            (',' :: ' ' :: (dumpsO (kv2 :: t2) ++ rest))]
          rw [sanSepH hch (by decide) (by decide) (by decide)
            ((dumpsO (kv2 :: t2)).length + f)]
          rw [(ih (sizeOf (kv2 :: t2)) hszt).2.2 (kv2 :: t2) (le_refl _) hgt f rest]
          rw [show dumpsO ((PyVal.pstr s, v) :: kv2 :: t2) =
            dumpsV (.pstr s) ++ [':', ' '] ++ dumpsV v ++ [',', ' '] ++
              dumpsO (kv2 :: t2) from rfl]
          simp [List.append_assoc]

theorem san_repr_aux :
    ∀ n : Nat,
      (∀ v : PyVal, sizeOf v ≤ n → goodVal v = true →
        ∀ (f : Nat) (rest : Chars),
        sanitizeAux ((pyReprV v).length + f) (pyReprV v ++ rest) =
          pyReprV v ++ sanitizeAux f rest) ∧
      (∀ xs : List PyVal, sizeOf xs ≤ n → goodValL xs = true →
        ∀ (f : Nat) (rest : Chars),
        sanitizeAux ((pyReprL xs).length + f) (pyReprL xs ++ rest) =
          pyReprL xs ++ sanitizeAux f rest) ∧
      (∀ kvs : List (PyVal × PyVal), sizeOf kvs ≤ n → goodValO kvs = true →
        ∀ (f : Nat) (rest : Chars),
        sanitizeAux ((pyReprO kvs).length + f) (pyReprO kvs ++ rest) =
          pyReprO kvs ++ sanitizeAux f rest) := by
  intro n
  induction n using Nat.strong_induction_on with
  | _ n ih =>
    refine ⟨?_, ?_, ?_⟩
    · intro v hv hg f rest
      cases v with
      | pnone => exact sanRun keyword_no_comma.2.2.2.1 f rest
      | pbool b =>
        cases b with
        | true => exact sanRun keyword_no_comma.2.2.2.2.1 f rest
        | false => exact sanRun keyword_no_comma.2.2.2.2.2 f rest
      | pint m => exact sanRun (intRepr_no_comma m) f rest
      | pstr s => exact sanRun (reprQuote_no_comma (goodVal_pstr hg)) f rest
      | plist xs =>
        have hsz : sizeOf xs < n := by
          have : sizeOf (PyVal.plist xs) = 1 + sizeOf xs := by simp
          omega
        rw [show pyReprV (.plist xs) ++ rest = '[' :: (pyReprL xs ++ (']' :: rest))
          from by
          rw [show pyReprV (.plist xs) = '[' :: (pyReprL xs ++ [']']) from rfl]
          simp [List.append_assoc]]
        rw [show (pyReprV (PyVal.plist xs)).length + f =
            ((pyReprL xs).length + (f + 1)) + 1 from by
          rw [show pyReprV (.plist xs) = '[' :: (pyReprL xs ++ [']']) from rfl]
          simp only [List.length_cons, List.length_append, List.length_nil]
          omega]
        rw [sanCharNe (show ('[' : Char) ≠ ',' by decide) ((pyReprL xs).length + (f + 1))
          (pyReprL xs ++ (']' :: rest))]
        rw [(ih (sizeOf xs) hsz).2.1 xs (le_refl _) (goodVal_plist hg) (f + 1)
          (']' :: rest)]
        rw [sanCharNe (show (']' : Char) ≠ ',' by decide) f rest]
        rw [show pyReprV (.plist xs) = '[' :: (pyReprL xs ++ [']']) from rfl]
        simp [List.append_assoc]
      | pdict kvs =>
        have hsz : sizeOf kvs < n := by
          have : sizeOf (PyVal.pdict kvs) = 1 + sizeOf kvs := by simp
          omega
        rw [show pyReprV (.pdict kvs) ++ rest = '{' :: (pyReprO kvs ++ ('}' :: rest))
          from by
          rw [show pyReprV (.pdict kvs) = '{' :: (pyReprO kvs ++ ['}']) from rfl]
          simp [List.append_assoc]]
        rw [show (pyReprV (PyVal.pdict kvs)).length + f =
            ((pyReprO kvs).length + (f + 1)) + 1 from by
          rw [show pyReprV (.pdict kvs) = '{' :: (pyReprO kvs ++ ['}']) from rfl]
          simp only [List.length_cons, List.length_append, List.length_nil]
          omega]
        rw [sanCharNe (show ('{' : Char) ≠ ',' by decide) ((pyReprO kvs).length + (f + 1))
          (pyReprO kvs ++ ('}' :: rest))]
        rw [(ih (sizeOf kvs) hsz).2.2 kvs (le_refl _) (goodVal_pdict hg).2 (f + 1)
          ('}' :: rest)]
        rw [sanCharNe (show ('}' : Char) ≠ ',' by decide) f rest]
        rw [show pyReprV (.pdict kvs) = '{' :: (pyReprO kvs ++ ['}']) from rfl]
        simp [List.append_assoc]
    · intro xs hxs hg f rest
      cases xs with
      | nil => simp [show pyReprL ([] : List PyVal) = [] from rfl]
      | cons x t =>
        obtain ⟨hgx, hgt⟩ := goodValL_cons hg
        have hszx : sizeOf x < n := by
          have : sizeOf (x :: t) = 1 + sizeOf x + sizeOf t := by simp
          omega
        cases t with
        | nil => exact (ih (sizeOf x) hszx).1 x (le_refl _) hgx f rest
        | cons y t2 =>
          have hszt : sizeOf (y :: t2) < n := by
            have : sizeOf (x :: y :: t2) = 1 + sizeOf x + sizeOf (y :: t2) := by simp
            omega
          obtain ⟨ch, hch, hf⟩ := pyReprL_cons_head y t2 rest
          rw [show pyReprL (x :: y :: t2) ++ rest =
            pyReprV x ++ (',' :: ' ' :: (pyReprL (y :: t2) ++ rest)) from by
            rw [show pyReprL (x :: y :: t2) = pyReprV x ++ [',', ' '] ++ pyReprL (y :: t2)
              from rfl]
            simp [List.append_assoc]]
          rw [show (pyReprL (x :: y :: t2)).length + f =
              (pyReprV x).length + ((pyReprL (y :: t2)).length + f + 2) from by
            rw [show pyReprL (x :: y :: t2) = pyReprV x ++ [',', ' '] ++ pyReprL (y :: t2)
              from rfl]
            simp only [List.length_append, List.length_cons, List.length_nil]
            omega]
          rw [(ih (sizeOf x) hszx).1 x (le_refl _) hgx ((pyReprL (y :: t2)).length + f + 2)
            (',' :: ' ' :: (pyReprL (y :: t2) ++ rest))]
          rw [sanSepH hch hf.2.1 hf.2.2.2.1 hf.2.2.1 ((pyReprL (y :: t2)).length + f)]
          rw [(ih (sizeOf (y :: t2)) hszt).2.1 (y :: t2) (le_refl _) hgt f rest]
          rw [show pyReprL (x :: y :: t2) = pyReprV x ++ [',', ' '] ++ pyReprL (y :: t2)
            from rfl]
          simp [List.append_assoc]
    · intro kvs hkvs hg f rest
      cases kvs with
      | nil => simp [show pyReprO ([] : List (PyVal × PyVal)) = [] from rfl]
      | cons kv t =>
        obtain ⟨k, v⟩ := kv
        obtain ⟨⟨s, rfl, hks⟩, hgv, hgt⟩ := goodValO_cons hg
        have hszk : sizeOf (PyVal.pstr s) < n := by
          have h1 : sizeOf ((PyVal.pstr s, v) :: t) =
            1 + sizeOf (PyVal.pstr s, v) + sizeOf t := by simp
          have h2 : sizeOf (PyVal.pstr s, v) = 1 + sizeOf (PyVal.pstr s) + sizeOf v := by
            simp
          omega
        have hszv : sizeOf v < n := by
          have h1 : sizeOf ((PyVal.pstr s, v) :: t) =
            1 + sizeOf (PyVal.pstr s, v) + sizeOf t := by simp
          have h2 : sizeOf (PyVal.pstr s, v) = 1 + sizeOf (PyVal.pstr s) + sizeOf v := by
            simp
          omega
        have hgk : goodVal (PyVal.pstr s) = true := List.all_eq_true.mpr hks
        cases t with
        | nil =>
          rw [show pyReprO [(PyVal.pstr s, v)] ++ rest =
            pyReprV (.pstr s) ++ (':' :: ' ' :: (pyReprV v ++ rest)) from by
            rw [show pyReprO [(PyVal.pstr s, v)] =
              pyReprV (.pstr s) ++ [':', ' '] ++ pyReprV v from rfl]
            simp [List.append_assoc]]
          rw [show (pyReprO [(PyVal.pstr s, v)]).length + f =
              (pyReprV (PyVal.pstr s)).length + ((((pyReprV v).length + f) + 1) + 1)
              from by
            rw [show pyReprO [(PyVal.pstr s, v)] =
              pyReprV (.pstr s) ++ [':', ' '] ++ pyReprV v from rfl]
            simp only [List.length_append, List.length_cons, List.length_nil]
            omega]
          rw [(ih (sizeOf (PyVal.pstr s)) hszk).1 (.pstr s) (le_refl _) hgk
            ((((pyReprV v).length + f) + 1) + 1) (':' :: ' ' :: (pyReprV v ++ rest))]
          rw [sanCharNe (show (':' : Char) ≠ ',' by decide) (((pyReprV v).length + f) + 1)
            (' ' :: (pyReprV v ++ rest))]
          rw [sanCharNe (show (' ' : Char) ≠ ',' by decide) ((pyReprV v).length + f)
            (pyReprV v ++ rest)]
          rw [(ih (sizeOf v) hszv).1 v (le_refl _) hgv f rest]
          rw [show pyReprO [(PyVal.pstr s, v)] =
            pyReprV (.pstr s) ++ [':', ' '] ++ pyReprV v from rfl]
          simp [List.append_assoc]
        | cons kv2 t2 =>
          have hszt : sizeOf (kv2 :: t2) < n := by
            have : sizeOf ((PyVal.pstr s, v) :: kv2 :: t2) =
              1 + sizeOf (PyVal.pstr s, v) + sizeOf (kv2 :: t2) := by simp
            omega
          obtain ⟨ch, hch, hf⟩ := pyReprO_cons_head kv2 t2 rest
          rw [show pyReprO ((PyVal.pstr s, v) :: kv2 :: t2) ++ rest =
            pyReprV (.pstr s) ++ (':' :: ' ' :: (pyReprV v ++
              (',' :: ' ' :: (pyReprO (kv2 :: t2) ++ rest)))) from by
            rw [show pyReprO ((PyVal.pstr s, v) :: kv2 :: t2) =
              pyReprV (.pstr s) ++ [':', ' '] ++ pyReprV v ++ [',', ' '] ++
                pyReprO (kv2 :: t2) from rfl]
            simp [List.append_assoc]]
          rw [show (pyReprO ((PyVal.pstr s, v) :: kv2 :: t2)).length + f =
              (pyReprV (PyVal.pstr s)).length +
                ((((pyReprV v).length + ((pyReprO (kv2 :: t2)).length + f + 2)) + 1) + 1)
              from by
            rw [show pyReprO ((PyVal.pstr s, v) :: kv2 :: t2) =
              pyReprV (.pstr s) ++ [':', ' '] ++ pyReprV v ++ [',', ' '] ++
                pyReprO (kv2 :: t2) from rfl]
            simp only [List.length_append, List.length_cons, List.length_nil]
            omega]
          rw [(ih (sizeOf (PyVal.pstr s)) hszk).1 (.pstr s) (le_refl _) hgk
            ((((pyReprV v).length + ((pyReprO (kv2 :: t2)).length + f + 2)) + 1) + 1)
            (':' :: ' ' :: (pyReprV v ++ (',' :: ' ' :: (pyReprO (kv2 :: t2) ++ rest))))]
          rw [sanCharNe (show (':' : Char) ≠ ',' by decide)
            (((pyReprV v).length + ((pyReprO (kv2 :: t2)).length + f + 2)) + 1)
            (' ' :: (pyReprV v ++ (',' :: ' ' :: (pyReprO (kv2 :: t2) ++ rest))))]
          rw [sanCharNe (show (' ' : Char) ≠ ',' by decide)
            ((pyReprV v).length + ((pyReprO (kv2 :: t2)).length + f + 2))
            (pyReprV v ++ (',' :: ' ' :: (pyReprO (kv2 :: t2) ++ rest)))]
          rw [(ih (sizeOf v) hszv).1 v (le_refl _) hgv
            ((pyReprO (kv2 :: t2)).length + f + 2)
            (',' :: ' ' :: (pyReprO (kv2 :: t2) ++ rest))]
          rw [sanSepH hch hf.2.1 hf.2.2.2.1 hf.2.2.1 ((pyReprO (kv2 :: t2)).length + f)]
          rw [(ih (sizeOf (kv2 :: t2)) hszt).2.2 (kv2 :: t2) (le_refl _) hgt f rest]
          rw [show pyReprO ((PyVal.pstr s, v) :: kv2 :: t2) =
            pyReprV (.pstr s) ++ [':', ' '] ++ pyReprV v ++ [',', ' '] ++
              pyReprO (kv2 :: t2) from rfl]
          simp [List.append_assoc]

theorem san_dumps {v : PyVal} (hg : goodVal v = true) :
    sanitizeJsonLikeC (dumpsV v) = dumpsV v := by
  have h := (san_dumps_aux (sizeOf v)).1 v (le_refl _) hg 0 []
  rw [List.append_nil] at h
  show sanitizeAux ((dumpsV v).length + 0) (dumpsV v) = dumpsV v
  rw [h, show sanitizeAux 0 [] = [] from rfl, List.append_nil]

theorem san_repr {v : PyVal} (hg : goodVal v = true) :
    sanitizeJsonLikeC (pyReprV v) = pyReprV v := by
  have h := (san_repr_aux (sizeOf v)).1 v (le_refl _) hg 0 []
  rw [List.append_nil] at h
  show sanitizeAux ((pyReprV v).length + 0) (pyReprV v) = pyReprV v
  rw [h, show sanitizeAux 0 [] = [] from rfl, List.append_nil]

theorem san_serTrailing {kvs : List (PyVal × PyVal)} (hg : goodValO kvs = true) :
    sanitizeJsonLikeC (serTrailing kvs) = dumpsV (.pdict kvs) := by
  have h := (san_dumps_aux (sizeOf kvs)).2.2 kvs (le_refl _) hg 2 [',', '}']
  show sanitizeAux (serTrailing kvs).length (serTrailing kvs) = dumpsV (.pdict kvs)
  rw [show serTrailing kvs = '{' :: (dumpsO kvs ++ [',', '}']) from rfl]
  rw [show ('{' :: (dumpsO kvs ++ ([',', '}'] : Chars))).length =
      ((dumpsO kvs).length + 2) + 1 from by
    simp only [List.length_cons, List.length_append, List.length_nil]]
  rw [sanCharNe (show ('{' : Char) ≠ ',' by decide) ((dumpsO kvs).length + 2)
    (dumpsO kvs ++ [',', '}'])]
  rw [h]
  rw [show sanitizeAux 2 ([',', '}'] : Chars) = ['}'] from rfl]
  rw [show dumpsV (.pdict kvs) = '{' :: (dumpsO kvs ++ ['}']) from rfl]

/-! ### Strict `json.loads` failures on the malformed variants -/

theorem jObjLoop_rbrace (fuel : Nat) (rest : Chars) (acc : List (PyVal × PyVal)) :
    jObjLoop fuel ('}' :: rest) acc = none := by
  cases fuel with
  | zero => rfl
  | succ f =>
    conv_lhs => rw [jObjLoop]
    simp only [skipWs_cons_of_neg (show jsonWsB '}' = false from by decide)]
    rw [if_neg (show ¬(('}' : Char) = '"') from by decide)]

theorem jObjLoop_head_fail {cs : Chars} {c : Char} (hh : cs.head? = some c)
    (hws : jsonWsB c = false) (hq : c ≠ '"') :
    ∀ (fuel : Nat) (acc : List (PyVal × PyVal)), jObjLoop fuel cs acc = none := by
  intro fuel acc
  cases fuel with
  | zero => rfl
  | succ f =>
    cases cs with
    | nil => exact absurd hh (by simp)
    | cons a t =>
      simp only [List.head?_cons, Option.some.injEq] at hh
      subst hh
      conv_lhs => rw [jObjLoop]
      simp only [skipWs_cons_of_neg hws]
      rw [if_neg hq]

theorem jObjLoop_trail :
    ∀ kvs2 : List (PyVal × PyVal), goodValO kvs2 = true →
      ∀ fuel : Nat, needO kvs2 ≤ fuel →
      ∀ (acc : List (PyVal × PyVal)) (rest : Chars),
      jObjLoop fuel (dumpsO kvs2 ++ ',' :: '}' :: rest) acc = none := by
  intro kvs2
  induction kvs2 with
  | nil =>
    intro _ fuel _ acc rest
    cases fuel with
    | zero => rfl
    | succ f =>
      rw [show dumpsO ([] : List (PyVal × PyVal)) ++ ',' :: '}' :: rest =
        ',' :: '}' :: rest from rfl]
      conv_lhs => rw [jObjLoop]
      simp only [skipWs_cons_of_neg (show jsonWsB ',' = false from by decide)]
      rw [if_neg (show ¬((',' : Char) = '"') from by decide)]
  | cons kv t ih =>
    intro hgo fuel hn acc rest
    obtain ⟨k, v⟩ := kv
    obtain ⟨⟨s, rfl, hs⟩, hgv, hgt⟩ := goodValO_cons hgo
    rw [needO_cons] at hn
    have hvv := needV_pos v
    obtain ⟨f, rfl⟩ : ∃ f, fuel = f + 1 := ⟨fuel - 1, by omega⟩
    cases t with
    | nil =>
      have hsh : dumpsO [(PyVal.pstr s, v)] ++ ',' :: '}' :: rest =
          '"' :: (s.data ++ '"' :: ':' :: ' ' :: (dumpsV v ++ ',' :: '}' :: rest)) := by
        rw [show dumpsO [(PyVal.pstr s, v)] =
          jsonKeyChars (.pstr s) ++ [':', ' '] ++ dumpsV v from rfl,
          show jsonKeyChars (.pstr s) = jsonQuote s from rfl, jsonQuote_plain hs]
        simp [List.append_assoc]
      have hPV := (jRoundtrip f).1 v (',' :: '}' :: rest) hgv (by omega) restOk_comma
      have hvws : jVal f (' ' :: (dumpsV v ++ ',' :: '}' :: rest)) =
          some (v, ',' :: '}' :: rest) := by
        rw [jVal_ws (by decide)]
        exact hPV
      rw [hsh]
      conv_lhs => rw [jObjLoop]
      simp only [skipWs_cons_of_neg (show jsonWsB '"' = false from by decide),
        show ('"' = '"') = True from by simp, if_true,
        jStr_plain hs (':' :: ' ' :: (dumpsV v ++ ',' :: '}' :: rest)),
        skipWs_cons_of_neg (show jsonWsB ':' = false from by decide),
        show (':' = ':') = True from by simp,
        hvws, string_mk_data,
        skipWs_cons_of_neg (show jsonWsB ',' = false from by decide),
        show ((',' : Char) = ',') = True from by simp]
      exact jObjLoop_rbrace f rest _
    | cons kv2 t2 =>
      have hsh : dumpsO ((PyVal.pstr s, v) :: kv2 :: t2) ++ ',' :: '}' :: rest =
          '"' :: (s.data ++ '"' :: ':' :: ' ' :: (dumpsV v ++
            ',' :: ' ' :: (dumpsO (kv2 :: t2) ++ ',' :: '}' :: rest))) := by
        rw [show dumpsO ((PyVal.pstr s, v) :: kv2 :: t2) =
          jsonKeyChars (.pstr s) ++ [':', ' '] ++ dumpsV v ++ [',', ' '] ++
            dumpsO (kv2 :: t2) from rfl,
          show jsonKeyChars (.pstr s) = jsonQuote s from rfl, jsonQuote_plain hs]
        simp [List.append_assoc]
      have hPV := (jRoundtrip f).1 v
        (',' :: ' ' :: (dumpsO (kv2 :: t2) ++ ',' :: '}' :: rest)) hgv (by omega)
        restOk_comma
      have hvws : jVal f (' ' :: (dumpsV v ++
          ',' :: ' ' :: (dumpsO (kv2 :: t2) ++ ',' :: '}' :: rest))) =
          some (v, ',' :: ' ' :: (dumpsO (kv2 :: t2) ++ ',' :: '}' :: rest)) := by
        rw [jVal_ws (by decide)]
        exact hPV
      rw [hsh]
      conv_lhs => rw [jObjLoop]
      simp only [skipWs_cons_of_neg (show jsonWsB '"' = false from by decide),
        show ('"' = '"') = True from by simp, if_true,
        jStr_plain hs (':' :: ' ' :: (dumpsV v ++
          ',' :: ' ' :: (dumpsO (kv2 :: t2) ++ ',' :: '}' :: rest))),
        skipWs_cons_of_neg (show jsonWsB ':' = false from by decide),
        show (':' = ':') = True from by simp,
        hvws, string_mk_data,
        skipWs_cons_of_neg (show jsonWsB ',' = false from by decide),
        show ((',' : Char) = ',') = True from by simp]
      rw [jObjLoop_ws (by decide)]
      exact ih hgt f (by omega) _ rest

theorem jsonLoadsC_braceEntry {body : Chars} {c : Char} (hh : body.head? = some c)
    (hws : jsonWsB c = false) (hne : c ≠ '}')
    {G : Nat} (hG : 2 * ('{' :: body).length + 2 = (G + 1) + 1)
    (hfail : jObjLoop G body [] = none) :
    jsonLoadsC ('{' :: body) = none := by
  have hstep : jVal ((G + 1) + 1) ('{' :: body) = jObj (G + 1) body := by
    conv_lhs => rw [jVal]
    simp only [skipWs_cons_of_neg (show jsonWsB '{' = false from by decide),
      show ('{' = '{') = True from by simp, if_true]
  have hstep2 : jObj (G + 1) body = jObjLoop G body [] := by
    cases body with
    | nil => exact absurd hh (by simp)
    | cons a t =>
      simp only [List.head?_cons, Option.some.injEq] at hh
      subst hh
      conv_lhs => rw [jObj]
      simp only [skipWs_cons_of_neg hws]
      rw [if_neg hne]
  unfold jsonLoadsC
  rw [hG, hstep, hstep2, hfail]

theorem jsonLoads_serTrailing {kvs : List (PyVal × PyVal)}
    (hg : goodValO kvs = true) : jsonLoadsC (serTrailing kvs) = none := by
  cases kvs with
  | nil => rfl
  | cons kv t =>
    have hho := dumpsO_cons_head kv t (',' :: '}' :: [])
    have hlen : 2 * ('{' :: (dumpsO (kv :: t) ++ [',', '}'])).length + 2 =
        ((2 * (dumpsO (kv :: t)).length + 6) + 1) + 1 := by
      simp only [List.length_cons, List.length_append, List.length_nil]
      omega
    have htrail := jObjLoop_trail (kv :: t) hg (2 * (dumpsO (kv :: t)).length + 6)
      (by have := needO_le_dumps (kv :: t); omega) [] []
    rw [show serTrailing (kv :: t) = '{' :: (dumpsO (kv :: t) ++ [',', '}'])
      from rfl]
    exact jsonLoadsC_braceEntry hho (by decide) (by decide) hlen htrail

theorem jsonLoads_reprDict {kvp : PyVal × PyVal} {t : List (PyVal × PyVal)}
    (hg : goodValO (kvp :: t) = true) :
    jsonLoadsC (pyReprV (.pdict (kvp :: t))) = none := by
  obtain ⟨k, v⟩ := kvp
  obtain ⟨⟨s, rfl, hs⟩, _, _⟩ := goodValO_cons hg
  have hh : (pyReprO ((PyVal.pstr s, v) :: t) ++ ['}']).head? = some '\'' := by
    cases t with
    | nil =>
      rw [show pyReprO [(PyVal.pstr s, v)] =
        pyReprV (.pstr s) ++ [':', ' '] ++ pyReprV v from rfl,
        show pyReprV (.pstr s) =
          '\'' :: ((s.data.map reprEscapeChar).flatten ++ ['\'']) from rfl]
      rfl
    | cons kv2 t2 =>
      rw [show pyReprO ((PyVal.pstr s, v) :: kv2 :: t2) =
        pyReprV (.pstr s) ++ [':', ' '] ++ pyReprV v ++ [',', ' '] ++
          pyReprO (kv2 :: t2) from rfl,
        show pyReprV (.pstr s) =
          '\'' :: ((s.data.map reprEscapeChar).flatten ++ ['\'']) from rfl]
      rfl
  rw [show pyReprV (.pdict ((PyVal.pstr s, v) :: t)) =
    '{' :: (pyReprO ((PyVal.pstr s, v) :: t) ++ ['}']) from by
    rw [show pyReprV (.pdict ((PyVal.pstr s, v) :: t)) =
      '{' :: (pyReprO ((PyVal.pstr s, v) :: t) ++ ['}']) from rfl]]
  obtain ⟨G, hG⟩ : ∃ G,
      2 * ('{' :: (pyReprO ((PyVal.pstr s, v) :: t) ++ ['}'])).length + 2 =
        (G + 1) + 1 :=
    ⟨2 * ('{' :: (pyReprO ((PyVal.pstr s, v) :: t) ++ ['}'])).length, by omega⟩
  exact jsonLoadsC_braceEntry hh (by decide) (by decide) hG
    (jObjLoop_head_fail hh (by decide) (by decide) G [])

/-! ### Assembling `_parse_json_like` runs from the stage results -/

theorem parseJsonLike_strictOk {cs : Chars} {v : PyVal}
    (hidem : pyStripC cs = cs) (hne : cs.isEmpty = false)
    (hload : jsonLoadsC cs = some v) :
    parseJsonLikeC cs = .ok v := by
  simp only [parseJsonLikeC]
  rw [hidem]
  simp only [hne, Bool.false_eq_true, if_false, hload]

theorem parseJsonLike_recoverOk {cs sub : Chars} {v : PyVal}
    (hidem : pyStripC cs = cs) (hne : cs.isEmpty = false)
    (hstrict : jsonLoadsC cs = none)
    (hext : extractJsonCandidateC cs = some sub)
    (hclean : jsonLoadsC (sanitizeJsonLikeC sub) = some v) :
    parseJsonLikeC cs = .ok v := by
  simp only [parseJsonLikeC]
  rw [hidem]
  simp only [hne, Bool.false_eq_true, if_false, hstrict, hext, hclean]

theorem parseJsonLike_literalOk {cs sub : Chars} {v : PyVal}
    (hidem : pyStripC cs = cs) (hne : cs.isEmpty = false)
    (hstrict : jsonLoadsC cs = none)
    (hext : extractJsonCandidateC cs = some sub)
    (hclean : jsonLoadsC (sanitizeJsonLikeC sub) = none)
    (hlit : literalEvalC (sanitizeJsonLikeC sub) = some v) :
    parseJsonLikeC cs = .ok v := by
  simp only [parseJsonLikeC]
  rw [hidem]
  simp only [hne, Bool.false_eq_true, if_false, hstrict, hext, hclean, hlit]

theorem mem_of_dropWhile {p : Char → Bool} {c : Char} :
    ∀ {l : Chars}, c ∈ l.dropWhile p → c ∈ l := by
  intro l
  induction l with
  | nil => intro h; exact h
  | cons a t ih =>
    intro h
    rw [List.dropWhile_cons] at h
    by_cases hpa : p a = true
    · rw [if_pos hpa] at h
      exact List.mem_cons_of_mem _ (ih h)
    · rw [if_neg hpa] at h
      exact h

/-! ### The four recovery runs of §4.4 on well-behaved dictionaries -/

theorem recover_dumps {v : PyVal} (hg : goodVal v = true) :
    recoverJson (String.mk (dumpsV v)) = .ok v := by
  obtain ⟨c, t, hct, hf⟩ := dumpsV_head v
  have hstrip : pyStripC (dumpsV v) = dumpsV v :=
    pyStrip_noop
      (fun c2 hc2 => by
        rw [hct] at hc2
        simp only [List.head?_cons, Option.some.injEq] at hc2
        subst hc2
        exact hf.2.1)
      (dumpsV_last v)
  have hfence : stripCodeFenceC (dumpsV v) = dumpsV v := by
    rw [stripCodeFence_plain (dumps_no_lt hg) ?hb, hstrip]
    case hb =>
      intro c2 hc2
      rw [hstrip, hct] at hc2
      simp only [List.head?_cons, Option.some.injEq] at hc2
      subst hc2
      exact hf.2.2.2.2.2.2.1
  have hne : (dumpsV v).isEmpty = false := by
    rw [hct]
    rfl
  show parseJsonLikeC (stripCodeFenceC (dumpsV v)) = .ok v
  rw [hfence]
  exact parseJsonLike_strictOk hstrip hne (jsonLoads_dumps hg)

theorem recover_serTrailing {kvs : List (PyVal × PyVal)}
    (hg : goodVal (.pdict kvs) = true) :
    recoverJson (String.mk (serTrailing kvs)) = .ok (.pdict kvs) := by
  have hhead : ∀ c, (serTrailing kvs).head? = some c → c = '{' := by
    intro c h
    rw [show serTrailing kvs = '{' :: (dumpsO kvs ++ [',', '}']) from rfl] at h
    simp only [List.head?_cons, Option.some.injEq] at h
    exact h.symm
  have hlast : ∀ c, (serTrailing kvs).getLast? = some c → pyWsB c = false := by
    intro c h
    rw [show serTrailing kvs = ('{' :: (dumpsO kvs ++ [','])) ++ ['}'] from by
        rw [show serTrailing kvs = '{' :: (dumpsO kvs ++ [',', '}']) from rfl]
        simp,
      List.getLast?_concat] at h
    simp at h
    subst h
    decide
  have hstrip : pyStripC (serTrailing kvs) = serTrailing kvs :=
    pyStrip_noop
      (fun c h => by rw [hhead c h]; decide)
      hlast
  have hlt : ∀ c ∈ serTrailing kvs, c ≠ '<' := by
    intro c hc
    rw [show serTrailing kvs = '{' :: (dumpsO kvs ++ [',', '}']) from rfl] at hc
    rcases List.mem_cons.mp hc with rfl | hc2
    · decide
    · rcases List.mem_append.mp hc2 with hc3 | hc3
      · exact (dumps_no_lt_aux (sizeOf kvs)).2.2 kvs (le_refl _)
          (goodVal_pdict hg).2 c hc3
      · simp only [List.mem_cons, List.mem_nil_iff, or_false] at hc3
        rcases hc3 with rfl | rfl
        · decide
        · decide
  have hfence : stripCodeFenceC (serTrailing kvs) = serTrailing kvs := by
    rw [stripCodeFence_plain hlt ?hb, hstrip]
    case hb =>
      intro c h
      rw [hstrip] at h
      rw [hhead c h]
      decide
  have hne : (serTrailing kvs).isEmpty = false := by
    rw [show serTrailing kvs = '{' :: (dumpsO kvs ++ [',', '}']) from rfl]
    rfl
  have hext : extractJsonCandidateC (serTrailing kvs) = some (serTrailing kvs) := by
    have hseg := extract_serTrailing hg []
    rw [List.append_nil] at hseg
    exact extractJsonCandidate_hit
      (show serTrailing kvs = '{' :: (dumpsO kvs ++ [',', '}']) from rfl) hseg
  have hclean : jsonLoadsC (sanitizeJsonLikeC (serTrailing kvs)) =
      some (.pdict kvs) := by
    rw [san_serTrailing (goodVal_pdict hg).2]
    exact jsonLoads_dumps hg
  show parseJsonLikeC (stripCodeFenceC (serTrailing kvs)) = .ok (.pdict kvs)
  rw [hfence]
  exact parseJsonLike_recoverOk hstrip hne
    (jsonLoads_serTrailing (goodVal_pdict hg).2) hext hclean

theorem recover_reprDict {kvs : List (PyVal × PyVal)}
    (hg : goodVal (.pdict kvs) = true) :
    recoverJson (String.mk (pyReprV (.pdict kvs))) = .ok (.pdict kvs) := by
  cases kvs with
  | nil => rfl
  | cons kv t =>
    have hhead : ∀ c, (pyReprV (.pdict (kv :: t))).head? = some c → c = '{' := by
      intro c h
      rw [show pyReprV (.pdict (kv :: t)) =
        '{' :: (pyReprO (kv :: t) ++ ['}']) from rfl] at h
      simp only [List.head?_cons, Option.some.injEq] at h
      exact h.symm
    have hstrip : pyStripC (pyReprV (.pdict (kv :: t))) = pyReprV (.pdict (kv :: t)) :=
      pyStrip_noop
        (fun c h => by rw [hhead c h]; decide)
        (pyReprV_last (.pdict (kv :: t)))
    have hfence : stripCodeFenceC (pyReprV (.pdict (kv :: t))) =
        pyReprV (.pdict (kv :: t)) := by
      rw [stripCodeFence_plain (repr_no_lt hg) ?hb, hstrip]
      case hb =>
        intro c h
        rw [hstrip] at h
        rw [hhead c h]
        decide
    have hne : (pyReprV (.pdict (kv :: t))).isEmpty = false := by
      rw [show pyReprV (.pdict (kv :: t)) =
        '{' :: (pyReprO (kv :: t) ++ ['}']) from rfl]
      rfl
    have hext : extractJsonCandidateC (pyReprV (.pdict (kv :: t))) =
        some (pyReprV (.pdict (kv :: t))) := by
      have hseg := extract_repr_obj hg []
      rw [List.append_nil] at hseg
      exact extractJsonCandidate_hit
        (show pyReprV (.pdict (kv :: t)) =
          '{' :: (pyReprO (kv :: t) ++ ['}']) from rfl) hseg
    have hclean : jsonLoadsC (sanitizeJsonLikeC (pyReprV (.pdict (kv :: t)))) =
        none := by
      rw [san_repr hg]
      exact jsonLoads_reprDict (goodVal_pdict hg).2
    have hlit : literalEvalC (sanitizeJsonLikeC (pyReprV (.pdict (kv :: t)))) =
        some (.pdict (kv :: t)) := by
      rw [san_repr hg]
      exact literalEval_repr hg
    show parseJsonLikeC (stripCodeFenceC (pyReprV (.pdict (kv :: t)))) =
      .ok (.pdict (kv :: t))
    rw [hfence]
    exact parseJsonLike_literalOk hstrip hne
      (jsonLoads_reprDict (goodVal_pdict hg).2) hext hclean hlit

theorem recover_prose_dumps {kvs : List (PyVal × PyVal)} {pre post : Chars}
    (hg : goodVal (.pdict kvs) = true)
    (hpre : ∀ c ∈ pre, plainCharB c = true)
    (hpost : ∀ c ∈ post, plainCharB c = true)
    (hstrict : jsonLoadsC (pyStripC (pre ++ dumpsV (.pdict kvs) ++ post)) = none) :
    recoverJson (String.mk (pre ++ dumpsV (.pdict kvs) ++ post)) =
      .ok (.pdict kvs) := by
  have hmidsh : dumpsV (.pdict kvs) = '{' :: (dumpsO kvs ++ ['}']) := rfl
  have hmidne : dumpsV (.pdict kvs) ≠ [] := by
    rw [hmidsh]
    simp
  have hmidhead : ∀ c, (dumpsV (.pdict kvs)).head? = some c → pyWsB c = false := by
    intro c h
    rw [hmidsh] at h
    simp only [List.head?_cons, Option.some.injEq] at h
    subst h
    decide
  have hsplit : pyStripC (pre ++ dumpsV (.pdict kvs) ++ post) =
      pre.dropWhile pyWsB ++ dumpsV (.pdict kvs) ++
        (post.reverse.dropWhile pyWsB).reverse :=
    pyStrip_concat hmidne hmidhead (dumpsV_last (.pdict kvs))
  have hpre2 : ∀ c ∈ pre.dropWhile pyWsB, plainCharB c = true :=
    fun c hc => hpre c (mem_of_dropWhile hc)
  have hpost2 : ∀ c ∈ (post.reverse.dropWhile pyWsB).reverse, plainCharB c = true := by
    intro c hc
    rw [List.mem_reverse] at hc
    have hc2 := mem_of_dropWhile hc
    rw [List.mem_reverse] at hc2
    exact hpost c hc2
  have hlt : ∀ c ∈ pre ++ dumpsV (.pdict kvs) ++ post, c ≠ '<' := by
    intro c hc
    rcases List.mem_append.mp hc with hc2 | hc3
    · rcases List.mem_append.mp hc2 with hc4 | hc5
      · exact (plain_facts (hpre c hc4)).2.2.2.2.2.2.2.2.2.2.1
      · exact dumps_no_lt hg c hc5
    · exact (plain_facts (hpost c hc3)).2.2.2.2.2.2.2.2.2.2.1
  have hbk : ∀ c, (pyStripC (pre ++ dumpsV (.pdict kvs) ++ post)).head? = some c →
      c ≠ Char.ofNat 96 := by
    intro c h
    rw [hsplit] at h
    cases hp : pre.dropWhile pyWsB with
    | nil =>
      rw [hp] at h
      simp only [List.nil_append] at h
      rw [hmidsh] at h
      simp only [List.cons_append, List.head?_cons, Option.some.injEq] at h
      subst h
      decide
    | cons a t2 =>
      rw [hp] at h
      simp only [List.cons_append, List.head?_cons, Option.some.injEq] at h
      subst h
      exact (plain_facts (hpre2 a (by rw [hp]; simp))).2.2.2.2.2.2.2.2.2.2.2
  have hfence : stripCodeFenceC (pre ++ dumpsV (.pdict kvs) ++ post) =
      pyStripC (pre ++ dumpsV (.pdict kvs) ++ post) :=
    stripCodeFence_plain hlt hbk
  have hidem : pyStripC (pre.dropWhile pyWsB ++ dumpsV (.pdict kvs) ++
      (post.reverse.dropWhile pyWsB).reverse) =
      pre.dropWhile pyWsB ++ dumpsV (.pdict kvs) ++
        (post.reverse.dropWhile pyWsB).reverse := by
    rw [← hsplit]
    exact pyStrip_idem _
  have hne : (pre.dropWhile pyWsB ++ dumpsV (.pdict kvs) ++
      (post.reverse.dropWhile pyWsB).reverse).isEmpty = false := by
    cases hp : pre.dropWhile pyWsB with
    | nil =>
      rw [List.nil_append, hmidsh, List.cons_append]
      rfl
    | cons a t2 =>
      rw [List.cons_append, List.cons_append]
      rfl
  have hseg := extract_dump_obj hg ((post.reverse.dropWhile pyWsB).reverse)
  have hpre3 : ∀ c ∈ pre.dropWhile pyWsB, c ≠ '{' ∧ c ≠ '[' := fun c hc =>
    ⟨(plain_facts (hpre2 c hc)).2.2.2.2.2.1,
     (plain_facts (hpre2 c hc)).2.2.2.2.2.2.2.1⟩
  have hext : extractJsonCandidateC (pre.dropWhile pyWsB ++ dumpsV (.pdict kvs) ++
      (post.reverse.dropWhile pyWsB).reverse) = some (dumpsV (.pdict kvs)) := by
    rw [List.append_assoc, extractJsonCandidate_skip hpre3]
    exact extractJsonCandidate_hit rfl hseg
  have hclean : jsonLoadsC (sanitizeJsonLikeC (dumpsV (.pdict kvs))) =
      some (.pdict kvs) := by
    rw [san_dumps hg]
    exact jsonLoads_dumps hg
  have hstrict2 : jsonLoadsC (pre.dropWhile pyWsB ++ dumpsV (.pdict kvs) ++
      (post.reverse.dropWhile pyWsB).reverse) = none := by
    rw [← hsplit]
    exact hstrict
  show parseJsonLikeC (stripCodeFenceC (pre ++ dumpsV (.pdict kvs) ++ post)) =
    .ok (.pdict kvs)
  rw [hfence, hsplit]
  exact parseJsonLike_recoverOk hidem hne hstrict2 hext hclean

/-- C4 (amended): on a well-behaved dictionary value (string keys and
string contents drawn from printable ASCII free of quotes, backslashes,
braces, brackets, commas, backticks and `<`; no duplicate keys), the
recovery pipeline round-trips clean JSON and tolerates the three
documented variants, all yielding exactly the clean-JSON object: (1) the
strict serialization parses back to the same value; (2) leading and
trailing plain prose around the object is recovered whenever the strict
whole-text parse fails; (3) a single trailing comma before the closing
brace is repaired by the sanitizer; (4) the Python-repr rendering
(single-quoted strings, Title-Case keywords) is recovered by the
permissive literal parse. Outside this alphabet the claim fails: the
sanitizer edits inside string literals (see the counterexample). -/
theorem c4_recovery_roundtrip_variants {kvs : List (PyVal × PyVal)}
    (hg : goodVal (.pdict kvs) = true) {pre post : Chars}
    (hpre : ∀ c ∈ pre, plainCharB c = true)
    (hpost : ∀ c ∈ post, plainCharB c = true)
    (hstrict : jsonLoadsC (pyStripC (pre ++ dumpsV (.pdict kvs) ++ post)) = none) :
    recoverJson (jsonDumps (.pdict kvs)) = .ok (.pdict kvs) ∧
    recoverJson (String.mk (pre ++ dumpsV (.pdict kvs) ++ post)) =
      .ok (.pdict kvs) ∧
    recoverJson (String.mk (serTrailing kvs)) = .ok (.pdict kvs) ∧
    recoverJson (String.mk (pyReprV (.pdict kvs))) = .ok (.pdict kvs) :=
  ⟨recover_dumps hg, recover_prose_dumps hg hpre hpost hstrict,
   recover_serTrailing hg, recover_reprDict hg⟩

/-- C4 witness: the dictionary `{"a": 1}` wrapped as `Sure! {"a": 1} done`,
with its trailing-comma and repr variants, all recover to the same value;
every hypothesis of the claim theorem holds at this input. -/
theorem c4_recovery_roundtrip_variants_witness :
    (goodVal (.pdict [(.pstr "a", .pint 1)]) = true ∧
     (∀ c ∈ "Sure! ".data, plainCharB c = true) ∧
     (∀ c ∈ " done".data, plainCharB c = true) ∧
     jsonLoadsC (pyStripC ("Sure! ".data ++ dumpsV (.pdict [(.pstr "a", .pint 1)]) ++
       " done".data)) = none) ∧
    (recoverJson (jsonDumps (.pdict [(.pstr "a", .pint 1)])) =
       .ok (.pdict [(.pstr "a", .pint 1)]) ∧
     recoverJson (String.mk ("Sure! ".data ++ dumpsV (.pdict [(.pstr "a", .pint 1)]) ++
       " done".data)) = .ok (.pdict [(.pstr "a", .pint 1)]) ∧
     recoverJson (String.mk (serTrailing [(.pstr "a", .pint 1)])) =
       .ok (.pdict [(.pstr "a", .pint 1)]) ∧
     recoverJson (String.mk (pyReprV (.pdict [(.pstr "a", .pint 1)]))) =
       .ok (.pdict [(.pstr "a", .pint 1)])) :=
  ⟨⟨by decide, by decide, by decide, by rfl⟩,
   @c4_recovery_roundtrip_variants [(.pstr "a", .pint 1)] (by decide)
     "Sure! ".data " done".data (by decide) (by decide) (by rfl)⟩

/-- C4 counterexample: the trailing-comma sanitizer is a plain regex over
the extracted span, so when prose forces the pipeline onto the recovery
path it rewrites a `,}` that lies inside a string literal; the recovered
value then differs from the strict parse of the very same embedded
object, refuting the unrestricted same-structure claim. -/
theorem c4_counterexample :
    parseJsonLike "Result: \x7b\"a\": \",\x7d\"\x7d thanks" =
      .ok (.pdict [(.pstr "a", .pstr "\x7d")]) ∧
    parseJsonLike "\x7b\"a\": \",\x7d\"\x7d" =
      .ok (.pdict [(.pstr "a", .pstr ",\x7d")]) ∧
    (PyVal.pdict [(.pstr "a", .pstr "\x7d")]) ≠
      (PyVal.pdict [(.pstr "a", .pstr ",\x7d")]) := by
  refine ⟨rfl, rfl, ?_⟩
  intro h
  have h2 := congrArg (fun v => match v with
    | PyVal.pdict ((_, PyVal.pstr s) :: _) => s
    | _ => "") h
  have h3 : ("\x7d" : String) = ",\x7d" := h2
  exact absurd h3 (by decide)

end Ketchup
